import Mathlib

/-!
# Chord-sheet section parser: a shallow embedding

The Go sources `internal/normalize/normalize.go` and `internal/parser/parser.go`
are embedded as Lean functions.

Modelling conventions.

* A Go `string` holding valid UTF-8 text is a `List Char` (`Str`).  All byte
  comparisons made by the sources are against ASCII bytes, which in valid
  UTF-8 occur only as ASCII characters, so character positions and byte
  positions agree wherever the sources index or slice.  Byte strings that are
  not valid UTF-8 are outside the embedding; a property that depends on them
  says so.
* A Go `int` is a 64-bit two's-complement integer: an `Int` kept in range by
  `wrapInt` wherever the source does arithmetic on it.
* An index or slice expression that Go would abort on is `none`.
* The iteration order of a Go `map` is unspecified: the order used by a
  `range` loop is a parameter of the function that loops.
-/

namespace ChordParser

/-- Go string of valid UTF-8 text, as its sequence of code points. -/
abbrev Str := List Char

/-! ## Go `int` -/

/-- Largest value of a 64-bit `int`. -/
def maxInt : Int := 9223372036854775807

/-- Two's-complement wrap-around of a mathematical integer to 64 bits. -/
def wrapInt (x : Int) : Int := (x + 9223372036854775808) % 18446744073709551616 - 9223372036854775808

/-! ## Package `unicode` and `strings` -/

namespace unicode

/-- Go `unicode.IsSpace`: the characters with the Unicode White_Space property. -/
def IsSpace (c : Char) : Bool :=
  let n := c.toNat
  (9 ≤ n && n ≤ 13) || n == 32 || n == 0x85 || n == 0xA0 || n == 0x1680 ||
    (0x2000 ≤ n && n ≤ 0x200a) || n == 0x2028 || n == 0x2029 || n == 0x202f ||
    n == 0x205f || n == 0x3000

/-- Go `unicode.ToLower` on the code points whose image or preimage is ASCII:
the letters `A`..`Z`, U+0130 (mapped to `i`) and U+212A (mapped to `k`).
Every other code point outside ASCII is mapped by Go to a code point outside
ASCII; the embedding leaves it in place, which changes no comparison with the
ASCII keys and tags the sources compare against. -/
def ToLower (c : Char) : Char :=
  if 65 ≤ c.toNat ∧ c.toNat ≤ 90 then Char.ofNat (c.toNat + 32)
  else if c.toNat = 0x130 then 'i'
  else if c.toNat = 0x212A then 'k'
  else c

end unicode

namespace strings

/-- Go `strings.TrimSpace`: drops leading and trailing white space. -/
def TrimSpace (s : Str) : Str :=
  List.rdropWhile unicode.IsSpace (List.dropWhile unicode.IsSpace s)

/-- Worker of `Fields`: `cur` is the field being read. -/
def fieldsGo : Str → Str → List Str
  | cur, [] => if cur = [] then [] else [cur]
  | cur, c :: cs =>
    if unicode.IsSpace c then
      (if cur = [] then fieldsGo [] cs else cur :: fieldsGo [] cs)
    else fieldsGo (cur ++ [c]) cs

/-- Go `strings.Fields`: the maximal runs of non-space characters, in order. -/
def Fields (s : Str) : List Str := fieldsGo [] s

/-- Go `strings.HasPrefix`. -/
def HasPrefix (s pre : Str) : Bool := pre.isPrefixOf s

/-- Go `strings.HasSuffix`. -/
def HasSuffix (s suf : Str) : Bool := suf.reverse.isPrefixOf s.reverse

/-- Go `strings.TrimSuffix`: `s` without the trailing `suf`, if it ends with it. -/
def TrimSuffix (s suf : Str) : Str :=
  if HasSuffix s suf then s.take (s.length - suf.length) else s

/-- Go `strings.Contains`. -/
def Contains : Str → Str → Bool
  | [], sub => sub.isEmpty
  | c :: cs, sub => sub.isPrefixOf (c :: cs) || Contains cs sub

/-- Worker of `ReplaceAll` for a non-empty `old`: `skip` counts the characters
of the occurrence of `old` just replaced that are still to be passed over. -/
def replaceGo (old new : Str) : Nat → Str → Str
  | _, [] => []
  | skip + 1, _ :: cs => replaceGo old new skip cs
  | 0, c :: cs =>
    if old.isPrefixOf (c :: cs) then new ++ replaceGo old new (old.length - 1) cs
    else c :: replaceGo old new 0 cs

/-- Go `strings.ReplaceAll` for a non-empty `old`: the non-overlapping
occurrences of `old`, found left to right, are replaced by `new`. -/
def ReplaceAll (s old new : Str) : Str := replaceGo old new 0 s

/-- Go `strings.ToLower`. -/
def ToLower (s : Str) : Str := s.map unicode.ToLower

/-- Go `strings.Split(s, sep)` for a one-character separator. -/
def Split (s : Str) (sep : Char) : List Str :=
  match s with
  | [] => [[]]
  | c :: cs =>
    if c = sep then [] :: Split cs sep
    else
      match Split cs sep with
      | [] => [[c]]
      | l :: ls => (c :: l) :: ls

/-- Go slice expression `s[i:j]`; `none` when Go aborts (`i > j` or `j > len(s)`). -/
def slice (s : Str) (i j : Nat) : Option Str :=
  if i ≤ j ∧ j ≤ s.length then some ((s.take j).drop i) else none

end strings

/-! ## Package `strconv` -/

namespace strconv

/-- Value of a decimal digit character. -/
def digitVal (c : Char) : Option Nat :=
  if 48 ≤ c.toNat ∧ c.toNat ≤ 57 then some (c.toNat - 48) else none

/-- Value of a string of decimal digits read left to right from `acc`;
`none` if some character is not a decimal digit. -/
def parseDigits : Nat → Str → Option Nat
  | acc, [] => some acc
  | acc, c :: cs =>
    match digitVal c with
    | none => none
    | some d => parseDigits (acc * 10 + d) cs

/-- Go `strconv.Atoi` for a 64-bit `int`: an optional sign followed by one or
more decimal digits whose value fits; `none` when Go returns an error. -/
def Atoi (s : Str) : Option Int :=
  match s with
  | [] => none
  | c :: cs =>
    let neg := c = '-'
    let ds := if c = '-' ∨ c = '+' then cs else c :: cs
    if ds = [] then none
    else
      match parseDigits 0 ds with
      | none => none
      | some v =>
        if neg then (if v ≤ 9223372036854775808 then some (-(v : Int)) else none)
        else (if v ≤ 9223372036854775807 then some (v : Int) else none)

/-- Decimal digits of `n`, least significant first; `fuel` bounds their number. -/
def digitsRev : Nat → Nat → Str
  | 0, _ => []
  | fuel + 1, n =>
    if n < 10 then [Char.ofNat (48 + n)]
    else Char.ofNat (48 + n % 10) :: digitsRev fuel (n / 10)

/-- Decimal representation of a natural number, no leading zeros. -/
def formatNat (n : Nat) : Str := (digitsRev (n + 1) n).reverse

/-- Go `strconv.Itoa`. -/
def Itoa (n : Int) : Str :=
  if n < 0 then '-' :: formatNat n.natAbs else formatNat n.natAbs

end strconv

/-! ## Package `normalize` -/

namespace normalize

/-- Source `normalize.Newlines`: CRLF and CR become LF. -/
def Newlines (s : Str) : Str :=
  let s := strings.ReplaceAll s ['\r', '\n'] ['\n']
  let s := strings.ReplaceAll s ['\r'] ['\n']
  s

/-- Source `normalize.StripDecorations`: removes one `[ ... ]` wrapper and then
one `<b>...</b>` wrapper.  `none` stands for an aborted index or slice. -/
def StripDecorations (s : Str) : Option Str :=
  let s := strings.TrimSpace s
  if s = [] then some s
  else
    match s.head?, s.getLast? with
    | some c0, some cl =>
      let s1 : Option Str :=
        if c0 = '[' ∧ cl = ']' then
          (strings.slice s 1 (s.length - 1)).map strings.TrimSpace
        else some s
      match s1 with
      | none => none
      | some s =>
        let l := strings.ToLower s
        if strings.HasPrefix l "<b>".toList ∧ strings.HasSuffix l "</b>".toList then
          (strings.slice s 3 (s.length - 4)).map strings.TrimSpace
        else some s
    | _, _ => none

/-- Source `normalize.Key`: lookup key of a name, without spaces, hyphens and
underscores and in lower case.  The case mapping is `unicode.ToLower` of this
embedding, which agrees with Go's on every comparison with the ASCII keys of
the table; `KeyWith` has the case mapping as a parameter. -/
def Key (s : Str) : Str :=
  let s := strings.TrimSpace s
  let s := strings.ReplaceAll s ['-'] []
  let s := strings.ReplaceAll s ['_'] []
  let s := strings.ReplaceAll s [' '] []
  strings.ToLower s

/-- Source `normalize.Key` with the case table of the library as a parameter:
on valid UTF-8 text Go's `strings.ToLower` applies `unicode.ToLower` to every
character, and `lower` stands for that mapping, whatever it does to a
character.  `Key` is `KeyWith unicode.ToLower`. -/
def KeyWith (lower : Char → Char) (s : Str) : Str :=
  let s := strings.TrimSpace s
  let s := strings.ReplaceAll s ['-'] []
  let s := strings.ReplaceAll s ['_'] []
  let s := strings.ReplaceAll s [' '] []
  s.map lower

/-- Source `normalize.IsDigits`: non-empty, accepted by `Atoi`, value positive. -/
def IsDigits (s : Str) : Bool :=
  if s = [] then false
  else
    match strconv.Atoi s with
    | none => false
    | some n => decide (n > 0)

end normalize

/-! ## Package `parser` -/

namespace parser

/-- Go `map[string]string`, as the list of its entries. -/
abbrev Table := List (Str × Str)

/-- Go map index `m[k]` with the comma-ok form: `none` when the key is absent. -/
def mapGet : Table → Str → Option Str
  | [], _ => none
  | (k, v) :: rest, key => if key = k then some v else mapGet rest key

/-- Source `keywordCanonical`: the keyword table, entries as listed in the source. -/
def keywordCanonical : Table :=
  [ ("verse".toList, "VERSE".toList),
    ("chorus".toList, "CHORUS".toList),
    ("refrain".toList, "REFRAIN".toList),
    ("prechorus".toList, "PRE-CHORUS".toList),
    ("pre-chorus".toList, "PRE-CHORUS".toList),
    ("postchorus".toList, "POST-CHORUS".toList),
    ("post-chorus".toList, "POST-CHORUS".toList),
    ("bridge".toList, "BRIDGE".toList),
    ("intro".toList, "INTRO".toList),
    ("outro".toList, "OUTRO".toList),
    ("ending".toList, "ENDING".toList),
    ("instrumental".toList, "INSTRUMENTAL".toList),
    ("interlude".toList, "INTERLUDE".toList),
    ("tag".toList, "TAG".toList),
    ("turnaround".toList, "TURNAROUND".toList),
    ("vamp".toList, "VAMP".toList),
    ("breakdown".toList, "BREAKDOWN".toList),
    ("refrein".toList, "CHORUS".toList),
    ("couplet".toList, "VERSE".toList),
    ("brug".toList, "BRIDGE".toList),
    ("uitro".toList, "OUTRO".toList),
    ("intermezzo".toList, "INTERLUDE".toList),
    ("instrumentaal".toList, "INSTRUMENTAL".toList),
    ("slot".toList, "ENDING".toList) ]

/-- Source `Section`. -/
structure Section where
  Header : Str
  Content : List Str
  deriving DecidableEq, Repr

/-- The sentinel header `"GENERAL"` of `Parse`. -/
def GENERAL : Str := "GENERAL".toList

/-- The loop `for strings.HasSuffix(trimmed, ":")` of `detectHeader`; every
round removes at least the colon, so `fuel = len(trimmed)` rounds suffice. -/
def dropColons : Nat → Str → Str
  | 0, s => s
  | fuel + 1, s =>
    if strings.HasSuffix s [':'] then
      dropColons fuel (strings.TrimSpace (strings.TrimSuffix s [':']))
    else s

/-- Source `detectHeader`.  `enum` is the order in which the `range` loop over
`keywordCanonical` visits the entries; `none` stands for an aborted index. -/
def detectHeader (enum : Table) (line : Str) : Option (Str × Int × Bool) :=
  let line := strings.ReplaceAll line "<b>".toList []
  let line := strings.ReplaceAll line "</b>".toList []
  let trimmed := strings.TrimSpace line
  if trimmed = [] then some ([], 0, false)
  else
    let trimmed := dropColons trimmed.length trimmed
    if trimmed = [] then some ([], 0, false)
    else
      let fields := strings.Fields trimmed
      match fields.getLast? with
      | none => none
      | some last =>
        let numbered : Bool × Int :=
          if normalize.IsDigits last then
            match strconv.Atoi last with
            | some n => (true, n)
            | none => (false, 0)
          else (false, 0)
        let num := numbered.2
        let name :=
          if numbered.1 then strings.TrimSpace (strings.TrimSuffix trimmed last) else trimmed
        match mapGet keywordCanonical (normalize.Key name) with
        | some canon => some (canon, num, true)
        | none =>
          match fields.head? with
          | none => none
          | some first =>
            match normalize.StripDecorations first with
            | none => none
            | some first =>
              let firstNorm := normalize.Key first
              match mapGet keywordCanonical firstNorm with
              | some canon => some (canon, num, true)
              | none =>
                match enum.find? (fun kv => strings.Contains firstNorm kv.1) with
                | some kv => some (kv.2, num, true)
                | none => some ([], 0, false)

/-- Source `splitBaseAndNumber`. -/
def splitBaseAndNumber (header : Str) : Str × Int :=
  let h := strings.TrimSpace header
  if h = [] then ([], 0)
  else
    match strings.Fields h with
    | [] => (h, 0)
    | [_] => (h, 0)
    | _ :: p :: ps =>
      let last := (p :: ps).getLast (List.cons_ne_nil p ps)
      if normalize.IsDigits last then
        match strconv.Atoi last with
        | some n => (strings.TrimSpace (strings.TrimSuffix h last), n)
        | none => (h, 0)
      else (h, 0)

/-- First loop of `makeUniqueHeaders`: occurrences per base, added to `m`. -/
def countBases : List Section → (Str → Int) → (Str → Int)
  | [], m => m
  | s :: rest, m =>
    let base := (splitBaseAndNumber s.Header).1
    countBases rest (Function.update m base (wrapInt (m base + 1)))

/-- Second loop of `makeUniqueHeaders`: `next` holds the last number given out
per base. -/
def renumber (baseCounts : Str → Int) : List Section → (Str → Int) → List Section
  | [], _ => []
  | s :: rest, next =>
    let base := (splitBaseAndNumber s.Header).1
    let n := (splitBaseAndNumber s.Header).2
    if baseCounts base ≤ 1 then s :: renumber baseCounts rest next
    else if n = 0 then
      let n := wrapInt (next base + 1)
      { s with Header := base ++ ' ' :: strconv.Itoa n } ::
        renumber baseCounts rest (Function.update next base n)
    else if n ≤ next base then
      let n := wrapInt (next base + 1)
      { s with Header := base ++ ' ' :: strconv.Itoa n } ::
        renumber baseCounts rest (Function.update next base n)
    else
      { s with Header := base ++ ' ' :: strconv.Itoa n } ::
        renumber baseCounts rest (Function.update next base n)

/-- Source `makeUniqueHeaders`. -/
def makeUniqueHeaders (sections : List Section) : List Section :=
  renumber (countBases sections (fun _ => 0)) sections (fun _ => 0)

/-- Local variables of the line loop of `Parse`. -/
structure ParseState where
  sections : List Section
  header : Str
  content : List Str
  foundAnyHeader : Bool

/-- The sections with the buffered content flushed, if there is any. -/
def flush (st : ParseState) : List Section :=
  if st.content.length > 0 then st.sections ++ [⟨st.header, st.content⟩] else st.sections

/-- One round of the line loop of `Parse`, given the result of `detectHeader`. -/
def parseLine (st : ParseState) (line : Str) (r : Str × Int × Bool) : ParseState :=
  if r.2.2 then
    { sections := flush st
      foundAnyHeader := true
      header := if r.2.1 > 0 then r.1 ++ ' ' :: strconv.Itoa r.2.1 else r.1
      content := [] }
  else { st with content := st.content ++ [line] }

/-- The line loop of `Parse`; line number `i` scans the table in order `enums i`. -/
def parseLoop (enums : Nat → Table) : Nat → List Str → ParseState → Option ParseState
  | _, [], st => some st
  | i, line :: rest, st =>
    match detectHeader (enums i) line with
    | none => none
    | some r => parseLoop enums (i + 1) rest (parseLine st line r)

/-- Source `Parse`. -/
def Parse (enums : Nat → Table) (text : Str) : Option (List Section) :=
  let text := normalize.Newlines text
  let lines := strings.Split text '\n'
  match parseLoop enums 0 lines ⟨[], GENERAL, [], false⟩ with
  | none => none
  | some st =>
    let sections := flush st
    some (if st.foundAnyHeader then makeUniqueHeaders sections else sections)

/-- Whether `detectHeader` recognises `line` as a header (the flag it returns;
it does not depend on the order in which the table is scanned). -/
def isHeader (line : Str) : Bool :=
  match detectHeader keywordCanonical line with
  | some r => r.2.2
  | none => false

/-- The canonical labels: the values of the keyword table. -/
def canonicalLabels : List Str := keywordCanonical.map Prod.snd

/-- The lines `Parse` walks over: the newline-normalised text split at LF. -/
def linesOf (text : Str) : List Str := strings.Split (normalize.Newlines text) '\n'

/-- All content lines of a section list, in order. -/
def contents (sections : List Section) : List Str := sections.flatMap Section.Content

/-- Base label of a section, as `makeUniqueHeaders` computes it. -/
def baseOf (s : Section) : Str := (splitBaseAndNumber s.Header).1

/-- Explicit number of a section, as `makeUniqueHeaders` computes it (0: none). -/
def explicitNumber (s : Section) : Int := (splitBaseAndNumber s.Header).2

/-- Number of sections of the list whose base label is `b`. -/
def groupSize (b : Str) (sections : List Section) : Nat :=
  sections.countP (fun s => decide (baseOf s = b))

/-- The numbering rule in the words of the spec: the first number of a group is
`max(e, 1)`, every later one `max(e, previous + 1)`; `prev` is the previous
number (0 before the first). -/
def specNumbers : Int → List Int → List Int
  | _, [] => []
  | prev, e :: es => max e (prev + 1) :: specNumbers (max e (prev + 1)) es

end parser

end ChordParser

/-! # The text cleaner (`internal/processor`) -/

namespace ChordParser

namespace strconv

/-- The value of a string read as a decimal numeral (meant for strings of
decimal digits only). -/
def decimalValue (s : Str) : Nat :=
  s.foldl (fun acc c => acc * 10 + (c.toNat - 48)) 0

end strconv

/-! ## Package `regexp` -/

namespace regexp

/-- Regular expressions of Go's `regexp` syntax, as far as the patterns of the
program use it.  Repetition is greedy and alternation prefers its left branch,
as in Go. -/
inductive Regex where
  | eps : Regex
  | cls : (Char → Bool) → Regex
  | seq : Regex → Regex → Regex
  | alt : Regex → Regex → Regex
  | star : Regex → Regex
  | bot : Regex
  | eot : Regex
  | wordBoundary : Regex

/-- A position in the text that is matched: the character before it (`none` at
the beginning of the text) and the text from it on. -/
structure Pos where
  prev : Option Char
  rest : Str

/-- The character before the position reached by passing over `m`. -/
def lastOr (prev : Option Char) (m : Str) : Option Char :=
  match m.getLast? with
  | some c => some c
  | none => prev

/-- The position reached from `p` by passing over the characters `m` (a prefix of
the text at `p`). -/
def Pos.adv (p : Pos) (m : Str) : Pos := ⟨lastOr p.prev m, p.rest.drop m.length⟩

/-- The stopping positions of a greedy `[class]*`, longest run first. -/
def starCls (f : Char → Bool) : Option Char → Str → List Pos
  | prev, [] => [⟨prev, []⟩]
  | prev, c :: cs => if f c then starCls f (some c) cs ++ [⟨prev, c :: cs⟩] else [⟨prev, c :: cs⟩]

/-- Go `\d`. -/
def isDigit (c : Char) : Bool := 48 ≤ c.toNat && c.toNat ≤ 57

/-- Go `\s`: the ASCII white space `[\t\n\f\r ]`. -/
def isSpace (c : Char) : Bool :=
  c.toNat == 9 || c.toNat == 10 || c.toNat == 12 || c.toNat == 13 || c.toNat == 32

/-- Go `\w`: the ASCII word characters `[0-9A-Za-z_]`. -/
def isWord (c : Char) : Bool :=
  (48 ≤ c.toNat && c.toNat ≤ 57) || (65 ≤ c.toNat && c.toNat ≤ 90) ||
    (97 ≤ c.toNat && c.toNat ≤ 122) || c.toNat == 95

/-- Whether the character next to a position, if any, is a word character. -/
def wordSide : Option Char → Bool
  | none => false
  | some c => isWord c

/-- The iterations of a greedy `r*`: `step` gives the ways `r` matches at a
position, best first.  Every iteration must advance, so `fuel = len(rest)`
iterations are all there can be. -/
def starLoop (step : Pos → List Pos) : Nat → Pos → List Pos
  | 0, p => [p]
  | fuel + 1, p =>
    ((step p).filter (fun q => decide (q.rest.length < p.rest.length))).flatMap
        (starLoop step fuel) ++ [p]

/-- All ways in which the expression matches at position `p`, as the positions
where the match ends, in the order in which a backtracking search finds them.
Go returns the first one ("leftmost-first" matching). -/
def run : Regex → Pos → List Pos
  | .eps, p => [p]
  | .cls f, p =>
    match p.rest with
    | [] => []
    | c :: cs => if f c then [⟨some c, cs⟩] else []
  | .seq a b, p => (run a p).flatMap (run b)
  | .alt a b, p => run a p ++ run b p
  | .star a, p => starLoop (run a) p.rest.length p
  | .bot, p => if p.prev.isNone then [p] else []
  | .eot, p => if p.rest.isEmpty then [p] else []
  | .wordBoundary, p => if wordSide p.prev != wordSide p.rest.head? then [p] else []

/-- The expression `r` matches exactly as the relation `L` says: from a position
with `prev` before it, `r` can pass over `M` with `t` left after it iff
`L prev M t`. -/
def Spec (r : Regex) (L : Option Char → Str → Str → Prop) : Prop :=
  ∀ p q, q ∈ run r p ↔ ∃ M t, p.rest = M ++ t ∧ q = p.adv M ∧ L p.prev M t

/-- The expression `r1 r2 ... rn`. -/
def cat : List Regex → Regex
  | [] => .eps
  | [r] => r
  | r :: rs => .seq r (cat rs)

/-- The expression matching the character `c`. -/
def chr (c : Char) : Regex := .cls (fun x => x == c)

/-- The expression matching the characters of `s` in a row. -/
def lit (s : Str) : Regex := cat (s.map chr)

/-- The expression `r+`. -/
def plus (r : Regex) : Regex := .seq r (.star r)

/-- The expression `r?`. -/
def opt (r : Regex) : Regex := .alt r .eps

/-- The letter `lower` under the flag `(?i)`: itself or its capital `upper`. -/
def foldCase (lower upper : Char) : Regex := .cls (fun x => x == lower || x == upper)

/-- Worker of `MatchString`: tries every position from the given one on. -/
def matchFrom (re : Regex) : Option Char → Str → Bool
  | prev, [] => !(run re ⟨prev, []⟩).isEmpty
  | prev, c :: cs => !(run re ⟨prev, c :: cs⟩).isEmpty || matchFrom re (some c) cs

/-- Go `(*Regexp).MatchString`. -/
def MatchString (re : Regex) (s : Str) : Bool := matchFrom re none s

/-- Worker of `ReplaceAllStringFunc`: walks over the text; `skip` counts the
characters of the match just replaced that are still to be passed over.  At
each position not inside a match the first way in which the expression matches
there is taken, so the matches are the leftmost ones, left to right. -/
def replaceAllGo (re : Regex) (repl : Str → Str) : Nat → Option Char → Str → Str
  | _, _, [] => []
  | skip + 1, _, c :: cs => replaceAllGo re repl skip (some c) cs
  | 0, prev, c :: cs =>
    match (run re ⟨prev, c :: cs⟩).head? with
    | some q =>
      if q.rest.length < (c :: cs).length then
        repl ((c :: cs).take ((c :: cs).length - q.rest.length)) ++
          replaceAllGo re repl ((c :: cs).length - q.rest.length - 1) (some c) cs
      else c :: replaceAllGo re repl 0 (some c) cs
    | none => c :: replaceAllGo re repl 0 (some c) cs

/-- Go `(*Regexp).ReplaceAllStringFunc`, for an expression that matches no empty
string (as all expressions of the program do). -/
def ReplaceAllStringFunc (re : Regex) (src : Str) (repl : Str → Str) : Str :=
  replaceAllGo re repl 0 none src

/-- Go `(*Regexp).ReplaceAllString`, for an expression that matches no empty
string and a replacement without `$`. -/
def ReplaceAllString (re : Regex) (src repl : Str) : Str :=
  replaceAllGo re (fun _ => repl) 0 none src

end regexp

namespace strings

/-- Go `strings.Join`. -/
def Join : List Str → Str → Str
  | [], _ => []
  | [a], _ => a
  | a :: b :: rest, sep => a ++ sep ++ Join (b :: rest) sep

end strings

/-! ## Package `processor` -/

namespace processor

open regexp

/-- The class `[x×]`. -/
def timesSign : Regex := .cls (fun c => c == 'x' || c == '×')

/-- The expression `\d+\s*[x×]|[x×]\s*\d+`. -/
def repeatCount : Regex :=
  .alt (cat [plus (.cls isDigit), .star (.cls isSpace), timesSign])
    (cat [timesSign, .star (.cls isSpace), plus (.cls isDigit)])

/-- Source `reParenRepeatEnd`: `\s*\(\s*(?:\d+\s*[x×]|[x×]\s*\d+)\s*\)\s*$`. -/
def reParenRepeatEnd : Regex :=
  cat [.star (.cls isSpace), chr '(', .star (.cls isSpace), repeatCount,
    .star (.cls isSpace), chr ')', .star (.cls isSpace), .eot]

/-- Source `reToRefEnd`: `(?i)\s*\(\s*(?:to|naar)\b[^)]*\)\s*$`. -/
def reToRefEnd : Regex :=
  cat [.star (.cls isSpace), chr '(', .star (.cls isSpace),
    .alt (cat [foldCase 't' 'T', foldCase 'o' 'O'])
      (cat [foldCase 'n' 'N', foldCase 'a' 'A', foldCase 'a' 'A', foldCase 'r' 'R']),
    .wordBoundary, .star (.cls (fun c => c != ')')), chr ')', .star (.cls isSpace), .eot]

/-- Source `reRepeatToken`: `(?:^|\s)(?:\d+\s*[x×]|[x×]\s*\d+)(?:\s|$)`. -/
def reRepeatToken : Regex :=
  cat [.alt .bot (.cls isSpace), repeatCount, .alt (.cls isSpace) .eot]

/-- Source `reMultiSpaces`: two or more blanks. -/
def reMultiSpaces : Regex := cat [chr ' ', chr ' ', .star (chr ' ')]

/-- The class `[A-G]`. -/
def rootNote : Regex := .cls (fun c => 65 ≤ c.toNat && c.toNat ≤ 71)

/-- The expression `(?:#|b)?`. -/
def accidental : Regex := opt (.alt (chr '#') (chr 'b'))

/-- Source `reChord`:
`^(?:[A-G](?:#|b)?(?:(?:maj|min|m|dim|aug|sus)\d*|\d*)?(?:/[A-G](?:#|b)?)?)$`. -/
def reChord : Regex :=
  cat [.bot, rootNote, accidental,
    opt (.alt
      (cat [.alt (lit "maj".toList) (.alt (lit "min".toList) (.alt (lit "m".toList)
          (.alt (lit "dim".toList) (.alt (lit "aug".toList) (lit "sus".toList))))),
        .star (.cls isDigit)])
      (.star (.cls isDigit))),
    opt (cat [chr '/', rootNote, accidental]),
    .eot]

/-- A token that `wrapChordsIfChordLine` leaves as it is without asking `reChord`:
the bar, or a token in brackets. -/
def isBarOrBracketed (t : Str) : Bool :=
  t == ['|'] || (strings.HasPrefix t ['['] && strings.HasSuffix t [']'])

/-- First loop of `wrapChordsIfChordLine`: the value of `onlyChords` after it. -/
def onlyChords : List Str → Bool
  | [] => true
  | t :: rest =>
    if t = ['|'] then onlyChords rest
    else if strings.HasPrefix t ['['] && strings.HasSuffix t [']'] then onlyChords rest
    else if MatchString reChord t then onlyChords rest
    else false

/-- Body of the second loop of `wrapChordsIfChordLine`: the token put back. -/
def wrapToken (t : Str) : Str :=
  if t = ['|'] then t
  else if strings.HasPrefix t ['['] && strings.HasSuffix t [']'] then t
  else if MatchString reChord t then '[' :: t ++ [']']
  else t

/-- Source `wrapChordsIfChordLine`. -/
def wrapChordsIfChordLine (s : Str) : Str :=
  if s = [] then s
  else
    let tokens := strings.Fields s
    if tokens.length = 0 then s
    else if !onlyChords tokens then s
    else strings.Join (tokens.map wrapToken) [' ']

/-- The function passed to `reRepeatToken.ReplaceAllStringFunc` in `CleanText`. -/
def keepLeadingSpace (m : Str) : Str :=
  if strings.HasPrefix m [' '] || strings.HasPrefix m ['\t'] then [' '] else []

/-- The first three steps of the line loop of `CleanText`: the trailing
redirect, the trailing repeat count and the repeat tokens are removed. -/
def stripAnnotations (line : Str) : Str :=
  let s := line
  let s := ReplaceAllString reToRefEnd s []
  let s := ReplaceAllString reParenRepeatEnd s []
  let s := ReplaceAllStringFunc reRepeatToken s keepLeadingSpace
  s

/-- The body of the line loop of `CleanText` up to the blank-line handling: the
cleaned line. -/
def cleanLine (line : Str) : Str :=
  let s := stripAnnotations line
  let s := strings.TrimSpace (ReplaceAllString reMultiSpaces s [' '])
  wrapChordsIfChordLine s

/-- Local variables of the line loop of `CleanText`. -/
structure CleanState where
  out : List Str
  prevBlank : Bool

/-- The blank-line handling of the line loop of `CleanText` for a cleaned line `s`. -/
def collect (st : CleanState) (s : Str) : CleanState :=
  if s = [] then
    if !st.prevBlank && (st.out.length == 0 || st.out.getLast? != some []) then
      { out := st.out ++ [[]], prevBlank := true }
    else { st with prevBlank := true }
  else { out := st.out ++ [s], prevBlank := false }

/-- The loop `for len(out) > 0 && out[len(out)-1] == ""` of `CleanText`. -/
def dropTrailingBlank (out : List Str) : List Str :=
  List.rdropWhile (fun l => l.isEmpty) out

/-- The lines that `CleanText` joins: `out` after the two loops. -/
def cleanLines (input : Str) : List Str :=
  dropTrailingBlank
    (((strings.Split input '\n').foldl (fun st line => collect st (cleanLine line))
      ⟨[], false⟩).out)

/-- The texts `\d+\s*[x×]` and `[x×]\s*\d+` stand for. -/
def IsRepeatCount (tok : Str) : Prop :=
  ∃ D W x, D ≠ [] ∧ (∀ c ∈ D, isDigit c = true) ∧ (∀ c ∈ W, regexp.isSpace c = true) ∧
    (x = 'x' ∨ x = '×') ∧ (tok = D ++ W ++ [x] ∨ tok = x :: W ++ D)

/-- The matches of `reRepeatToken`: after the start of the text or one white
space character, a repeat count, then one white space character or the end of
the text. -/
def RepeatTokenAt (prev : Option Char) (M t : Str) : Prop :=
  ∃ lead tok trail, M = lead ++ tok ++ trail ∧
    ((lead = [] ∧ prev = none) ∨ ∃ c, lead = [c] ∧ regexp.isSpace c = true) ∧
    IsRepeatCount tok ∧
    ((∃ c, trail = [c] ∧ regexp.isSpace c = true) ∨ (trail = [] ∧ t = []))

/-- No two adjacent characters of the text are both a blank. -/
def NoDoubleSpace (s : Str) : Prop := s.Chain' (fun a b => ¬ (a = ' ' ∧ b = ' '))

/-- No two adjacent lines are both empty. -/
def NoBlankPair (lines : List Str) : Prop :=
  lines.Chain' (fun a b => ¬ (a = [] ∧ b = []))

/-- Source `CleanText`. -/
def CleanText (input : Str) : Str :=
  strings.Join (cleanLines input) ['\n'] ++ ['\n']

end processor

end ChordParser

/-! # `normalizeNewlines`, and the notions in which the properties of `Newlines`
and of the repeat tokens are stated -/

namespace ChordParser

namespace normalize

/-- What `Newlines` is said to return: the text with each CRLF pair and each CR
that is not followed by LF replaced by one LF, everything else as it is. -/
def newlinesSpec : Str → Str
  | [] => []
  | [c] => if c = '\r' then ['\n'] else [c]
  | c :: d :: rest =>
    if c = '\r' then
      if d = '\n' then '\n' :: newlinesSpec rest else '\n' :: newlinesSpec (d :: rest)
    else c :: newlinesSpec (d :: rest)

/-- Number of CRLF pairs of a text. -/
def countCRLF : Str → Nat
  | [] => 0
  | c :: rest =>
    (if c = '\r' ∧ rest.head? = some '\n' then 1 else 0) + countCRLF rest

/-- Number of CR characters of a text that are not followed by LF. -/
def countLoneCR : Str → Nat
  | [] => 0
  | c :: rest =>
    (if c = '\r' ∧ rest.head? ≠ some '\n' then 1 else 0) + countLoneCR rest

/-- Number of LF characters of a text that do not follow a CR; `prev` is the
character before the text. -/
def countLoneLFAfter : Option Char → Str → Nat
  | _, [] => 0
  | prev, c :: rest =>
    (if c = '\n' ∧ prev ≠ some '\r' then 1 else 0) + countLoneLFAfter (some c) rest

/-- Number of LF characters of a text that are not the second half of a CRLF pair. -/
def countLoneLF (s : Str) : Nat := countLoneLFAfter none s

end normalize

namespace parser

/-- Source `normalizeNewlines` (`parser.go`): CRLF and CR become LF. -/
def normalizeNewlines (s : Str) : Str :=
  let s := strings.ReplaceAll s ['\r', '\n'] ['\n']
  let s := strings.ReplaceAll s ['\r'] ['\n']
  s

end parser

end ChordParser

namespace ChordParser

namespace processor

/-- A non-empty run of decimal digits. -/
def isDigitRun (t : Str) : Bool := !t.isEmpty && t.all regexp.isDigit

/-- The character `x` or `×`. -/
def isTimes (c : Char) : Bool := c == 'x' || c == '×'

/-- A token of the form digits followed by `x`/`×`, or `x`/`×` followed by digits. -/
def isRepeatWord (t : Str) : Bool :=
  (match t.getLast? with
    | some c => isTimes c && isDigitRun t.dropLast
    | none => false) ||
  (match t with
    | c :: cs => isTimes c && isDigitRun cs
    | [] => false)

/-- Two tokens that spell a repeat count when only white space parts them: a
run of digits and a lone `x`/`×`, in either order. -/
def isSplitRepeat (t u : Str) : Bool :=
  (isDigitRun t && (u == ['x'] || u == ['×'])) || ((t == ['x'] || t == ['×']) && isDigitRun u)

/-- Whether two neighbouring tokens of the list spell a repeat count. -/
def hasSplitRepeat : List Str → Bool
  | a :: b :: rest => isSplitRepeat a b || hasSplitRepeat (b :: rest)
  | _ => false

end processor

end ChordParser

/-! # Properties -/

namespace ChordParser

namespace strings

theorem fieldsGo_ne_nil_of_cur (s cur : Str) (h : cur ≠ []) : fieldsGo cur s ≠ [] := by
  induction s generalizing cur with
  | nil => simp [fieldsGo, h]
  | cons c cs ih =>
    unfold fieldsGo
    by_cases hc : unicode.IsSpace c = true
    · simp [hc, h]
    · simp only [hc]
      exact ih _ (by simp)

theorem fieldsGo_ne_nil_of_mem (s cur : Str) (h : ∃ c ∈ s, unicode.IsSpace c = false) :
    fieldsGo cur s ≠ [] := by
  induction s generalizing cur with
  | nil => simp at h
  | cons c cs ih =>
    unfold fieldsGo
    by_cases hc : unicode.IsSpace c = true
    · have h2 : ∃ c ∈ cs, unicode.IsSpace c = false := by
        obtain ⟨x, hx, hxs⟩ := h
        rcases List.mem_cons.mp hx with rfl | hx
        · simp [hc] at hxs
        · exact ⟨x, hx, hxs⟩
      by_cases hcur : cur = []
      · simp only [hc, hcur, if_true]
        exact ih [] h2
      · simp [hc, hcur]
    · simp only [hc]
      exact fieldsGo_ne_nil_of_cur cs _ (by simp)

theorem TrimSpace_last_not_space (s : Str) (h : TrimSpace s ≠ []) :
    unicode.IsSpace ((TrimSpace s).getLast h) = false := by
  have := List.rdropWhile_last_not unicode.IsSpace (List.dropWhile unicode.IsSpace s) h
  simpa [TrimSpace] using this

theorem Fields_TrimSpace_ne_nil (s : Str) (h : TrimSpace s ≠ []) : Fields (TrimSpace s) ≠ [] :=
  fieldsGo_ne_nil_of_mem _ _ ⟨_, List.getLast_mem h, TrimSpace_last_not_space s h⟩

theorem bold_wrapped_length (l : Str) (hp : HasPrefix l "<b>".toList = true)
    (hs : HasSuffix l "</b>".toList = true) : 7 ≤ l.length := by
  by_contra hlen
  match l, hlen with
  | [], _ => simp [HasPrefix] at hp
  | [_], _ => simp [HasPrefix] at hp
  | [_, _], _ => simp [HasPrefix] at hp
  | [_, _, _], _ => simp [HasSuffix] at hs
  | [a, b, c, d], _ =>
    simp [HasPrefix, HasSuffix] at hp hs
    obtain ⟨rfl, rfl, rfl⟩ := hp
    simp at hs
  | [a, b, c, d, e], _ =>
    simp [HasPrefix, HasSuffix] at hp hs
    obtain ⟨rfl, rfl, rfl⟩ := hp
    simp at hs
  | [a, b, c, d, e, f], _ =>
    simp [HasPrefix, HasSuffix] at hp hs
    obtain ⟨rfl, rfl, rfl⟩ := hp
    simp at hs
  | _ :: _ :: _ :: _ :: _ :: _ :: _ :: _, h => simp at h

theorem TrimSpace_length_le (s : Str) : (TrimSpace s).length ≤ s.length := by
  unfold TrimSpace
  have h1 : (List.rdropWhile unicode.IsSpace (List.dropWhile unicode.IsSpace s)).length ≤
      (List.dropWhile unicode.IsSpace s).length :=
    (List.rdropWhile_prefix unicode.IsSpace _).length_le
  have h2 : (List.dropWhile unicode.IsSpace s).length ≤ s.length :=
    (List.dropWhile_suffix unicode.IsSpace).length_le
  omega

end strings

namespace normalize

theorem StripDecorations_bold_isSome (u : Str) : ∃ r,
    (if strings.HasPrefix (strings.ToLower u) "<b>".toList = true ∧
        strings.HasSuffix (strings.ToLower u) "</b>".toList = true then
      (strings.slice u 3 (u.length - 4)).map strings.TrimSpace
    else some u) = some r := by
  by_cases hb : strings.HasPrefix (strings.ToLower u) "<b>".toList = true ∧
        strings.HasSuffix (strings.ToLower u) "</b>".toList = true
  · have h7 := strings.bold_wrapped_length _ hb.1 hb.2
    simp only [strings.ToLower, List.length_map] at h7
    have h3 : 3 ≤ u.length - 4 ∧ u.length - 4 ≤ u.length := by omega
    rw [if_pos hb, strings.slice, if_pos h3]
    exact ⟨_, rfl⟩
  · rw [if_neg hb]
    exact ⟨_, rfl⟩

theorem StripDecorations_isSome (s : Str) : ∃ r, StripDecorations s = some r := by
  unfold StripDecorations
  simp only
  generalize strings.TrimSpace s = t
  by_cases ht : t = []
  · rw [if_pos ht]
    exact ⟨_, rfl⟩
  · rw [if_neg ht]
    obtain ⟨c0, t', rfl⟩ := List.exists_cons_of_ne_nil ht
    rw [List.getLast?_eq_getLast _ ht]
    simp only [List.head?_cons]
    by_cases hbr : c0 = '[' ∧ (c0 :: t').getLast ht = ']'
    · have h2 : 1 ≤ (c0 :: t').length - 1 ∧ (c0 :: t').length - 1 ≤ (c0 :: t').length := by
        cases t' with
        | nil =>
          obtain ⟨h1, h2⟩ := hbr
          simp at h2
          rw [h1] at h2
          exact absurd h2 (by decide)
        | cons d t'' => simp
      rw [if_pos hbr, strings.slice, if_pos h2]
      exact StripDecorations_bold_isSome _
    · rw [if_neg hbr]
      exact StripDecorations_bold_isSome _

end normalize

namespace parser

theorem dropColons_trimmed (fuel : Nat) (s : Str) (h : ∃ x, s = strings.TrimSpace x) :
    ∃ y, dropColons fuel s = strings.TrimSpace y := by
  induction fuel generalizing s with
  | zero => simpa [dropColons] using h
  | succ n ih =>
    unfold dropColons
    by_cases hs : strings.HasSuffix s [':'] = true
    · simp only [hs, if_true]
      exact ih _ ⟨_, rfl⟩
    · simpa [hs] using h

/-- The fuel given to `dropColons` is enough: on return the loop condition
`strings.HasSuffix(trimmed, ":")` is false. -/
theorem dropColons_exits (fuel : Nat) (s : Str) (h : s.length ≤ fuel) :
    strings.HasSuffix (dropColons fuel s) [':'] = false := by
  induction fuel generalizing s with
  | zero =>
    have hs : s = [] := List.length_eq_zero.mp (by omega)
    subst hs
    rfl
  | succ n ih =>
    unfold dropColons
    by_cases hs : strings.HasSuffix s [':'] = true
    · rw [if_pos hs]
      apply ih
      have hne : s ≠ [] := by
        intro h0
        subst h0
        simp [strings.HasSuffix] at hs
      have hl : 0 < s.length := List.length_pos.mpr hne
      have h1 := strings.TrimSpace_length_le (strings.TrimSuffix s [':'])
      have h2 : (strings.TrimSuffix s [':']).length = s.length - 1 := by
        unfold strings.TrimSuffix
        rw [if_pos hs]
        simp
      omega
    · rw [if_neg hs]
      simpa using hs

theorem detectHeader_isSome (enum : Table) (line : Str) : ∃ r, detectHeader enum line = some r := by
  unfold detectHeader
  simp only
  generalize strings.ReplaceAll (strings.ReplaceAll line "<b>".toList []) "</b>".toList [] = l1
  by_cases h1 : strings.TrimSpace l1 = []
  · simp [h1]
  · simp only [h1, if_false]
    obtain ⟨y, hy⟩ := dropColons_trimmed (strings.TrimSpace l1).length _ ⟨l1, rfl⟩
    rw [hy]
    by_cases h2 : strings.TrimSpace y = []
    · simp [h2]
    · simp only [h2, if_false]
      have hf := strings.Fields_TrimSpace_ne_nil y h2
      obtain ⟨f0, fs, hfs⟩ := List.exists_cons_of_ne_nil hf
      rw [hfs, List.getLast?_eq_getLast _ (List.cons_ne_nil _ _)]
      simp only [List.head?_cons]
      obtain ⟨sd, hsd⟩ := normalize.StripDecorations_isSome f0
      rw [hsd]
      simp only
      split
      · exact ⟨_, rfl⟩
      · split
        · exact ⟨_, rfl⟩
        · split <;> exact ⟨_, rfl⟩

end parser

namespace strconv

theorem Atoi_range (s : Str) (n : Int) (h : Atoi s = some n) :
    -9223372036854775808 ≤ n ∧ n ≤ 9223372036854775807 := by
  cases s with
  | nil => simp [Atoi] at h
  | cons c cs =>
    simp only [Atoi] at h
    generalize (if c = '-' ∨ c = '+' then cs else c :: cs) = ds at h
    by_cases hds : ds = []
    · rw [if_pos hds] at h
      exact absurd h (by simp)
    · rw [if_neg hds] at h
      cases hp : parseDigits 0 ds with
      | none =>
        rw [hp] at h
        exact absurd h (by simp)
      | some v =>
        rw [hp] at h
        simp only at h
        split at h
        · split at h
          · simp only [Option.some.injEq] at h
            omega
          · exact absurd h (by simp)
        · split at h
          · simp only [Option.some.injEq] at h
            omega
          · exact absurd h (by simp)

end strconv

namespace normalize

theorem IsDigits_iff (s : Str) :
    IsDigits s = true ↔ ∃ n, strconv.Atoi s = some n ∧ 0 < n := by
  unfold IsDigits
  by_cases hs : s = []
  · subst hs
    simp [strconv.Atoi]
  · rw [if_neg hs]
    cases h : strconv.Atoi s with
    | none => simp
    | some n => simp

end normalize

namespace parser

/-- Number part computed by `detectHeader` from the last field. -/
theorem numbered_range (last : Str) :
    0 ≤ (if normalize.IsDigits last = true then
          (match strconv.Atoi last with
            | some n => (true, n)
            | none => ((false, 0) : Bool × Int))
        else (false, 0)).2 ∧
      (if normalize.IsDigits last = true then
          (match strconv.Atoi last with
            | some n => (true, n)
            | none => ((false, 0) : Bool × Int))
        else (false, 0)).2 ≤ 9223372036854775807 := by
  by_cases hd : normalize.IsDigits last = true
  · obtain ⟨n, hn, hpos⟩ := (normalize.IsDigits_iff last).mp hd
    have := strconv.Atoi_range last n hn
    rw [if_pos hd, hn]
    simp only
    omega
  · rw [if_neg hd]
    simp

theorem mapGet_mem (t : Table) (k v : Str) (h : mapGet t k = some v) : (k, v) ∈ t := by
  induction t with
  | nil => simp [mapGet] at h
  | cons kv rest ih =>
    obtain ⟨k', v'⟩ := kv
    unfold mapGet at h
    by_cases hk : k = k'
    · simp only [hk, if_true, Option.some.injEq] at h
      simp [hk, h]
    · simp only [hk, if_false] at h
      exact List.mem_cons_of_mem _ (ih h)

theorem mapGet_value_mem (t : Table) (k v : Str) (h : mapGet t k = some v) :
    v ∈ t.map Prod.snd :=
  List.mem_map.mpr ⟨(k, v), mapGet_mem t k v h, rfl⟩

theorem detectHeader_shape (line : Str) :
    (∃ r, (∀ enum, detectHeader enum line = some r) ∧
        (r = ([], 0, false) ∨
          (r.2.2 = true ∧ r.1 ∈ keywordCanonical.map Prod.snd ∧ 0 ≤ r.2.1 ∧
            r.2.1 ≤ 9223372036854775807))) ∨
      (∃ firstNorm num, 0 ≤ num ∧ num ≤ 9223372036854775807 ∧
        ∀ enum, detectHeader enum line =
          some (match enum.find? (fun kv => strings.Contains firstNorm kv.1) with
            | some kv => (kv.2, num, true)
            | none => ([], 0, false))) := by
  unfold detectHeader
  simp only
  generalize strings.ReplaceAll (strings.ReplaceAll line "<b>".toList []) "</b>".toList [] = l1
  by_cases h1 : strings.TrimSpace l1 = []
  · left
    exact ⟨([], 0, false), fun _ => by rw [if_pos h1], Or.inl rfl⟩
  · simp only [if_neg h1]
    obtain ⟨y, hy⟩ := dropColons_trimmed (strings.TrimSpace l1).length _ ⟨l1, rfl⟩
    rw [hy]
    by_cases h2 : strings.TrimSpace y = []
    · left
      exact ⟨([], 0, false), fun _ => by rw [if_pos h2], Or.inl rfl⟩
    · simp only [if_neg h2]
      have hf := strings.Fields_TrimSpace_ne_nil y h2
      obtain ⟨f0, fs, hfs⟩ := List.exists_cons_of_ne_nil hf
      rw [hfs, List.getLast?_eq_getLast _ (List.cons_ne_nil _ _)]
      simp only [List.head?_cons]
      obtain ⟨sd, hsd⟩ := normalize.StripDecorations_isSome f0
      rw [hsd]
      simp only
      have hnum := numbered_range ((f0 :: fs).getLast (List.cons_ne_nil _ _))
      generalize (if normalize.IsDigits ((f0 :: fs).getLast (List.cons_ne_nil _ _)) = true then
          (match strconv.Atoi ((f0 :: fs).getLast (List.cons_ne_nil _ _)) with
            | some n => (true, n)
            | none => ((false, 0) : Bool × Int))
        else (false, 0)) = numbered at hnum ⊢
      cases hm1 : mapGet keywordCanonical (normalize.Key
          (if numbered.1 = true then
            strings.TrimSpace (strings.TrimSuffix (strings.TrimSpace y)
              ((f0 :: fs).getLast (List.cons_ne_nil _ _)))
          else strings.TrimSpace y)) with
      | some canon =>
        left
        exact ⟨(canon, numbered.2, true), fun _ => rfl,
          Or.inr ⟨rfl, mapGet_value_mem _ _ _ hm1, hnum.1, hnum.2⟩⟩
      | none =>
        simp only
        cases hm2 : mapGet keywordCanonical (normalize.Key sd) with
        | some canon =>
          left
          exact ⟨(canon, numbered.2, true), fun _ => rfl,
            Or.inr ⟨rfl, mapGet_value_mem _ _ _ hm2, hnum.1, hnum.2⟩⟩
        | none =>
          right
          refine ⟨normalize.Key sd, numbered.2, hnum.1, hnum.2, fun enum => ?_⟩
          simp only
          cases enum.find? (fun kv => strings.Contains (normalize.Key sd) kv.1) <;> rfl

/-- Result of `detectHeader` under any scan order that lists the table: the flag
is `isHeader`, a recognised header carries a canonical label and a number in
`0 .. maxInt`, an unrecognised line carries `("", 0)`. -/
theorem detectHeader_ok (enum : Table) (hp : enum.Perm keywordCanonical) (line : Str) :
    ∃ b n, detectHeader enum line = some (b, n, isHeader line) ∧
      (isHeader line = true → b ∈ canonicalLabels ∧ 0 ≤ n ∧ n ≤ 9223372036854775807) ∧
      (isHeader line = false → b = [] ∧ n = 0) := by
  rcases detectHeader_shape line with ⟨r, hr, hcase⟩ | ⟨fn, num, h0, h1, hr⟩
  · have hi : isHeader line = r.2.2 := by
      unfold isHeader
      rw [hr keywordCanonical]
    obtain ⟨b, n, ok⟩ := r
    simp only at hi
    refine ⟨b, n, by rw [hr enum, hi], ?_, ?_⟩
    · intro ht
      rcases hcase with h | h
      · rw [hi] at ht
        simp at h
        simp [h.2.2] at ht
      · exact h.2
    · intro hf
      rcases hcase with h | h
      · simp at h
        exact ⟨h.1, h.2.1⟩
      · rw [hi] at hf
        simp only at h
        rw [hf] at h
        exact absurd h.1 (by simp)
  · have hi : isHeader line =
        (keywordCanonical.find? (fun kv => strings.Contains fn kv.1)).isSome := by
      unfold isHeader
      rw [hr keywordCanonical]
      cases keywordCanonical.find? (fun kv => strings.Contains fn kv.1) <;> rfl
    cases hf : enum.find? (fun kv => strings.Contains fn kv.1) with
    | none =>
      have hnone : keywordCanonical.find? (fun kv => strings.Contains fn kv.1) = none := by
        rw [List.find?_eq_none] at hf ⊢
        intro x hx
        exact hf x (hp.mem_iff.mpr hx)
      rw [hnone] at hi
      refine ⟨[], 0, by rw [hr enum, hf, hi]; rfl, ?_, ?_⟩
      · intro ht
        rw [hi] at ht
        simp at ht
      · intro _
        exact ⟨rfl, rfl⟩
    | some kv =>
      have hmem : kv ∈ keywordCanonical := hp.mem_iff.mp (List.mem_of_find?_eq_some hf)
      have hsome : (keywordCanonical.find? (fun kv => strings.Contains fn kv.1)).isSome = true :=
        List.find?_isSome.mpr
          ⟨kv, hmem, @List.find?_some _ (fun kv => strings.Contains fn kv.1) kv enum hf⟩
      rw [hsome] at hi
      refine ⟨kv.2, num, by rw [hr enum, hf, hi], ?_, ?_⟩
      · intro _
        exact ⟨List.mem_map.mpr ⟨kv, hmem, rfl⟩, h0, h1⟩
      · intro hfalse
        rw [hi] at hfalse
        simp at hfalse

/-- One round of the line loop, with the result of `detectHeader` made explicit. -/
theorem parseLoop_cons (enums : Nat → Table) (hp : ∀ i, (enums i).Perm keywordCanonical)
    (i : Nat) (line : Str) (rest : List Str) (st : ParseState) :
    ∃ b n, (isHeader line = true → b ∈ canonicalLabels ∧ 0 ≤ n ∧ n ≤ 9223372036854775807) ∧
      parseLoop enums i (line :: rest) st =
        parseLoop enums (i + 1) rest (parseLine st line (b, n, isHeader line)) := by
  obtain ⟨b, n, hd, ht, _⟩ := detectHeader_ok (enums i) (hp i) line
  exact ⟨b, n, ht, by rw [parseLoop, hd]⟩

/-- Lines that are no headers are appended to the buffer, nothing else changes. -/
theorem parseLoop_plain (enums : Nat → Table) (hp : ∀ i, (enums i).Perm keywordCanonical)
    (lines : List Str) (i : Nat) (st : ParseState)
    (hno : ∀ l ∈ lines, isHeader l = false) :
    parseLoop enums i lines st = some { st with content := st.content ++ lines } := by
  induction lines generalizing i st with
  | nil => simp [parseLoop]
  | cons line rest ih =>
    obtain ⟨b, n, _, hstep⟩ := parseLoop_cons enums hp i line rest st
    have hl : isHeader line = false := hno line (List.mem_cons_self _ _)
    rw [hstep, hl, ih _ _ (fun l h => hno l (List.mem_cons_of_mem _ h))]
    simp [parseLine]

theorem Split_ne_nil (s : Str) (sep : Char) : strings.Split s sep ≠ [] := by
  cases s with
  | nil => simp [strings.Split]
  | cons c cs =>
    unfold strings.Split
    split
    · simp
    · split <;> simp

theorem contents_flush (st : ParseState) :
    contents (flush st) = contents st.sections ++ st.content := by
  unfold flush contents
  cases hc : st.content with
  | nil => simp
  | cons a as => simp

/-- The loop moves exactly the lines that are no headers into contents, in order. -/
theorem parseLoop_contents (enums : Nat → Table) (hp : ∀ i, (enums i).Perm keywordCanonical)
    (lines : List Str) (i : Nat) (st : ParseState) :
    ∃ st', parseLoop enums i lines st = some st' ∧
      contents (flush st') = contents (flush st) ++ lines.filter (fun l => !isHeader l) := by
  induction lines generalizing i st with
  | nil => exact ⟨st, by simp [parseLoop], by simp⟩
  | cons line rest ih =>
    obtain ⟨b, n, _, hstep⟩ := parseLoop_cons enums hp i line rest st
    obtain ⟨st', hst', hc⟩ := ih (i + 1) (parseLine st line (b, n, isHeader line))
    refine ⟨st', by rw [hstep, hst'], ?_⟩
    rw [hc]
    cases hl : isHeader line with
    | true =>
      simp [parseLine, contents_flush, hl]
    | false =>
      simp [parseLine, contents_flush, hl]

theorem renumber_contents (counts : Str → Int) (l : List Section) (next : Str → Int) :
    (renumber counts l next).map Section.Content = l.map Section.Content := by
  induction l generalizing next with
  | nil => simp [renumber]
  | cons s rest ih =>
    unfold renumber
    simp only
    split
    · simp [ih]
    · split
      · simp [ih]
      · split <;> simp [ih]

theorem makeUniqueHeaders_contents (l : List Section) :
    contents (makeUniqueHeaders l) = contents l := by
  have h := renumber_contents (countBases l (fun _ => 0)) l (fun _ => 0)
  unfold contents makeUniqueHeaders List.flatMap
  rw [h]

end parser

theorem wrapInt_of_range (x : Int) (h0 : -9223372036854775808 ≤ x)
    (h1 : x ≤ 9223372036854775807) : wrapInt x = x := by
  unfold wrapInt
  omega

theorem wrapInt_add_wrapInt (x y : Int) : wrapInt (wrapInt x + y) = wrapInt (x + y) := by
  unfold wrapInt
  omega

namespace parser

/-- The first loop of `makeUniqueHeaders` counts the sections per base label,
in 64-bit arithmetic. -/
theorem countBases_eq (l : List Section) (m : Str → Int) (b : Str) :
    countBases l m b =
      if groupSize b l = 0 then m b else wrapInt (m b + groupSize b l) := by
  induction l generalizing m with
  | nil => simp [countBases, groupSize]
  | cons s rest ih =>
    unfold countBases
    simp only
    rw [ih]
    by_cases hb : baseOf s = b
    · have hg : groupSize b (s :: rest) = groupSize b rest + 1 := by
        simp [groupSize, List.countP_cons, hb]
      have hb' : (splitBaseAndNumber s.Header).1 = b := hb
      rw [hg, hb', Function.update_same, if_neg (Nat.succ_ne_zero _)]
      split
      · rename_i h0
        simp [h0]
      · rw [wrapInt_add_wrapInt]
        congr 1
        push_cast
        ring
    · have hg : groupSize b (s :: rest) = groupSize b rest := by
        simp [groupSize, List.countP_cons, hb]
      have hb' : ¬ b = (splitBaseAndNumber s.Header).1 := fun h' => hb h'.symm
      rw [hg, Function.update_noteq hb']

theorem countBases_one (l : List Section) (b : Str) (h : groupSize b l = 1) :
    countBases l (fun _ => 0) b = 1 := by
  rw [countBases_eq, h]
  decide

theorem countBases_many (l : List Section) (b : Str) (h2 : 2 ≤ groupSize b l)
    (hlen : l.length < 9223372036854775808) :
    countBases l (fun _ => 0) b = groupSize b l := by
  have hle : groupSize b l ≤ l.length := List.countP_le_length _
  rw [countBases_eq, if_neg (by omega), Int.zero_add]
  apply wrapInt_of_range <;> omega

/-- A section whose base label is counted at most once is left as it is. -/
theorem renumber_single (counts : Str → Int) (l : List Section) (next : Str → Int)
    (i : Nat) (s : Section) (hs : l[i]? = some s) (hc : counts (baseOf s) ≤ 1) :
    (renumber counts l next)[i]? = some s := by
  induction l generalizing next i with
  | nil => simp at hs
  | cons s0 rest ih =>
    cases i with
    | zero =>
      simp only [List.getElem?_cons_zero, Option.some.injEq] at hs
      subst hs
      have hc' : counts (splitBaseAndNumber s0.Header).1 ≤ 1 := hc
      unfold renumber
      simp [hc']
    | succ j =>
      simp only [List.getElem?_cons_succ] at hs
      unfold renumber
      simp only
      split
      · simpa using ih _ _ hs
      · split
        · simpa using ih _ _ hs
        · split <;> simpa using ih _ _ hs

/-- Every section keeps its content; its header is kept or becomes a base
label, a blank and a number. -/
theorem renumber_get (counts : Str → Int) (l : List Section) (next : Str → Int)
    (i : Nat) (s' : Section) (hs : (renumber counts l next)[i]? = some s') :
    ∃ s, l[i]? = some s ∧ s'.Content = s.Content ∧
      (s'.Header = s.Header ∨ ∃ n, s'.Header = baseOf s ++ ' ' :: strconv.Itoa n) := by
  induction l generalizing next i with
  | nil => simp [renumber] at hs
  | cons s0 rest ih =>
    unfold renumber at hs
    simp only at hs
    cases i with
    | zero =>
      refine ⟨s0, by simp, ?_⟩
      split at hs
      · simp at hs
        subst hs
        exact ⟨rfl, Or.inl rfl⟩
      · split at hs
        · simp at hs
          subst hs
          exact ⟨rfl, Or.inr ⟨_, rfl⟩⟩
        · split at hs <;>
          · simp at hs
            subst hs
            exact ⟨rfl, Or.inr ⟨_, rfl⟩⟩
    | succ j =>
      simp only [List.getElem?_cons_succ]
      split at hs
      · exact ih _ _ (by simpa using hs)
      · split at hs
        · exact ih _ _ (by simpa using hs)
        · split at hs
          · exact ih _ _ (by simpa using hs)
          · exact ih _ _ (by simpa using hs)

/-- In a group without explicit numbers the second loop of `makeUniqueHeaders`
hands out consecutive numbers, continuing from the counter `c`. -/
theorem renumber_unnumbered (counts : Str → Int) (b : Str) (hc : 1 < counts b)
    (l : List Section) (next : Str → Int) (c i : Nat) (s : Section)
    (hnone : ∀ x ∈ l, baseOf x = b → explicitNumber x = 0)
    (hnext : next b = (c : Int))
    (hbound : c + groupSize b l < 9223372036854775808)
    (hs : l[i]? = some s) (hb : baseOf s = b) :
    (renumber counts l next)[i]? =
      some ⟨b ++ ' ' :: strconv.Itoa ((c + groupSize b (l.take (i + 1)) : Nat) : Int),
        s.Content⟩ := by
  induction l generalizing next c i with
  | nil => simp at hs
  | cons s0 rest ih =>
    have hrest : ∀ x ∈ rest, baseOf x = b → explicitNumber x = 0 :=
      fun x hx => hnone x (List.mem_cons_of_mem _ hx)
    by_cases hb0 : baseOf s0 = b
    · have hg : groupSize b (s0 :: rest) = groupSize b rest + 1 := by
        simp [groupSize, List.countP_cons, hb0]
      have hb0' : (splitBaseAndNumber s0.Header).1 = b := hb0
      have hn0 : (splitBaseAndNumber s0.Header).2 = 0 :=
        hnone s0 (List.mem_cons_self _ _) hb0
      have hw : wrapInt (next b + 1) = ((c + 1 : Nat) : Int) := by
        rw [hnext]
        push_cast
        apply wrapInt_of_range <;> omega
      unfold renumber
      simp only [hb0', hn0, if_neg (not_le.mpr hc), if_true, hw]
      cases i with
      | zero =>
        simp only [List.getElem?_cons_zero, Option.some.injEq] at hs
        subst hs
        have ht : groupSize b (List.take (0 + 1) (s0 :: rest)) = 1 := by
          simp [groupSize, List.countP_cons, hb0]
        rw [ht, List.getElem?_cons_zero]
      | succ j =>
        simp only [List.getElem?_cons_succ] at hs ⊢
        have ht : groupSize b (List.take (j + 1 + 1) (s0 :: rest)) =
            groupSize b (List.take (j + 1) rest) + 1 := by
          simp [groupSize, List.countP_cons, hb0]
        rw [ih _ (c + 1) j hrest (by simp) (by omega) hs, ht,
          show c + 1 + groupSize b (List.take (j + 1) rest) =
            c + (groupSize b (List.take (j + 1) rest) + 1) by omega]
    · have hg : groupSize b (s0 :: rest) = groupSize b rest := by
        simp [groupSize, List.countP_cons, hb0]
      have hb0' : ¬ b = (splitBaseAndNumber s0.Header).1 := fun h' => hb0 h'.symm
      cases i with
      | zero =>
        simp only [List.getElem?_cons_zero, Option.some.injEq] at hs
        subst hs
        exact absurd hb hb0
      | succ j =>
        simp only [List.getElem?_cons_succ] at hs
        have ht : groupSize b (List.take (j + 1 + 1) (s0 :: rest)) =
            groupSize b (List.take (j + 1) rest) := by
          simp [groupSize, List.countP_cons, hb0]
        rw [ht]
        unfold renumber
        simp only
        split
        · simpa using ih next c j hrest hnext (by omega) hs
        · split
          · simpa using ih _ c j hrest (by rw [Function.update_noteq hb0']; exact hnext)
              (by omega) hs
          · split
            · simpa using ih _ c j hrest (by rw [Function.update_noteq hb0']; exact hnext)
                (by omega) hs
            · simpa using ih _ c j hrest (by rw [Function.update_noteq hb0']; exact hnext)
                (by omega) hs

/-- List form of `renumber_unnumbered`: the headers of the group, in order. -/
theorem renumber_unnumbered_list (counts : Str → Int) (b : Str) (hc : 1 < counts b)
    (l : List Section) (next : Str → Int) (c : Nat)
    (hnone : ∀ x ∈ l, baseOf x = b → explicitNumber x = 0)
    (hnext : next b = (c : Int))
    (hbound : c + groupSize b l < 9223372036854775808) :
    ((l.zip (renumber counts l next)).filter (fun p => decide (baseOf p.1 = b))).map
        (fun p => p.2.Header) =
      (List.range' (c + 1) (groupSize b l)).map
        (fun j => b ++ ' ' :: strconv.Itoa (j : Nat)) := by
  induction l generalizing next c with
  | nil => simp [renumber, groupSize]
  | cons s0 rest ih =>
    have hrest : ∀ x ∈ rest, baseOf x = b → explicitNumber x = 0 :=
      fun x hx => hnone x (List.mem_cons_of_mem _ hx)
    by_cases hb0 : baseOf s0 = b
    · have hg : groupSize b (s0 :: rest) = groupSize b rest + 1 := by
        simp [groupSize, List.countP_cons, hb0]
      have hb0' : (splitBaseAndNumber s0.Header).1 = b := hb0
      have hn0 : (splitBaseAndNumber s0.Header).2 = 0 :=
        hnone s0 (List.mem_cons_self _ _) hb0
      have hw : wrapInt (next b + 1) = ((c + 1 : Nat) : Int) := by
        rw [hnext]
        push_cast
        apply wrapInt_of_range <;> omega
      unfold renumber
      simp only [hb0', hn0, if_neg (not_le.mpr hc), if_true, hw]
      rw [List.zip_cons_cons, List.filter_cons_of_pos (by simpa using hb0), List.map_cons,
        ih _ (c + 1) hrest (by simp) (by omega), hg, List.range'_succ, List.map_cons]
    · have hg : groupSize b (s0 :: rest) = groupSize b rest := by
        simp [groupSize, List.countP_cons, hb0]
      have hb0' : ¬ b = (splitBaseAndNumber s0.Header).1 := fun h' => hb0 h'.symm
      rw [hg]
      unfold renumber
      simp only
      split
      · rw [List.zip_cons_cons, List.filter_cons_of_neg (by simpa using hb0)]
        exact ih next c hrest hnext (by omega)
      · split
        · rw [List.zip_cons_cons, List.filter_cons_of_neg (by simpa using hb0)]
          exact ih _ c hrest (by rw [Function.update_noteq hb0']; exact hnext) (by omega)
        · split
          · rw [List.zip_cons_cons, List.filter_cons_of_neg (by simpa using hb0)]
            exact ih _ c hrest (by rw [Function.update_noteq hb0']; exact hnext) (by omega)
          · rw [List.zip_cons_cons, List.filter_cons_of_neg (by simpa using hb0)]
            exact ih _ c hrest (by rw [Function.update_noteq hb0']; exact hnext) (by omega)

theorem canonical_ne_GENERAL : ∀ b ∈ canonicalLabels, b ≠ GENERAL := by decide

theorem spaced_ne_GENERAL (b t : Str) : b ++ ' ' :: t ≠ GENERAL := by
  intro h
  have hmem : ' ' ∈ b ++ ' ' :: t := by simp
  rw [h] at hmem
  exact absurd hmem (by decide)

theorem header_ne_GENERAL (b : Str) (n : Int) (hb : b ∈ canonicalLabels) :
    (if n > 0 then b ++ ' ' :: strconv.Itoa n else b) ≠ GENERAL := by
  split
  · exact spaced_ne_GENERAL _ _
  · exact canonical_ne_GENERAL b hb

/-- Once the current header is not the sentinel, no section flushed later
carries the sentinel. -/
theorem parseLoop_after_header (enums : Nat → Table)
    (hp : ∀ i, (enums i).Perm keywordCanonical) (lines : List Str) (i : Nat)
    (st : ParseState) (hh : st.header ≠ GENERAL) :
    ∃ st', parseLoop enums i lines st = some st' ∧
      (st.foundAnyHeader = true → st'.foundAnyHeader = true) ∧
      ∃ more, flush st' = st.sections ++ more ∧ ∀ s ∈ more, s.Header ≠ GENERAL := by
  induction lines generalizing i st with
  | nil =>
    refine ⟨st, rfl, id, ?_⟩
    unfold flush
    split
    · exact ⟨[⟨st.header, st.content⟩], rfl, by simpa using hh⟩
    · exact ⟨[], by simp, by simp⟩
  | cons line rest ih =>
    obtain ⟨b, n, hbn, hstep⟩ := parseLoop_cons enums hp i line rest st
    cases hl : isHeader line with
    | true =>
      have hb := (hbn hl).1
      rw [hl] at hstep
      obtain ⟨st', hst', hf, more, hmore, hne⟩ :=
        ih (i + 1) (parseLine st line (b, n, true))
          (by simpa [parseLine] using header_ne_GENERAL b n hb)
      refine ⟨st', by rw [hstep, hst'], fun _ => hf (by simp [parseLine]), ?_⟩
      have hsec : (parseLine st line (b, n, true)).sections = flush st := by simp [parseLine]
      rw [hsec] at hmore
      by_cases hc : st.content.length > 0
      · have hfl : flush st = st.sections ++ [⟨st.header, st.content⟩] := by simp [flush, hc]
        rw [hfl] at hmore
        refine ⟨⟨st.header, st.content⟩ :: more, by simpa using hmore, ?_⟩
        intro s hs
        rcases List.mem_cons.mp hs with rfl | hs
        · exact hh
        · exact hne s hs
      · have hfl : flush st = st.sections := by simp only [flush, hc, if_false]
        rw [hfl] at hmore
        exact ⟨more, hmore, hne⟩
    | false =>
      rw [hl] at hstep
      obtain ⟨st', hst', hfound, more, hmore, hne⟩ :=
        ih (i + 1) (parseLine st line (b, n, false)) (by simpa [parseLine] using hh)
      refine ⟨st', by rw [hstep, hst'], ?_, more, ?_, hne⟩
      · intro h
        exact hfound (by simpa [parseLine] using h)
      · simpa [parseLine] using hmore

/-- Until the first header the lines go to the buffer of the sentinel section;
everything flushed afterwards carries another header. -/
theorem parseLoop_before_header (enums : Nat → Table)
    (hp : ∀ i, (enums i).Perm keywordCanonical) (lines : List Str) (i : Nat) (c : List Str)
    (hsome : ∃ l ∈ lines, isHeader l = true) :
    ∃ st', parseLoop enums i lines ⟨[], GENERAL, c, false⟩ = some st' ∧
      st'.foundAnyHeader = true ∧
      ∃ more,
        flush st' =
          flush ⟨[], GENERAL, c ++ lines.takeWhile (fun l => !isHeader l), false⟩ ++ more ∧
        ∀ s ∈ more, s.Header ≠ GENERAL := by
  induction lines generalizing i c with
  | nil => simp at hsome
  | cons line rest ih =>
    obtain ⟨b, n, hbn, hstep⟩ := parseLoop_cons enums hp i line rest ⟨[], GENERAL, c, false⟩
    cases hl : isHeader line with
    | true =>
      have hb := (hbn hl).1
      rw [hl] at hstep
      obtain ⟨st', hst', hfound, more, hmore, hne⟩ :=
        parseLoop_after_header enums hp rest (i + 1)
          (parseLine ⟨[], GENERAL, c, false⟩ line (b, n, true))
          (by simpa [parseLine] using header_ne_GENERAL b n hb)
      refine ⟨st', by rw [hstep, hst'], hfound (by simp [parseLine]), more, ?_, hne⟩
      simpa [parseLine, hl] using hmore
    | false =>
      rw [hl] at hstep
      have hsome' : ∃ l ∈ rest, isHeader l = true := by
        obtain ⟨l, hmem, hlh⟩ := hsome
        rcases List.mem_cons.mp hmem with rfl | hmem
        · rw [hl] at hlh
          exact absurd hlh (by simp)
        · exact ⟨l, hmem, hlh⟩
      obtain ⟨st', hst', hfound, more, hmore, hne⟩ := ih (i + 1) (c ++ [line]) hsome'
      refine ⟨st', ?_, hfound, more, ?_, hne⟩
      · rw [hstep, ← hst']
        simp [parseLine]
      · simpa [hl] using hmore

/-- Without a recognised header the whole text is one section under the sentinel. -/
theorem Parse_plain (enums : Nat → Table)
    (hp : ∀ i, (enums i).Perm keywordCanonical) (text : Str)
    (hno : ∀ l ∈ linesOf text, isHeader l = false) :
    Parse enums text = some [⟨GENERAL, linesOf text⟩] := by
  have hlines : linesOf text ≠ [] := Split_ne_nil _ _
  unfold Parse
  simp only
  have hl : strings.Split (normalize.Newlines text) '\n' = linesOf text := rfl
  rw [hl, parseLoop_plain enums hp _ 0 _ hno]
  have hlen : (linesOf text).length > 0 := List.length_pos.mpr hlines
  simp [flush, hlen]

/-- C1: when `detectHeader` recognises no line of the text as a header, `Parse`
returns exactly one section, headed `"GENERAL"`, whose content is every line of
the newline-normalised text split at LF, in order and unmodified. -/
theorem Parse_no_header_general (enums : Nat → Table)
    (hp : ∀ i, (enums i).Perm keywordCanonical) (text : Str)
    (hno : ∀ l ∈ linesOf text, isHeader l = false) :
    Parse enums text = some [⟨GENERAL, linesOf text⟩] :=
  Parse_plain enums hp text hno

theorem Parse_no_header_general_witness :
    (∀ l ∈ linesOf "Line 1\r\nLine 2\n\nLine 3".toList, isHeader l = false) ∧
      Parse (fun _ => keywordCanonical) "Line 1\r\nLine 2\n\nLine 3".toList =
        some [⟨GENERAL, linesOf "Line 1\r\nLine 2\n\nLine 3".toList⟩] :=
  ⟨by decide,
    Parse_no_header_general (fun _ => keywordCanonical) (fun _ => List.Perm.refl _) _
      (by decide)⟩

/-- C4: `makeUniqueHeaders` leaves unchanged every section whose base label (by
`splitBaseAndNumber`) occurs exactly once in the list: its header, with or
without a number supplied by the author, is kept as written. -/
theorem makeUniqueHeaders_keeps_singleton (sections : List Section) (i : Nat) (s : Section)
    (hs : sections[i]? = some s) (hone : groupSize (baseOf s) sections = 1) :
    (makeUniqueHeaders sections)[i]? = some s := by
  unfold makeUniqueHeaders
  apply renumber_single _ _ _ _ _ hs
  rw [countBases_one _ _ hone]

theorem makeUniqueHeaders_keeps_singleton_witness :
    (makeUniqueHeaders
      [⟨"VERSE".toList, ["A".toList]⟩, ⟨"BRIDGE 2".toList, ["B".toList]⟩,
        ⟨"VERSE".toList, ["C".toList]⟩])[1]? = some ⟨"BRIDGE 2".toList, ["B".toList]⟩ :=
  makeUniqueHeaders_keeps_singleton _ 1 _ (by decide) (by decide)

/-- C5: the contents of the sections of `Parse(text)`, concatenated in order,
are exactly the lines of the newline-normalised text that `detectHeader` does
not recognise as headers, in order and unmodified; and `makeUniqueHeaders`
changes the content of no section. -/
theorem Parse_contents (enums : Nat → Table) (hp : ∀ i, (enums i).Perm keywordCanonical)
    (text : Str) :
    (∃ secs, Parse enums text = some secs ∧
        contents secs = (linesOf text).filter (fun l => !isHeader l)) ∧
      ∀ l : List Section, (makeUniqueHeaders l).map Section.Content = l.map Section.Content := by
  refine ⟨?_, fun l => renumber_contents _ _ _⟩
  obtain ⟨st', hst', hc⟩ := parseLoop_contents enums hp (linesOf text) 0 ⟨[], GENERAL, [], false⟩
  have hl : strings.Split (normalize.Newlines text) '\n' = linesOf text := rfl
  unfold Parse
  simp only
  rw [hl, hst']
  refine ⟨_, rfl, ?_⟩
  have h0 : contents (flush ⟨[], GENERAL, [], false⟩) = [] := by simp [flush, contents]
  rw [h0, List.nil_append] at hc
  split
  · rw [makeUniqueHeaders_contents, hc]
  · exact hc

theorem Parse_contents_witness :
    (∃ secs, Parse (fun _ => keywordCanonical) "x\nVerse 1:\nA\n\n[Verse]\nB".toList = some secs ∧
        contents secs =
          (linesOf "x\nVerse 1:\nA\n\n[Verse]\nB".toList).filter (fun l => !isHeader l)) ∧
      ∀ l : List Section, (makeUniqueHeaders l).map Section.Content = l.map Section.Content :=
  Parse_contents (fun _ => keywordCanonical) (fun _ => List.Perm.refl _) _

/-- C6 as stated fails: a text whose first line is no header but which has a
header further down yields a `"GENERAL"` section next to the others. -/
theorem Parse_GENERAL_with_headers :
    ¬ (∀ text secs, Parse (fun _ => keywordCanonical) text = some secs →
        (∃ s ∈ secs, s.Header = GENERAL) → ∀ l ∈ linesOf text, isHeader l = false) := by
  intro h
  have h1 := h "x\nVerse\nA".toList
    [⟨GENERAL, ["x".toList]⟩, ⟨"VERSE".toList, ["A".toList]⟩] (by decide)
    ⟨_, List.mem_cons_self _ _, rfl⟩ "Verse".toList (by decide)
  exact absurd h1 (by decide)

/-- C6, amended: a section of `Parse(text)` headed `"GENERAL"` is the first
section of the result, and its content is the non-empty run of lines that
precede the first line recognised as a header (all lines when there is none);
so the first line of the text is not recognised as a header. -/
theorem Parse_GENERAL_first (enums : Nat → Table) (hp : ∀ i, (enums i).Perm keywordCanonical)
    (text : Str) :
    ∃ secs, Parse enums text = some secs ∧
      ∀ j s, secs[j]? = some s → s.Header = GENERAL →
        j = 0 ∧ s.Content = (linesOf text).takeWhile (fun l => !isHeader l) ∧
          ∃ l0, (linesOf text).head? = some l0 ∧ isHeader l0 = false := by
  have hlines : linesOf text ≠ [] := Split_ne_nil _ _
  have hhead : ∀ pre : List Str, pre ≠ [] →
      pre = (linesOf text).takeWhile (fun l => !isHeader l) →
      ∃ l0, (linesOf text).head? = some l0 ∧ isHeader l0 = false := by
    intro pre hne heq
    obtain ⟨l0, ls, hls⟩ := List.exists_cons_of_ne_nil hlines
    rw [hls] at heq ⊢
    refine ⟨l0, rfl, ?_⟩
    rw [List.takeWhile_cons] at heq
    cases hl0 : isHeader l0 with
    | false => rfl
    | true =>
      rw [hl0] at heq
      exact absurd heq hne
  by_cases hno : ∀ l ∈ linesOf text, isHeader l = false
  · refine ⟨_, Parse_plain enums hp text hno, ?_⟩
    intro j s hj _
    have htw : (linesOf text).takeWhile (fun l => !isHeader l) = linesOf text := by
      rw [List.takeWhile_eq_self_iff]
      intro l hl
      simp [hno l hl]
    cases j with
    | zero =>
      simp only [List.getElem?_cons_zero, Option.some.injEq] at hj
      subst hj
      exact ⟨rfl, htw.symm, hhead _ hlines htw.symm⟩
    | succ k => simp at hj
  · have hsome : ∃ l ∈ linesOf text, isHeader l = true := by
      by_contra hcon
      apply hno
      intro l hl
      cases hlh : isHeader l with
      | false => rfl
      | true => exact absurd ⟨l, hl, hlh⟩ hcon
    obtain ⟨st', hst', hfound, more, hmore, hne⟩ :=
      parseLoop_before_header enums hp (linesOf text) 0 [] hsome
    have hl : strings.Split (normalize.Newlines text) '\n' = linesOf text := rfl
    unfold Parse
    simp only
    rw [hl, hst']
    refine ⟨_, rfl, ?_⟩
    rw [hfound]
    simp only [if_true]
    intro j s hj hG
    obtain ⟨s0, hs0, hcont, hhdr⟩ := renumber_get _ _ _ _ _ hj
    have hG0 : s0.Header = GENERAL := by
      rcases hhdr with h | ⟨n, h⟩
      · rw [← h]
        exact hG
      · rw [h] at hG
        exact absurd hG (spaced_ne_GENERAL _ _)
    rw [hmore, List.nil_append] at hs0
    generalize hpre : (linesOf text).takeWhile (fun l => !isHeader l) = pre at hs0
    have hpre' := hhead pre
    by_cases hc : pre.length > 0
    · have hfl : flush ⟨[], GENERAL, pre, false⟩ = [⟨GENERAL, pre⟩] := by simp [flush, hc]
      rw [hfl] at hs0
      cases j with
      | zero =>
        simp only [List.singleton_append, List.getElem?_cons_zero, Option.some.injEq] at hs0
        subst hs0
        exact ⟨rfl, hcont, hpre' (List.length_pos.mp hc) hpre.symm⟩
      | succ k =>
        simp only [List.singleton_append, List.getElem?_cons_succ] at hs0
        exact absurd hG0 (hne s0 (List.getElem?_mem hs0))
    · have hfl : flush ⟨[], GENERAL, pre, false⟩ = [] := by simp only [flush, hc, if_false]
      rw [hfl, List.nil_append] at hs0
      exact absurd hG0 (hne s0 (List.getElem?_mem hs0))

theorem Parse_GENERAL_first_witness :
    ∃ secs, Parse (fun _ => keywordCanonical) "x\ny\nVerse\nA".toList = some secs ∧
      ∀ j s, secs[j]? = some s → s.Header = GENERAL →
        j = 0 ∧
          s.Content = (linesOf "x\ny\nVerse\nA".toList).takeWhile (fun l => !isHeader l) ∧
          ∃ l0, (linesOf "x\ny\nVerse\nA".toList).head? = some l0 ∧ isHeader l0 = false :=
  Parse_GENERAL_first (fun _ => keywordCanonical) (fun _ => List.Perm.refl _) _

/-- C9: when `k ≥ 2` sections share the base label `b` and none of them carries
an explicit number, `makeUniqueHeaders` renames them `b 1`, `b 2`, ..., `b k` in
list order: the headers of the group, read off the result in order, are `b j`
for `j = 1 .. k`, and the section at index `i` gets the number of sections of
the group up to and including index `i`, its content unchanged.  (The length of
a Go slice is an `int`, hence below `2^63`.) -/
theorem makeUniqueHeaders_unnumbered_group (sections : List Section) (b : Str)
    (hk : 2 ≤ groupSize b sections) (hlen : sections.length < 9223372036854775808)
    (hnone : ∀ s ∈ sections, baseOf s = b → explicitNumber s = 0) :
    ((sections.zip (makeUniqueHeaders sections)).filter
          (fun p => decide (baseOf p.1 = b))).map (fun p => p.2.Header) =
        (List.range' 1 (groupSize b sections)).map
          (fun j => b ++ ' ' :: strconv.Itoa (j : Nat)) ∧
      ∀ (i : Nat) (s : Section), sections[i]? = some s → baseOf s = b →
        (makeUniqueHeaders sections)[i]? =
          some ⟨b ++ ' ' :: strconv.Itoa (groupSize b (sections.take (i + 1)) : Nat),
            s.Content⟩ := by
  have hle : groupSize b sections ≤ sections.length := List.countP_le_length _
  have hc : 1 < countBases sections (fun _ => 0) b := by
    rw [countBases_many sections b hk hlen]
    omega
  refine ⟨?_, ?_⟩
  · unfold makeUniqueHeaders
    exact renumber_unnumbered_list _ b hc sections (fun _ => 0) 0 hnone (by simp) (by omega)
  · intro i s hs hb
    unfold makeUniqueHeaders
    rw [renumber_unnumbered _ b hc sections (fun _ => 0) 0 i s hnone (by simp) (by omega) hs hb]
    simp

theorem makeUniqueHeaders_unnumbered_group_witness :
    (makeUniqueHeaders
        [⟨"PRE-CHORUS".toList, ["A".toList]⟩, ⟨"VERSE 7".toList, ["B".toList]⟩,
          ⟨"PRE-CHORUS".toList, ["C".toList]⟩, ⟨"PRE-CHORUS".toList, ["D".toList]⟩]).map
        Section.Header =
      ["PRE-CHORUS 1".toList, "VERSE 7".toList, "PRE-CHORUS 2".toList,
        "PRE-CHORUS 3".toList] ∧
    (((([⟨"PRE-CHORUS".toList, ["A".toList]⟩, ⟨"VERSE 7".toList, ["B".toList]⟩,
          ⟨"PRE-CHORUS".toList, ["C".toList]⟩, ⟨"PRE-CHORUS".toList, ["D".toList]⟩] :
          List Section).zip
        (makeUniqueHeaders
          [⟨"PRE-CHORUS".toList, ["A".toList]⟩, ⟨"VERSE 7".toList, ["B".toList]⟩,
            ⟨"PRE-CHORUS".toList, ["C".toList]⟩, ⟨"PRE-CHORUS".toList, ["D".toList]⟩])).filter
          (fun p => decide (baseOf p.1 = "PRE-CHORUS".toList))).map (fun p => p.2.Header) =
      (List.range' 1 3).map (fun j => "PRE-CHORUS".toList ++ ' ' :: strconv.Itoa (j : Nat))) :=
  ⟨by decide,
    (makeUniqueHeaders_unnumbered_group
      [⟨"PRE-CHORUS".toList, ["A".toList]⟩, ⟨"VERSE 7".toList, ["B".toList]⟩,
        ⟨"PRE-CHORUS".toList, ["C".toList]⟩, ⟨"PRE-CHORUS".toList, ["D".toList]⟩]
      "PRE-CHORUS".toList (by decide) (by decide) (by decide)).1⟩

end parser

namespace strings

theorem replaceGo_of_not_mem (a : Char) (old new : Str) (s : Str) (h : a ∉ s) :
    replaceGo (a :: old) new 0 s = s := by
  induction s with
  | nil => rfl
  | cons c cs ih =>
    have hc : a ≠ c := fun h' => h (by simp [h'])
    have hcs : a ∉ cs := fun h' => h (List.mem_cons_of_mem _ h')
    unfold replaceGo
    simp [List.isPrefixOf, hc, ih hcs]

theorem ReplaceAll_of_not_mem (a : Char) (old new : Str) (s : Str) (h : a ∉ s) :
    ReplaceAll s (a :: old) new = s :=
  replaceGo_of_not_mem a old new s h

theorem TrimSpace_eq_self (s : Str) (hs : s ≠ [])
    (hhead : unicode.IsSpace (s.head hs) = false)
    (hlast : unicode.IsSpace (s.getLast hs) = false) : TrimSpace s = s := by
  unfold TrimSpace
  have h1 : List.dropWhile unicode.IsSpace s = s := by
    obtain ⟨c, cs, rfl⟩ := List.exists_cons_of_ne_nil hs
    simp only [List.head_cons] at hhead
    simp [List.dropWhile_cons, hhead]
  rw [h1, List.rdropWhile_eq_self_iff]
  intro _
  simp [hlast]

theorem HasSuffix_append (a b : Str) : HasSuffix (a ++ b) b = true := by
  simp [HasSuffix]

theorem TrimSuffix_append (a b : Str) : TrimSuffix (a ++ b) b = a := by
  unfold TrimSuffix
  rw [HasSuffix_append, if_pos rfl]
  simp

theorem HasSuffix_single_ne (s : Str) (c d : Char) (h : d ≠ c) :
    HasSuffix (s ++ [d]) [c] = false := by
  simp [HasSuffix, List.isPrefixOf, h.symm]

theorem fieldsGo_append (t rest cur : Str) (ht : ∀ c ∈ t, unicode.IsSpace c = false) :
    fieldsGo cur (t ++ rest) = fieldsGo (cur ++ t) rest := by
  induction t generalizing cur with
  | nil => simp
  | cons c cs ih =>
    have hc : unicode.IsSpace c = false := ht c (List.mem_cons_self _ _)
    rw [List.cons_append, fieldsGo, if_neg (by simp [hc]),
      ih _ (fun x hx => ht x (List.mem_cons_of_mem _ hx))]
    simp

/-- Two blank-free words separated by one blank are the two fields. -/
theorem Fields_two (k d : Str) (hk : k ≠ []) (hd : d ≠ [])
    (hks : ∀ c ∈ k, unicode.IsSpace c = false) (hds : ∀ c ∈ d, unicode.IsSpace c = false) :
    Fields (k ++ ' ' :: d) = [k, d] := by
  unfold Fields
  rw [fieldsGo_append k _ [] hks, List.nil_append, fieldsGo]
  have hsp : unicode.IsSpace ' ' = true := by decide
  simp only [hsp, if_true, if_neg hk]
  have := fieldsGo_append d [] [] hds
  rw [List.append_nil, List.nil_append] at this
  rw [this, fieldsGo, if_neg hd]

end strings

namespace strconv

theorem digitVal_ofNat (d : Nat) (h : d < 10) : digitVal (Char.ofNat (48 + d)) = some d := by
  interval_cases d <;> rfl

theorem parseDigits_concat (xs : Str) (c : Char) (acc : Nat) :
    parseDigits acc (xs ++ [c]) =
      (parseDigits acc xs).bind (fun v => (digitVal c).map (fun d => v * 10 + d)) := by
  induction xs generalizing acc with
  | nil =>
    simp only [List.nil_append, parseDigits]
    cases digitVal c <;> rfl
  | cons x xs ih =>
    simp only [List.cons_append, parseDigits]
    cases digitVal x with
    | none => rfl
    | some d => exact ih _

theorem digitsRev_ne_nil (fuel n : Nat) : digitsRev (fuel + 1) n ≠ [] := by
  unfold digitsRev
  split <;> simp

theorem digitsRev_digit (fuel n : Nat) :
    ∀ c ∈ digitsRev fuel n, ∃ d, d < 10 ∧ c = Char.ofNat (48 + d) := by
  induction fuel generalizing n with
  | zero => simp [digitsRev]
  | succ f ih =>
    intro c hc
    unfold digitsRev at hc
    split at hc
    · simp only [List.mem_singleton] at hc
      exact ⟨n, by assumption, hc⟩
    · rcases List.mem_cons.mp hc with h | h
      · exact ⟨n % 10, Nat.mod_lt _ (by decide), h⟩
      · exact ih _ c h

theorem parseDigits_digitsRev (fuel n : Nat) (h : n < fuel) :
    parseDigits 0 (digitsRev fuel n).reverse = some n := by
  induction fuel generalizing n with
  | zero => omega
  | succ f ih =>
    unfold digitsRev
    split
    · rename_i h10
      simp only [List.reverse_cons, List.reverse_nil, List.nil_append, parseDigits]
      rw [digitVal_ofNat n h10]
      simp [parseDigits]
    · rename_i h10
      rw [List.reverse_cons, parseDigits_concat, ih (n / 10) (by omega),
        digitVal_ofNat _ (Nat.mod_lt _ (by decide))]
      simp only [Option.some_bind, Option.map_some', Option.some.injEq]
      omega

theorem formatNat_ne_nil (n : Nat) : formatNat n ≠ [] := by
  unfold formatNat
  simpa using digitsRev_ne_nil n n

theorem formatNat_digit (n : Nat) :
    ∀ c ∈ formatNat n, ∃ d, d < 10 ∧ c = Char.ofNat (48 + d) := by
  intro c hc
  unfold formatNat at hc
  exact digitsRev_digit _ _ c (List.mem_reverse.mp hc)

theorem parseDigits_formatNat (n : Nat) : parseDigits 0 (formatNat n) = some n :=
  parseDigits_digitsRev (n + 1) n (by omega)

theorem digit_props (c : Char) (h : ∃ d, d < 10 ∧ c = Char.ofNat (48 + d)) :
    unicode.IsSpace c = false ∧ c ≠ '<' ∧ c ≠ ':' ∧ c ≠ '-' ∧ c ≠ '+' := by
  obtain ⟨d, hd, rfl⟩ := h
  interval_cases d <;> decide

/-- `Atoi` reads back what `Itoa` writes, for the non-negative values of an `int`. -/
theorem Atoi_Itoa (n : Int) (h0 : 0 ≤ n) (h1 : n ≤ 9223372036854775807) :
    Atoi (Itoa n) = some n := by
  obtain ⟨m, rfl⟩ := Int.eq_ofNat_of_zero_le h0
  have hI : Itoa (m : Int) = formatNat m := by
    unfold Itoa
    simp
  rw [hI]
  obtain ⟨c, cs, hcs⟩ := List.exists_cons_of_ne_nil (formatNat_ne_nil m)
  have hp := parseDigits_formatNat m
  have hc := digit_props c (formatNat_digit m c (by rw [hcs]; exact List.mem_cons_self _ _))
  rw [hcs] at hp ⊢
  unfold Atoi
  simp only [hc.2.2.2.1, hc.2.2.2.2, or_self, if_false, hp]
  have hm : m ≤ 9223372036854775807 := by omega
  simp [hm]

end strconv

namespace strings

theorem TrimSpace_of_no_space (s : Str) (h : ∀ c ∈ s, unicode.IsSpace c = false) :
    TrimSpace s = s := by
  by_cases hs : s = []
  · subst hs
    rfl
  · exact TrimSpace_eq_self s hs (h _ (List.head_mem hs)) (h _ (List.getLast_mem hs))

theorem TrimSpace_trailing_blank (k : Str) (h : ∀ c ∈ k, unicode.IsSpace c = false) :
    TrimSpace (k ++ [' ']) = k := by
  have hk := TrimSpace_of_no_space k h
  unfold TrimSpace at hk ⊢
  cases k with
  | nil => rfl
  | cons c cs =>
    have hc : unicode.IsSpace c = false := h c (List.mem_cons_self _ _)
    have hd : List.dropWhile unicode.IsSpace (c :: cs) = c :: cs := by
      simp [List.dropWhile_cons, hc]
    have hd' : List.dropWhile unicode.IsSpace (c :: cs ++ [' ']) = c :: cs ++ [' '] := by
      simp [List.dropWhile_cons, hc]
    rw [hd] at hk
    rw [hd', List.rdropWhile_concat_pos _ _ _ (by decide), hk]

end strings

namespace parser

theorem dropColons_strip (s : Str) (h1 : strings.TrimSpace s = s)
    (h2 : strings.HasSuffix s [':'] = false) :
    dropColons (s ++ [':']).length (s ++ [':']) = s := by
  rw [List.length_append, List.length_singleton, dropColons, strings.HasSuffix_append,
    if_pos rfl, strings.TrimSuffix_append, h1]
  cases s.length with
  | zero => rfl
  | succ m => rw [dropColons, h2, if_neg (by simp)]

/-- A result found by `detectHeader` without the scan of the table is the
result under every scan order. -/
theorem detectHeader_exact (line : Str) (r : Str × Int) (enum : Table)
    (h : detectHeader [] line = some (r.1, r.2, true)) :
    detectHeader enum line = some (r.1, r.2, true) := by
  rcases detectHeader_shape line with ⟨r', hr, _⟩ | ⟨fn, num, _, _, hr⟩
  · rw [hr enum, ← hr [], h]
  · rw [hr []] at h
    simp at h

/-- A line `name number:` whose name is a key of the table. -/
theorem detectHeader_numbered_line (enum : Table) (k L d : Str) (n : Int)
    (hk : k ≠ []) (hks : ∀ c ∈ k, unicode.IsSpace c = false ∧ c ≠ '<')
    (hd : d ≠ []) (hds : ∀ c ∈ d, unicode.IsSpace c = false ∧ c ≠ '<' ∧ c ≠ ':')
    (hA : strconv.Atoi d = some n) (hn : 0 < n)
    (hkey : mapGet keywordCanonical (normalize.Key k) = some L) :
    detectHeader enum (k ++ ' ' :: (d ++ [':'])) = some (L, n, true) := by
  have hline : k ++ ' ' :: (d ++ [':']) = (k ++ ' ' :: d) ++ [':'] := by simp
  have hlt : '<' ∉ k ++ ' ' :: (d ++ [':']) := by
    intro hmem
    simp only [List.mem_append, List.mem_cons, List.mem_singleton, List.not_mem_nil,
      or_false] at hmem
    rcases hmem with h | h | h | h
    · exact (hks _ h).2 rfl
    · exact absurd h (by decide)
    · exact (hds _ h).2.1 rfl
    · exact absurd h (by decide)
  have hr1 : strings.ReplaceAll (k ++ ' ' :: (d ++ [':'])) "<b>".toList [] =
      k ++ ' ' :: (d ++ [':']) := strings.ReplaceAll_of_not_mem '<' _ _ _ hlt
  have hr2 : strings.ReplaceAll (k ++ ' ' :: (d ++ [':'])) "</b>".toList [] =
      k ++ ' ' :: (d ++ [':']) := strings.ReplaceAll_of_not_mem '<' _ _ _ hlt
  obtain ⟨k0, ks, hk0⟩ := List.exists_cons_of_ne_nil hk
  have hne : k ++ ' ' :: (d ++ [':']) ≠ [] := by simp [hk0]
  have hdl : unicode.IsSpace (d.getLast hd) = false := (hds _ (List.getLast_mem hd)).1
  have ht : strings.TrimSpace (k ++ ' ' :: (d ++ [':'])) = k ++ ' ' :: (d ++ [':']) := by
    apply strings.TrimSpace_eq_self _ hne
    · have := (hks k0 (by rw [hk0]; exact List.mem_cons_self _ _)).1
      simpa [hk0] using this
    · rw [List.getLast_congr hne (by simp) hline]
      simp
      decide
  have hne2 : k ++ ' ' :: d ≠ [] := by simp [hk0]
  have ht2 : strings.TrimSpace (k ++ ' ' :: d) = k ++ ' ' :: d := by
    apply strings.TrimSpace_eq_self _ hne2
    · have := (hks k0 (by rw [hk0]; exact List.mem_cons_self _ _)).1
      simpa [hk0] using this
    · have hl : (k ++ ' ' :: d).getLast hne2 = d.getLast hd := by
        rw [List.getLast_append_of_ne_nil (List.cons_ne_nil _ _), List.getLast_cons hd]
      rw [hl]
      exact hdl
  have hsuf : strings.HasSuffix (k ++ ' ' :: d) [':'] = false := by
    have hdc : d.getLast hd ≠ ':' := (hds _ (List.getLast_mem hd)).2.2
    have hsplit : k ++ ' ' :: d = (k ++ ' ' :: d.dropLast) ++ [d.getLast hd] := by
      rw [List.append_assoc, List.cons_append, List.dropLast_append_getLast hd]
    rw [hsplit]
    exact strings.HasSuffix_single_ne _ _ _ hdc
  have hdrop : dropColons (k ++ ' ' :: (d ++ [':'])).length (k ++ ' ' :: (d ++ [':'])) =
      k ++ ' ' :: d := by
    rw [hline]
    exact dropColons_strip _ ht2 hsuf
  have hfields : strings.Fields (k ++ ' ' :: d) = [k, d] :=
    strings.Fields_two k d hk hd (fun c hc => (hks c hc).1) (fun c hc => (hds c hc).1)
  have hdig : normalize.IsDigits d = true := (normalize.IsDigits_iff d).mpr ⟨n, hA, hn⟩
  have hname : strings.TrimSpace (strings.TrimSuffix (k ++ ' ' :: d) d) = k := by
    have : k ++ ' ' :: d = (k ++ [' ']) ++ d := by simp
    rw [this, strings.TrimSuffix_append]
    exact strings.TrimSpace_trailing_blank k (fun c hc => (hks c hc).1)
  unfold detectHeader
  simp only
  rw [hr1, hr2, ht, if_neg hne, hdrop, if_neg hne2, hfields]
  simp only [List.getLast?_cons_cons, List.getLast?_singleton, hdig, hA, if_true, hname, hkey]

set_option maxRecDepth 100000 in
theorem keyword_facts : ∀ kv ∈ keywordCanonical,
    kv.1 ≠ [] ∧ (∀ c ∈ kv.1, unicode.IsSpace c = false ∧ c ≠ '<') ∧
      mapGet keywordCanonical (normalize.Key kv.1) = some kv.2 := by
  decide

set_option maxRecDepth 100000 in
theorem keyword_plain_forms : ∀ kv ∈ keywordCanonical,
    detectHeader [] kv.1 = some (kv.2, 0, true) ∧
      detectHeader [] ('[' :: kv.1 ++ [']']) = some (kv.2, 0, true) ∧
      detectHeader [] ("<b>".toList ++ kv.1 ++ "</b>".toList) = some (kv.2, 0, true) := by
  decide

/-- C10 as stated fails: a number beyond the range of an `int` is not taken as
the header's number. -/
theorem detectHeader_number_out_of_range :
    ¬ (∀ (enum : Table) (k L : Str) (n : Int), (k, L) ∈ keywordCanonical → 1 ≤ n →
        detectHeader enum (k ++ ' ' :: (strconv.Itoa n ++ [':'])) = some (L, n, true)) := by
  intro h
  have h1 := h keywordCanonical "verse".toList "VERSE".toList 9223372036854775808
    (by decide) (by decide)
  exact absurd h1 (by decide)

/-- C10, amended: for every key `k` of the keyword table with canonical label
`L`, under every scan order, `detectHeader` recognises the lines `k`, `[k]` and
`<b>k</b>` with result `(L, 0, true)`, and for every `n` with
`1 ≤ n ≤ maxInt = 2^63 - 1` (the positive values of an `int`) it recognises the line
`k`, blank, decimal `n`, colon with result `(L, n, true)`. -/
theorem detectHeader_keyword_forms (enum : Table) (k L : Str)
    (hk : (k, L) ∈ keywordCanonical) (n : Int) (h1 : 1 ≤ n) (hmax : n ≤ maxInt) :
    detectHeader enum k = some (L, 0, true) ∧
      detectHeader enum ('[' :: k ++ [']']) = some (L, 0, true) ∧
      detectHeader enum ("<b>".toList ++ k ++ "</b>".toList) = some (L, 0, true) ∧
      detectHeader enum (k ++ ' ' :: (strconv.Itoa n ++ [':'])) = some (L, n, true) := by
  have h2 : n ≤ 9223372036854775807 := hmax
  obtain ⟨p1, p2, p3⟩ := keyword_plain_forms (k, L) hk
  obtain ⟨f1, f2, f3⟩ := keyword_facts (k, L) hk
  refine ⟨detectHeader_exact k (L, 0) enum p1, detectHeader_exact _ (L, 0) enum p2,
    detectHeader_exact _ (L, 0) enum p3, ?_⟩
  have hne : strconv.Itoa n ≠ [] := by
    unfold strconv.Itoa
    split
    · simp
    · exact strconv.formatNat_ne_nil _
  have hdig : ∀ c ∈ strconv.Itoa n, unicode.IsSpace c = false ∧ c ≠ '<' ∧ c ≠ ':' := by
    intro c hc
    have hI : strconv.Itoa n = strconv.formatNat n.natAbs := by
      unfold strconv.Itoa
      rw [if_neg (by omega)]
    rw [hI] at hc
    have := strconv.digit_props c (strconv.formatNat_digit _ c hc)
    exact ⟨this.1, this.2.1, this.2.2.1⟩
  exact detectHeader_numbered_line enum k L (strconv.Itoa n) n f1 f2 hne hdig
    (strconv.Atoi_Itoa n (by omega) h2) (by omega) f3

theorem detectHeader_keyword_forms_witness :
    detectHeader keywordCanonical "refrein".toList = some ("CHORUS".toList, 0, true) ∧
      detectHeader keywordCanonical ('[' :: "refrein".toList ++ [']']) =
        some ("CHORUS".toList, 0, true) ∧
      detectHeader keywordCanonical ("<b>".toList ++ "refrein".toList ++ "</b>".toList) =
        some ("CHORUS".toList, 0, true) ∧
      detectHeader keywordCanonical ("refrein".toList ++ ' ' :: (strconv.Itoa 12 ++ [':'])) =
        some ("CHORUS".toList, 12, true) :=
  detectHeader_keyword_forms keywordCanonical "refrein".toList "CHORUS".toList (by decide) 12
    (by decide) (by decide)

theorem splitBaseAndNumber_nonneg (h : Str) : 0 ≤ (splitBaseAndNumber h).2 := by
  unfold splitBaseAndNumber
  simp only
  split
  · simp
  · split
    · simp
    · simp
    · split
      · rename_i hd
        obtain ⟨n, hn, hpos⟩ := (normalize.IsDigits_iff _).mp hd
        rw [hn]
        simp only
        omega
      · simp

theorem specNumbers_increasing (prev : Int) (es : List Int) :
    (∀ x ∈ specNumbers prev es, prev < x) ∧ List.Pairwise (· < ·) (specNumbers prev es) := by
  induction es generalizing prev with
  | nil => simp [specNumbers]
  | cons e es ih =>
    obtain ⟨h1, h2⟩ := ih (max e (prev + 1))
    have hm : prev < max e (prev + 1) := by omega
    unfold specNumbers
    refine ⟨?_, List.pairwise_cons.mpr ⟨h1, h2⟩⟩
    intro x hx
    rcases List.mem_cons.mp hx with rfl | hx
    · exact hm
    · exact lt_trans hm (h1 x hx)

/-- While the counter stays in the range of an `int`, the second loop of
`makeUniqueHeaders` numbers a group by the rule of the spec. -/
theorem renumber_spec (counts : Str → Int) (b : Str) (hc : 1 < counts b)
    (l : List Section) (next : Str → Int) (prev : Int)
    (hnext : next b = prev) (h0 : 0 ≤ prev)
    (hprev : prev + groupSize b l ≤ 9223372036854775807)
    (hbound : ∀ x ∈ l, baseOf x = b →
      explicitNumber x + groupSize b l ≤ 9223372036854775807) :
    ((l.zip (renumber counts l next)).filter (fun p => decide (baseOf p.1 = b))).map
        (fun p => p.2.Header) =
      (specNumbers prev ((l.filter (fun s => decide (baseOf s = b))).map explicitNumber)).map
        (fun n => b ++ ' ' :: strconv.Itoa n) := by
  induction l generalizing next prev with
  | nil => simp [renumber, specNumbers]
  | cons s0 rest ih =>
    by_cases hb0 : baseOf s0 = b
    · have hg : groupSize b (s0 :: rest) = groupSize b rest + 1 := by
        simp [groupSize, List.countP_cons, hb0]
      have hb0' : (splitBaseAndNumber s0.Header).1 = b := hb0
      have he0 : 0 ≤ (splitBaseAndNumber s0.Header).2 := splitBaseAndNumber_nonneg _
      have he1 : (splitBaseAndNumber s0.Header).2 + (groupSize b rest + 1 : Nat) ≤
          9223372036854775807 := by
        have := hbound s0 (List.mem_cons_self _ _) hb0
        rw [hg] at this
        exact this
      rw [hg] at hprev
      push_cast at hprev he1
      have hw : wrapInt (prev + 1) = prev + 1 := by
        apply wrapInt_of_range <;> omega
      have hrest : ∀ x ∈ rest, baseOf x = b →
          explicitNumber x + groupSize b rest ≤ 9223372036854775807 := by
        intro x hx hxb
        have := hbound x (List.mem_cons_of_mem _ hx) hxb
        rw [hg] at this
        push_cast at this
        omega
      rw [List.filter_cons_of_pos (by simpa using hb0), List.map_cons, specNumbers,
        List.map_cons]
      have hexp : explicitNumber s0 = (splitBaseAndNumber s0.Header).2 := rfl
      rw [hexp]
      unfold renumber
      simp only [hb0', if_neg (not_le.mpr hc), hnext, hw]
      split
      · rename_i hz
        have hmax : max (splitBaseAndNumber s0.Header).2 (prev + 1) = prev + 1 := by
          rw [hz]
          omega
        rw [List.zip_cons_cons, List.filter_cons_of_pos (by simpa using hb0), List.map_cons,
          hmax, ih _ (prev + 1) (by simp) (by omega) (by omega) hrest]
      · split
        · rename_i hz hle
          have hmax : max (splitBaseAndNumber s0.Header).2 (prev + 1) = prev + 1 := by omega
          rw [List.zip_cons_cons, List.filter_cons_of_pos (by simpa using hb0), List.map_cons,
            hmax, ih _ (prev + 1) (by simp) (by omega) (by omega) hrest]
        · rename_i hz hle
          have hmax : max (splitBaseAndNumber s0.Header).2 (prev + 1) =
              (splitBaseAndNumber s0.Header).2 := by omega
          rw [List.zip_cons_cons, List.filter_cons_of_pos (by simpa using hb0), List.map_cons,
            hmax, ih _ (splitBaseAndNumber s0.Header).2 (by simp) (by omega) (by omega) hrest]
    · have hg : groupSize b (s0 :: rest) = groupSize b rest := by
        simp [groupSize, List.countP_cons, hb0]
      have hb0' : ¬ b = (splitBaseAndNumber s0.Header).1 := fun h' => hb0 h'.symm
      have hrest : ∀ x ∈ rest, baseOf x = b →
          explicitNumber x + groupSize b rest ≤ 9223372036854775807 := by
        intro x hx hxb
        have := hbound x (List.mem_cons_of_mem _ hx) hxb
        rw [hg] at this
        exact this
      rw [hg] at hprev
      rw [List.filter_cons_of_neg (by simpa using hb0)]
      unfold renumber
      simp only
      split
      · rw [List.zip_cons_cons, List.filter_cons_of_neg (by simpa using hb0)]
        exact ih next prev hnext h0 hprev hrest
      · split
        · rw [List.zip_cons_cons, List.filter_cons_of_neg (by simpa using hb0)]
          exact ih _ prev (by rw [Function.update_noteq hb0']; exact hnext) h0 hprev hrest
        · split
          · rw [List.zip_cons_cons, List.filter_cons_of_neg (by simpa using hb0)]
            exact ih _ prev (by rw [Function.update_noteq hb0']; exact hnext) h0 hprev hrest
          · rw [List.zip_cons_cons, List.filter_cons_of_neg (by simpa using hb0)]
            exact ih _ prev (by rw [Function.update_noteq hb0']; exact hnext) h0 hprev hrest

/-- Where no counter leaves the range of an `int`, `makeUniqueHeaders` numbers
every group of two or more sections by the rule of the spec, and the numbers
increase strictly. -/
theorem makeUniqueHeaders_spec_in_range (sections : List Section) (b : Str)
    (hk : 2 ≤ groupSize b sections) (hlen : sections.length < 9223372036854775808)
    (hbound : ∀ s ∈ sections, baseOf s = b →
      explicitNumber s + groupSize b sections ≤ 9223372036854775807) :
    ((sections.zip (makeUniqueHeaders sections)).filter
          (fun p => decide (baseOf p.1 = b))).map (fun p => p.2.Header) =
        (specNumbers 0
          ((sections.filter (fun s => decide (baseOf s = b))).map explicitNumber)).map
          (fun n => b ++ ' ' :: strconv.Itoa n) ∧
      List.Pairwise (· < ·)
        (specNumbers 0 ((sections.filter (fun s => decide (baseOf s = b))).map explicitNumber)) := by
  have hle : groupSize b sections ≤ sections.length := List.countP_le_length _
  have hc : 1 < countBases sections (fun _ => 0) b := by
    rw [countBases_many sections b hk hlen]
    omega
  refine ⟨?_, (specNumbers_increasing 0 _).2⟩
  unfold makeUniqueHeaders
  exact renumber_spec _ b hc sections (fun _ => 0) 0 rfl (le_refl _) (by omega) hbound

/-- C2 (defect): the counter of a group wraps around at the largest `int`, so
the numbers displayed within the group are not increasing. -/
theorem makeUniqueHeaders_wraps :
    makeUniqueHeaders
        [⟨"CHORUS 9223372036854775807".toList, ["A".toList]⟩, ⟨"CHORUS".toList, ["B".toList]⟩] =
      [⟨"CHORUS 9223372036854775807".toList, ["A".toList]⟩,
        ⟨"CHORUS -9223372036854775808".toList, ["B".toList]⟩] := by
  decide

/-- C3 (defect): after the counter has wrapped around, an explicit number is
accepted a second time and two sections of `Parse` carry the same header. -/
theorem Parse_duplicate_headers :
    Parse (fun _ => keywordCanonical)
        "Verse 9223372036854775807\nA\nVerse\nB\nVerse 9223372036854775807\nC".toList =
      some [⟨"VERSE 9223372036854775807".toList, ["A".toList]⟩,
        ⟨"VERSE -9223372036854775808".toList, ["B".toList]⟩,
        ⟨"VERSE 9223372036854775807".toList, ["C".toList]⟩] := by
  decide

/-- C7 (defect): the header after the largest `int` carries a negative number. -/
theorem Parse_negative_number :
    Parse (fun _ => keywordCanonical) "Bridge 9223372036854775807\nA\nBridge\nB".toList =
      some [⟨"BRIDGE 9223372036854775807".toList, ["A".toList]⟩,
        ⟨"BRIDGE -9223372036854775808".toList, ["B".toList]⟩] := by
  decide

/-- C8 (defect): with explicit numbers `2^63 - 2`, none and `5` in one group the
displayed numbers are `2^63 - 2`, `2^63 - 1` and `-2^63`; the recurrence of the
claim gives `2^63` for the third. -/
theorem makeUniqueHeaders_recurrence_breaks :
    makeUniqueHeaders
        [⟨"TAG 9223372036854775806".toList, ["A".toList]⟩, ⟨"TAG".toList, ["B".toList]⟩,
          ⟨"TAG 5".toList, ["C".toList]⟩] =
      [⟨"TAG 9223372036854775806".toList, ["A".toList]⟩,
        ⟨"TAG 9223372036854775807".toList, ["B".toList]⟩,
        ⟨"TAG -9223372036854775808".toList, ["C".toList]⟩] := by
  decide

end parser

end ChordParser

namespace ChordParser

namespace parser

theorem parseLoop_isSome (enums : Nat → Table) (lines : List Str) (i : Nat) (st : ParseState) :
    ∃ st', parseLoop enums i lines st = some st' := by
  induction lines generalizing i st with
  | nil => exact ⟨st, rfl⟩
  | cons line rest ih =>
    obtain ⟨r, hr⟩ := detectHeader_isSome (enums i) line
    obtain ⟨st', hst'⟩ := ih (i + 1) (parseLine st line r)
    exact ⟨st', by rw [parseLoop, hr]; exact hst'⟩

/-- C11: `detectHeader` and `StripDecorations` complete on every input (no index
or slice is out of bounds), under every scan order of the table; hence `Parse`
returns a section list for every input text. -/
theorem no_fault :
    (∀ (enum : Table) (s : Str), ∃ r, detectHeader enum s = some r) ∧
      (∀ s : Str, ∃ r, normalize.StripDecorations s = some r) ∧
      (∀ (enums : Nat → Table) (text : Str), ∃ secs, Parse enums text = some secs) := by
  refine ⟨detectHeader_isSome, normalize.StripDecorations_isSome, ?_⟩
  intro enums text
  obtain ⟨st', hst'⟩ := parseLoop_isSome enums
    (strings.Split (normalize.Newlines text) '\n') 0 ⟨[], GENERAL, [], false⟩
  unfold Parse
  simp only
  rw [hst']
  exact ⟨_, rfl⟩

end parser

namespace strconv

theorem digitVal_eq_some (c : Char) (h : 48 ≤ c.toNat ∧ c.toNat ≤ 57) :
    digitVal c = some (c.toNat - 48) := by
  unfold digitVal
  rw [if_pos h]

theorem digitVal_eq_none (c : Char) (h : ¬ (48 ≤ c.toNat ∧ c.toNat ≤ 57)) :
    digitVal c = none := by
  unfold digitVal
  rw [if_neg h]

theorem parseDigits_of_digits (s : Str) (acc : Nat)
    (h : ∀ c ∈ s, 48 ≤ c.toNat ∧ c.toNat ≤ 57) :
    parseDigits acc s = some (s.foldl (fun a c => a * 10 + (c.toNat - 48)) acc) := by
  induction s generalizing acc with
  | nil => rfl
  | cons c cs ih =>
    rw [parseDigits, digitVal_eq_some c (h c (List.mem_cons_self _ _))]
    simp only [List.foldl_cons]
    exact ih _ (fun x hx => h x (List.mem_cons_of_mem _ hx))

theorem parseDigits_some_digits (s : Str) (acc v : Nat) (h : parseDigits acc s = some v) :
    ∀ c ∈ s, 48 ≤ c.toNat ∧ c.toNat ≤ 57 := by
  induction s generalizing acc with
  | nil => simp
  | cons c cs ih =>
    rw [parseDigits] at h
    by_cases hc : 48 ≤ c.toNat ∧ c.toNat ≤ 57
    · rw [digitVal_eq_some c hc] at h
      intro x hx
      rcases List.mem_cons.mp hx with rfl | hx
      · exact hc
      · exact ih _ h x hx
    · rw [digitVal_eq_none c hc] at h
      exact absurd h (by simp)

/-- `Atoi` on a string without a sign. -/
theorem Atoi_unsigned (c : Char) (cs : Str) (hm : c ≠ '-') (hp : c ≠ '+') :
    Atoi (c :: cs) =
      match parseDigits 0 (c :: cs) with
      | none => none
      | some v => if v ≤ 9223372036854775807 then some (v : Int) else none := by
  unfold Atoi
  simp only [hm, hp, or_self, if_false, List.cons_ne_nil]

theorem Atoi_minus_nonpos (cs : Str) (n : Int) (h : Atoi ('-' :: cs) = some n) : n ≤ 0 := by
  simp only [Atoi, true_or, if_true] at h
  by_cases hcs : cs = []
  · rw [if_pos hcs] at h
    exact absurd h (by simp)
  · rw [if_neg hcs] at h
    cases hp : parseDigits 0 cs with
    | none =>
      rw [hp] at h
      exact absurd h (by simp)
    | some v =>
      rw [hp] at h
      simp only at h
      split at h
      · simp only [Option.some.injEq] at h
        omega
      · exact absurd h (by simp)

end strconv

namespace normalize

theorem IsDigits_unsigned (s : Str) (hplus : s.head? ≠ some '+') :
    IsDigits s = true ↔
      s ≠ [] ∧ (∀ c ∈ s, 48 ≤ c.toNat ∧ c.toNat ≤ 57) ∧
        0 < strconv.decimalValue s ∧ strconv.decimalValue s ≤ 9223372036854775807 := by
  cases s with
  | nil => simp [IsDigits]
  | cons c cs =>
    have hp : c ≠ '+' := by
      intro h
      apply hplus
      rw [h]
      rfl
    rw [IsDigits_iff]
    by_cases hm : c = '-'
    · subst hm
      constructor
      · rintro ⟨n, hn, hpos⟩
        have := strconv.Atoi_minus_nonpos cs n hn
        omega
      · rintro ⟨_, hd, _⟩
        have := hd '-' (List.mem_cons_self _ _)
        exact absurd this (by decide)
    · rw [strconv.Atoi_unsigned c cs hm hp]
      constructor
      · rintro ⟨n, hn, hpos⟩
        cases hpd : strconv.parseDigits 0 (c :: cs) with
        | none =>
          rw [hpd] at hn
          exact absurd hn (by simp)
        | some v =>
          rw [hpd] at hn
          have hd := strconv.parseDigits_some_digits _ _ _ hpd
          have hv := strconv.parseDigits_of_digits _ 0 hd
          rw [hpd] at hv
          have hv' : v = strconv.decimalValue (c :: cs) := Option.some.inj hv
          simp only at hn
          split at hn
          · simp only [Option.some.injEq] at hn
            refine ⟨List.cons_ne_nil _ _, hd, ?_, ?_⟩ <;> omega
          · exact absurd hn (by simp)
      · rintro ⟨_, hd, h0, h1⟩
        have hv := strconv.parseDigits_of_digits _ 0 hd
        have hv' : strconv.parseDigits 0 (c :: cs) = some (strconv.decimalValue (c :: cs)) := hv
        rw [hv']
        simp only [if_pos h1]
        exact ⟨_, rfl, by omega⟩

/-- C12 as stated fails: a string of digits whose value does not fit an `int`
is rejected (and the string `+5` is accepted). -/
theorem IsDigits_not_exactly_digits :
    ¬ (∀ s : Str, IsDigits s = true ↔
        (s ≠ [] ∧ (∀ c ∈ s, 48 ≤ c.toNat ∧ c.toNat ≤ 57) ∧ 0 < strconv.decimalValue s)) := by
  intro h
  have h1 := (h "9223372036854775808".toList).mpr (by decide)
  exact absurd h1 (by decide)

/-- C12, amended: for every string `s` that does not begin with `+`, `IsDigits(s)`
is true if and only if `s` is non-empty, every character of `s` is a decimal
digit `0`..`9`, and the value of `s` is greater than zero and at most
`2^63 - 1`, the largest `int`. -/
theorem IsDigits_iff_positive_digits (s : Str) (hplus : s.head? ≠ some '+') :
    IsDigits s = true ↔
      s ≠ [] ∧ (∀ c ∈ s, 48 ≤ c.toNat ∧ c.toNat ≤ 57) ∧
        0 < strconv.decimalValue s ∧ (strconv.decimalValue s : Int) ≤ maxInt := by
  rw [IsDigits_unsigned s hplus]
  unfold maxInt
  constructor
  · rintro ⟨a, b, c, d⟩
    exact ⟨a, b, c, by exact_mod_cast d⟩
  · rintro ⟨a, b, c, d⟩
    exact ⟨a, b, c, by exact_mod_cast d⟩

theorem IsDigits_iff_positive_digits_witness :
    IsDigits "01".toList = true ↔
      "01".toList ≠ [] ∧ (∀ c ∈ "01".toList, 48 ≤ c.toNat ∧ c.toNat ≤ 57) ∧
        0 < strconv.decimalValue "01".toList ∧
        (strconv.decimalValue "01".toList : Int) ≤ maxInt :=
  IsDigits_iff_positive_digits "01".toList (by decide)

end normalize

end ChordParser

namespace ChordParser

namespace strings

theorem TrimSpace_wrapped (a z : Char) (m : Str) (ha : unicode.IsSpace a = false)
    (hz : unicode.IsSpace z = false) : TrimSpace (a :: m ++ [z]) = a :: m ++ [z] := by
  have hne : a :: m ++ [z] ≠ [] := by simp
  apply TrimSpace_eq_self _ hne
  · simpa using ha
  · have : (a :: m ++ [z]).getLast hne = z := by simp
    rw [this]
    exact hz

theorem slice_inner (pre post m : Str) :
    slice (pre ++ m ++ post) pre.length ((pre ++ m ++ post).length - post.length) = some m := by
  unfold slice
  have hlen : (pre ++ m ++ post).length - post.length = pre.length + m.length := by
    simp only [List.length_append]
    omega
  rw [hlen, if_pos (by simp only [List.length_append]; omega)]
  have ht : List.take (pre.length + m.length) (pre ++ m ++ post) = pre ++ m := by
    rw [← List.length_append]
    exact List.take_left' rfl
  rw [ht]
  simp

theorem bold_tags (Y : Str) :
    HasPrefix (ToLower (['<', 'b', '>'] ++ Y ++ ['<', '/', 'b', '>'])) "<b>".toList = true ∧
      HasSuffix (ToLower (['<', 'b', '>'] ++ Y ++ ['<', '/', 'b', '>'])) "</b>".toList = true := by
  constructor
  · simp [HasPrefix, ToLower, unicode.ToLower]
  · have h : ToLower (['<', 'b', '>'] ++ Y ++ ['<', '/', 'b', '>']) =
        (['<', 'b', '>'] ++ ToLower Y) ++ "</b>".toList := by
      simp [ToLower, unicode.ToLower]
    rw [h]
    exact HasSuffix_append _ _

end strings

namespace normalize

/-- The second step of `StripDecorations` on a string in bold tags. -/
theorem StripDecorations_bold_step (Y : Str) :
    (if strings.HasPrefix (strings.ToLower (['<', 'b', '>'] ++ Y ++ ['<', '/', 'b', '>']))
          "<b>".toList = true ∧
        strings.HasSuffix (strings.ToLower (['<', 'b', '>'] ++ Y ++ ['<', '/', 'b', '>']))
          "</b>".toList = true then
      (strings.slice (['<', 'b', '>'] ++ Y ++ ['<', '/', 'b', '>']) 3
        ((['<', 'b', '>'] ++ Y ++ ['<', '/', 'b', '>']).length - 4)).map strings.TrimSpace
    else some (['<', 'b', '>'] ++ Y ++ ['<', '/', 'b', '>'])) = some (strings.TrimSpace Y) := by
  rw [if_pos (strings.bold_tags Y)]
  have := strings.slice_inner ['<', 'b', '>'] ['<', '/', 'b', '>'] Y
  simp only [List.length_cons, List.length_nil] at this
  rw [this]
  rfl

theorem StripDecorations_brackets_outside (X : Str) :
    StripDecorations ("[<b>".toList ++ X ++ "</b>]".toList) = some (strings.TrimSpace X) := by
  have hs : "[<b>".toList ++ X ++ "</b>]".toList =
      '[' :: (['<', 'b', '>'] ++ X ++ ['<', '/', 'b', '>']) ++ [']'] := by simp
  have hin : ['<', 'b', '>'] ++ X ++ ['<', '/', 'b', '>'] =
      '<' :: ('b' :: '>' :: X ++ ['<', '/', 'b']) ++ ['>'] := by simp
  rw [hs]
  generalize hY : ['<', 'b', '>'] ++ X ++ ['<', '/', 'b', '>'] = Y
  have hne : '[' :: Y ++ [']'] ≠ [] := by simp
  have hlast : ('[' :: Y ++ [']']).getLast? = some ']' := by
    rw [List.getLast?_eq_getLast _ hne]
    simp
  have hslice : strings.slice ('[' :: Y ++ [']']) 1 (('[' :: Y ++ [']']).length - 1) = some Y := by
    have := strings.slice_inner ['['] [']'] Y
    simpa using this
  have hTY : strings.TrimSpace Y = Y := by
    rw [← hY, hin]
    exact strings.TrimSpace_wrapped _ _ _ (by decide) (by decide)
  unfold StripDecorations
  simp only
  rw [strings.TrimSpace_wrapped _ _ _ (by decide) (by decide), if_neg hne, hlast]
  simp only [List.head?_cons, List.cons_append]
  rw [if_pos (by simp)]
  have hslice' : strings.slice ('[' :: (Y ++ [']'])) 1 (('[' :: (Y ++ [']'])).length - 1) =
      some Y := hslice
  rw [hslice']
  simp only [Option.map_some']
  rw [hTY, ← hY]
  exact StripDecorations_bold_step X

theorem StripDecorations_bold_outside (X : Str) :
    StripDecorations ("<b>[".toList ++ X ++ "]</b>".toList) = some ('[' :: X ++ [']']) := by
  have hs : "<b>[".toList ++ X ++ "]</b>".toList =
      ['<', 'b', '>'] ++ ('[' :: X ++ [']']) ++ ['<', '/', 'b', '>'] := by simp
  have hin : ['<', 'b', '>'] ++ ('[' :: X ++ [']']) ++ ['<', '/', 'b', '>'] =
      '<' :: ('b' :: '>' :: ('[' :: X ++ [']']) ++ ['<', '/', 'b']) ++ ['>'] := by simp
  rw [hs]
  have hT : strings.TrimSpace (['<', 'b', '>'] ++ ('[' :: X ++ [']']) ++ ['<', '/', 'b', '>']) =
      ['<', 'b', '>'] ++ ('[' :: X ++ [']']) ++ ['<', '/', 'b', '>'] := by
    rw [hin]
    exact strings.TrimSpace_wrapped _ _ _ (by decide) (by decide)
  have hstep := StripDecorations_bold_step ('[' :: X ++ [']'])
  rw [strings.TrimSpace_wrapped _ _ _ (by decide) (by decide)] at hstep
  generalize hU : ['<', 'b', '>'] ++ ('[' :: X ++ [']']) ++ ['<', '/', 'b', '>'] = U at hT hstep
  have hne : U ≠ [] := by
    rw [← hU]
    simp
  have hhead : U.head? = some '<' := by
    rw [← hU]
    rfl
  obtain ⟨cl, hcl⟩ : ∃ cl, U.getLast? = some cl :=
    ⟨U.getLast hne, List.getLast?_eq_getLast _ hne⟩
  unfold StripDecorations
  simp only
  rw [hT, if_neg hne, hhead, hcl]
  simp only
  rw [if_neg (by rintro ⟨h, _⟩; exact absurd h (by decide))]
  exact hstep

/-- C20: `StripDecorations` strips brackets first and bold tags second, one
layer each: `[<b>X</b>]` gives `X` with surrounding white space trimmed, while
`<b>[X]</b>` gives `[X]`, the inner brackets staying. -/
theorem StripDecorations_order (X : Str) :
    StripDecorations ("[<b>".toList ++ X ++ "</b>]".toList) = some (strings.TrimSpace X) ∧
      StripDecorations ("<b>[".toList ++ X ++ "]</b>".toList) = some ('[' :: X ++ [']']) :=
  ⟨StripDecorations_brackets_outside X, StripDecorations_bold_outside X⟩

end normalize

end ChordParser

namespace ChordParser

namespace strings

/-- A token: non-empty and free of white space. -/
theorem fieldsGo_token (s cur : Str) (hcur : ∀ c ∈ cur, unicode.IsSpace c = false) :
    ∀ t ∈ fieldsGo cur s, t ≠ [] ∧ ∀ c ∈ t, unicode.IsSpace c = false := by
  induction s generalizing cur with
  | nil =>
    intro t ht
    unfold fieldsGo at ht
    by_cases hc : cur = []
    · simp [hc] at ht
    · simp only [hc, if_false, List.mem_singleton] at ht
      subst ht
      exact ⟨hc, hcur⟩
  | cons c cs ih =>
    intro t ht
    unfold fieldsGo at ht
    by_cases hsp : unicode.IsSpace c = true
    · simp only [hsp, if_true] at ht
      by_cases hc : cur = []
      · simp only [hc, if_true] at ht
        exact ih [] (by simp) t ht
      · simp only [hc, if_false] at ht
        rcases List.mem_cons.mp ht with rfl | ht
        · exact ⟨hc, hcur⟩
        · exact ih [] (by simp) t ht
    · rw [if_neg hsp] at ht
      apply ih (cur ++ [c]) _ t ht
      intro x hx
      rcases List.mem_append.mp hx with hx | hx
      · exact hcur x hx
      · simp only [List.mem_singleton] at hx
        subst hx
        simpa using hsp

theorem Fields_token (s : Str) :
    ∀ t ∈ Fields s, t ≠ [] ∧ ∀ c ∈ t, unicode.IsSpace c = false :=
  fieldsGo_token s [] (by simp)

theorem Fields_single (a : Str) (ha : a ≠ []) (has : ∀ c ∈ a, unicode.IsSpace c = false) :
    Fields a = [a] := by
  have := fieldsGo_append a [] [] has
  rw [List.append_nil, List.nil_append] at this
  unfold Fields
  rw [this, fieldsGo, if_neg ha]

/-- Joining tokens by single blanks and splitting again gives the tokens back. -/
theorem Fields_Join (ts : List Str)
    (h : ∀ t ∈ ts, t ≠ [] ∧ ∀ c ∈ t, unicode.IsSpace c = false) :
    Fields (Join ts [' ']) = ts := by
  induction ts with
  | nil => rfl
  | cons a rest ih =>
    have ha := h a (List.mem_cons_self _ _)
    cases rest with
    | nil => exact Fields_single a ha.1 ha.2
    | cons b r =>
      have ih' := ih (fun t ht => h t (List.mem_cons_of_mem _ ht))
      unfold Fields at ih' ⊢
      rw [Join, List.append_assoc, fieldsGo_append a _ [] ha.2, List.nil_append,
        List.singleton_append, fieldsGo]
      have hsp : unicode.IsSpace ' ' = true := by decide
      simp only [hsp, if_true, if_neg ha.1]
      rw [ih']

theorem Join_ne_nil (a : Str) (rest : List Str) (sep : Str) (ha : a ≠ []) :
    Join (a :: rest) sep ≠ [] := by
  cases rest with
  | nil => simpa [Join] using ha
  | cons b r => simp [Join, ha]

end strings

namespace processor

open regexp

theorem onlyChords_iff (ts : List Str) :
    onlyChords ts = true ↔
      ∀ t ∈ ts, t = ['|'] ∨
        (strings.HasPrefix t ['['] = true ∧ strings.HasSuffix t [']'] = true) ∨
        MatchString reChord t = true := by
  induction ts with
  | nil => simp [onlyChords]
  | cons t rest ih =>
    unfold onlyChords
    by_cases h1 : t = ['|']
    · simp only [h1, if_true, List.mem_cons, forall_eq_or_imp, true_or, true_and]
      exact ih
    · rw [if_neg h1]
      by_cases h2 : (strings.HasPrefix t ['['] && strings.HasSuffix t [']']) = true
      · rw [if_pos h2]
        have h2' := Bool.and_eq_true_iff.mp h2
        simp only [List.mem_cons, forall_eq_or_imp, h2', and_self, true_or, or_true, true_and]
        exact ih
      · rw [if_neg h2]
        have h2' : ¬ (strings.HasPrefix t ['['] = true ∧ strings.HasSuffix t [']'] = true) :=
          fun h => h2 (Bool.and_eq_true_iff.mpr h)
        by_cases h3 : MatchString reChord t = true
        · rw [if_pos h3]
          simp only [List.mem_cons, forall_eq_or_imp, h3, or_true, true_and]
          exact ih
        · rw [if_neg h3]
          simp only [List.mem_cons, forall_eq_or_imp, h1, h2', h3, or_self, false_and]
          simp

theorem bracketed_wrap (t : Str) :
    (strings.HasPrefix ('[' :: t ++ [']']) ['['] && strings.HasSuffix ('[' :: t ++ [']']) [']']) =
      true := by
  have h1 : strings.HasPrefix ('[' :: t ++ [']']) ['['] = true := by
    simp [strings.HasPrefix]
  have h2 : strings.HasSuffix ('[' :: t ++ [']']) [']'] = true :=
    strings.HasSuffix_append ('[' :: t) [']']
  rw [h1, h2]
  rfl

/-- What `wrapToken` returns is the bar or a token in brackets, whenever the
token passed the first loop. -/
theorem wrapToken_settled (t : Str)
    (h : t = ['|'] ∨ (strings.HasPrefix t ['['] = true ∧ strings.HasSuffix t [']'] = true) ∨
      MatchString reChord t = true) :
    wrapToken t = ['|'] ∨
      (strings.HasPrefix (wrapToken t) ['['] && strings.HasSuffix (wrapToken t) [']']) = true := by
  unfold wrapToken
  by_cases h1 : t = ['|']
  · left
    rw [if_pos h1, h1]
  · rw [if_neg h1]
    by_cases h2 : (strings.HasPrefix t ['['] && strings.HasSuffix t [']']) = true
    · right
      rw [if_pos h2]
      exact h2
    · rw [if_neg h2]
      have h3 : MatchString reChord t = true := by
        rcases h with h | h | h
        · exact absurd h h1
        · exact absurd (Bool.and_eq_true_iff.mpr h) h2
        · exact h
      right
      rw [if_pos h3]
      exact bracketed_wrap t

theorem wrapToken_fixed (t : Str)
    (h : t = ['|'] ∨ (strings.HasPrefix t ['['] && strings.HasSuffix t [']']) = true) :
    wrapToken t = t := by
  unfold wrapToken
  by_cases h1 : t = ['|']
  · rw [if_pos h1]
  · rw [if_neg h1]
    rcases h with h | h
    · exact absurd h h1
    · rw [if_pos h]

theorem wrapToken_token (t : Str) (h : t ≠ [] ∧ ∀ c ∈ t, unicode.IsSpace c = false) :
    wrapToken t ≠ [] ∧ ∀ c ∈ wrapToken t, unicode.IsSpace c = false := by
  unfold wrapToken
  split
  · exact h
  · split
    · exact h
    · split
      · refine ⟨by simp, ?_⟩
        intro c hc
        simp only [List.mem_cons, List.mem_append, List.mem_singleton, List.not_mem_nil,
          or_false] at hc
        rcases hc with (rfl | hc) | rfl
        · decide
        · exact h.2 c hc
        · decide
      · exact h

/-- The value of `wrapChordsIfChordLine` on a line all of whose tokens pass. -/
theorem wrap_of_onlyChords (s : Str) (hne : strings.Fields s ≠ [])
    (hall : onlyChords (strings.Fields s) = true) :
    wrapChordsIfChordLine s = strings.Join ((strings.Fields s).map wrapToken) [' '] := by
  have hs : s ≠ [] := by
    intro h
    rw [h] at hne
    exact hne rfl
  have hlen : (strings.Fields s).length ≠ 0 := fun h => hne (List.length_eq_zero.mp h)
  unfold wrapChordsIfChordLine
  rw [if_neg hs]
  simp only [hlen, if_false, hall, Bool.not_true]
  rfl

theorem wrap_of_not_onlyChords (s : Str)
    (h : ¬ (strings.Fields s ≠ [] ∧ onlyChords (strings.Fields s) = true)) :
    wrapChordsIfChordLine s = s := by
  unfold wrapChordsIfChordLine
  by_cases hs : s = []
  · rw [if_pos hs]
  · rw [if_neg hs]
    simp only
    by_cases hlen : (strings.Fields s).length = 0
    · rw [if_pos hlen]
    · rw [if_neg hlen]
      have hne : strings.Fields s ≠ [] := fun h0 => hlen (by rw [h0]; rfl)
      have hall : onlyChords (strings.Fields s) = false := by
        cases hb : onlyChords (strings.Fields s) with
        | false => rfl
        | true => exact absurd ⟨hne, hb⟩ h
      simp [hall]

theorem wrap_idempotent (s : Str) :
    wrapChordsIfChordLine (wrapChordsIfChordLine s) = wrapChordsIfChordLine s := by
  by_cases h : strings.Fields s ≠ [] ∧ onlyChords (strings.Fields s) = true
  · obtain ⟨hne, hall⟩ := h
    rw [wrap_of_onlyChords s hne hall]
    have htok := strings.Fields_token s
    have hok := (onlyChords_iff _).mp hall
    have htok' : ∀ t ∈ (strings.Fields s).map wrapToken,
        t ≠ [] ∧ ∀ c ∈ t, unicode.IsSpace c = false := by
      intro t ht
      obtain ⟨u, hu, rfl⟩ := List.mem_map.mp ht
      exact wrapToken_token u (htok u hu)
    have hF := strings.Fields_Join _ htok'
    have hne' : (strings.Fields s).map wrapToken ≠ [] := by
      simpa using hne
    have hall' : onlyChords ((strings.Fields s).map wrapToken) = true := by
      rw [onlyChords_iff]
      intro t ht
      obtain ⟨u, hu, rfl⟩ := List.mem_map.mp ht
      rcases wrapToken_settled u (hok u hu) with h | h
      · exact Or.inl h
      · exact Or.inr (Or.inl (Bool.and_eq_true_iff.mp h))
    have hmap : ((strings.Fields s).map wrapToken).map wrapToken =
        (strings.Fields s).map wrapToken := by
      rw [List.map_map]
      apply List.map_congr_left
      intro u hu
      exact wrapToken_fixed _ (wrapToken_settled u (hok u hu))
    rw [wrap_of_onlyChords _ (by rw [hF]; exact hne') (by rw [hF]; exact hall'), hF, hmap]
  · rw [wrap_of_not_onlyChords s h, wrap_of_not_onlyChords s h]

/-- C16: `wrapChordsIfChordLine` is all-or-nothing.  If `s` has a token and
every token is the bar, or starts with `[` and ends with `]`, or matches
`reChord`, the result is the tokens joined by single blanks, the bars and the
bracketed tokens as they are and every other token `t` (an unbracketed chord)
as `[t]`; otherwise the result is `s` itself. -/
theorem wrapChordsIfChordLine_all_or_nothing (s : Str) :
    wrapChordsIfChordLine s =
      if strings.Fields s ≠ [] ∧
          ∀ t ∈ strings.Fields s, t = ['|'] ∨
            (strings.HasPrefix t ['['] = true ∧ strings.HasSuffix t [']'] = true) ∨
            MatchString reChord t = true then
        strings.Join
          ((strings.Fields s).map (fun t =>
            if t = ['|'] ∨
                (strings.HasPrefix t ['['] = true ∧ strings.HasSuffix t [']'] = true) then t
            else '[' :: t ++ [']'])) [' ']
      else s := by
  by_cases h : strings.Fields s ≠ [] ∧
      ∀ t ∈ strings.Fields s, t = ['|'] ∨
        (strings.HasPrefix t ['['] = true ∧ strings.HasSuffix t [']'] = true) ∨
        MatchString reChord t = true
  · rw [if_pos h, wrap_of_onlyChords s h.1 ((onlyChords_iff _).mpr h.2)]
    congr 1
    apply List.map_congr_left
    intro t ht
    unfold wrapToken
    by_cases h1 : t = ['|']
    · rw [if_pos h1, if_pos (Or.inl h1)]
    · rw [if_neg h1]
      by_cases h2 : (strings.HasPrefix t ['['] && strings.HasSuffix t [']']) = true
      · rw [if_pos h2, if_pos (Or.inr (Bool.and_eq_true_iff.mp h2))]
      · have h2' : ¬ (strings.HasPrefix t ['['] = true ∧ strings.HasSuffix t [']'] = true) :=
          fun h' => h2 (Bool.and_eq_true_iff.mpr h')
        have h3 : MatchString reChord t = true := by
          rcases h.2 t ht with h' | h' | h'
          · exact absurd h' h1
          · exact absurd h' h2'
          · exact h'
        rw [if_neg h2, if_pos h3, if_neg (by rintro (h' | h'); exact h1 h'; exact h2' h')]
  · rw [if_neg h]
    apply wrap_of_not_onlyChords
    rintro ⟨h1, h2⟩
    exact h ⟨h1, (onlyChords_iff _).mp h2⟩

/-- C17: lines that have been wrapped are fixed points of chord wrapping. -/
theorem wrapChordsIfChordLine_idempotent (s : Str) :
    wrapChordsIfChordLine (wrapChordsIfChordLine s) = wrapChordsIfChordLine s :=
  wrap_idempotent s

end processor

end ChordParser

namespace ChordParser

namespace strings

theorem TrimSpace_subset (s : Str) : ∀ c ∈ TrimSpace s, c ∈ s := by
  intro c hc
  unfold TrimSpace at hc
  exact (List.dropWhile_suffix _).subset (( List.rdropWhile_prefix _ _).subset hc)

theorem fieldsGo_subset (s cur : Str) :
    ∀ t ∈ fieldsGo cur s, ∀ c ∈ t, c ∈ cur ∨ c ∈ s := by
  induction s generalizing cur with
  | nil =>
    intro t ht c hc
    unfold fieldsGo at ht
    by_cases h : cur = []
    · simp [h] at ht
    · simp only [h, if_false, List.mem_singleton] at ht
      subst ht
      exact Or.inl hc
  | cons x xs ih =>
    intro t ht c hc
    unfold fieldsGo at ht
    by_cases hsp : unicode.IsSpace x = true
    · simp only [hsp, if_true] at ht
      by_cases h : cur = []
      · simp only [h, if_true] at ht
        rcases ih [] t ht c hc with h' | h'
        · simp at h'
        · exact Or.inr (List.mem_cons_of_mem _ h')
      · simp only [h, if_false] at ht
        rcases List.mem_cons.mp ht with rfl | ht
        · exact Or.inl hc
        · rcases ih [] t ht c hc with h' | h'
          · simp at h'
          · exact Or.inr (List.mem_cons_of_mem _ h')
    · rw [if_neg hsp] at ht
      rcases ih (cur ++ [x]) t ht c hc with h' | h'
      · rcases List.mem_append.mp h' with h'' | h''
        · exact Or.inl h''
        · simp only [List.mem_singleton] at h''
          subst h''
          exact Or.inr (List.mem_cons_self _ _)
      · exact Or.inr (List.mem_cons_of_mem _ h')

theorem Fields_subset (s : Str) : ∀ t ∈ Fields s, ∀ c ∈ t, c ∈ s := by
  intro t ht c hc
  rcases fieldsGo_subset s [] t ht c hc with h | h
  · simp at h
  · exact h

theorem Join_subset (ts : List Str) (sep : Str) :
    ∀ c ∈ Join ts sep, c ∈ sep ∨ ∃ t ∈ ts, c ∈ t := by
  induction ts with
  | nil => simp [Join]
  | cons a rest ih =>
    cases rest with
    | nil =>
      intro c hc
      exact Or.inr ⟨a, List.mem_cons_self _ _, by simpa [Join] using hc⟩
    | cons b r =>
      intro c hc
      rw [Join] at hc
      rcases List.mem_append.mp hc with h | h
      · rcases List.mem_append.mp h with h | h
        · exact Or.inr ⟨a, List.mem_cons_self _ _, h⟩
        · exact Or.inl h
      · rcases ih c h with h' | ⟨t, ht, hct⟩
        · exact Or.inl h'
        · exact Or.inr ⟨t, List.mem_cons_of_mem _ ht, hct⟩

/-- The last character of a joined list is the last character of its last
element, if that is not empty. -/
theorem Join_getLast (ts : List Str) (sep : Str) (hne : ts ≠ [])
    (hlast : ts.getLast hne ≠ []) :
    (Join ts sep).getLast? = (ts.getLast hne).getLast? := by
  induction ts with
  | nil => exact absurd rfl hne
  | cons a rest ih =>
    cases rest with
    | nil => rfl
    | cons b r =>
      have hl : (a :: b :: r).getLast hne = (b :: r).getLast (List.cons_ne_nil _ _) :=
        List.getLast_cons (List.cons_ne_nil _ _)
      rw [hl] at hlast ⊢
      have ih' := ih (List.cons_ne_nil _ _) hlast
      have hJ : Join (b :: r) sep ≠ [] := by
        intro h0
        rw [h0] at ih'
        obtain ⟨c, cs, hcs⟩ := List.exists_cons_of_ne_nil hlast
        rw [List.getLast?_eq_getLast _ hlast] at ih'
        exact absurd ih' (by simp)
      rw [Join, List.getLast?_append_of_ne_nil _ hJ, ih']

theorem Split_not_mem (s : Str) (sep : Char) : ∀ l ∈ Split s sep, sep ∉ l := by
  induction s with
  | nil => simp [Split]
  | cons c cs ih =>
    intro l hl
    unfold Split at hl
    by_cases hc : c = sep
    · rw [if_pos hc] at hl
      rcases List.mem_cons.mp hl with rfl | hl
      · simp
      · exact ih l hl
    · rw [if_neg hc] at hl
      cases hs : Split cs sep with
      | nil =>
        rw [hs] at hl
        simp only [List.mem_singleton] at hl
        subst hl
        simpa using fun h => hc h.symm
      | cons h t =>
        rw [hs] at hl ih
        simp only at hl
        rcases List.mem_cons.mp hl with rfl | hl
        · intro hmem
          rcases List.mem_cons.mp hmem with h' | h'
          · exact hc h'.symm
          · exact ih h (List.mem_cons_self _ _) h'
        · exact ih l (List.mem_cons_of_mem _ hl)

theorem Split_append_sep (a r : Str) (sep : Char) :
    Split (a ++ sep :: r) sep = Split a sep ++ Split r sep := by
  induction a with
  | nil => simp [Split]
  | cons c cs ih =>
    rw [List.cons_append, Split, Split, ih]
    by_cases hc : c = sep
    · simp [hc]
    · rw [if_neg hc, if_neg hc]
      cases hs : Split cs sep with
      | nil => exact absurd hs (parser.Split_ne_nil _ _)
      | cons h t => rfl

theorem Split_of_not_mem (x : Str) (sep : Char) (h : sep ∉ x) : Split x sep = [x] := by
  induction x with
  | nil => rfl
  | cons c cs ih =>
    have hc : c ≠ sep := fun h' => h (by simp [h'])
    have hcs : sep ∉ cs := fun h' => h (List.mem_cons_of_mem _ h')
    rw [Split, if_neg hc, ih hcs]

theorem Split_Join (lines : List Str) (sep : Char) (hne : lines ≠ [])
    (h : ∀ l ∈ lines, sep ∉ l) : Split (Join lines [sep]) sep = lines := by
  induction lines with
  | nil => exact absurd rfl hne
  | cons a rest ih =>
    cases rest with
    | nil => exact Split_of_not_mem a sep (h a (List.mem_cons_self _ _))
    | cons b r =>
      rw [Join, List.append_assoc, List.singleton_append, Split_append_sep,
        Split_of_not_mem a sep (h a (List.mem_cons_self _ _)),
        ih (List.cons_ne_nil _ _) (fun l hl => h l (List.mem_cons_of_mem _ hl))]
      rfl

/-- Three separators in a row split into two adjacent empty pieces, with a
piece before and a piece after them. -/
theorem Split_triple (a b : Str) (sep : Char) :
    Split (a ++ sep :: sep :: sep :: b) sep = Split a sep ++ [] :: [] :: Split b sep := by
  rw [Split_append_sep]
  congr 1
  rw [Split, if_pos rfl, Split, if_pos rfl]

end strings

namespace regexp

/-- Replacing copies characters of the text or puts in replacements. -/
theorem replaceAllGo_subset (re : Regex) (repl : Str → Str) (s : Str) (skip : Nat)
    (prev : Option Char) :
    ∀ c ∈ replaceAllGo re repl skip prev s, c ∈ s ∨ ∃ m, c ∈ repl m := by
  induction s generalizing skip prev with
  | nil => simp [replaceAllGo]
  | cons x xs ih =>
    intro c hc
    cases skip with
    | succ k =>
      rw [replaceAllGo] at hc
      rcases ih k (some x) c hc with h | h
      · exact Or.inl (List.mem_cons_of_mem _ h)
      · exact Or.inr h
    | zero =>
      rw [replaceAllGo] at hc
      split at hc
      · split at hc
        · rcases List.mem_append.mp hc with h | h
          · exact Or.inr ⟨_, h⟩
          · rcases ih _ (some x) c h with h' | h'
            · exact Or.inl (List.mem_cons_of_mem _ h')
            · exact Or.inr h'
        · rcases List.mem_cons.mp hc with h | h
          · exact Or.inl (by rw [h]; exact List.mem_cons_self _ _)
          · rcases ih _ (some x) c h with h' | h'
            · exact Or.inl (List.mem_cons_of_mem _ h')
            · exact Or.inr h'
      · rcases List.mem_cons.mp hc with h | h
        · exact Or.inl (by rw [h]; exact List.mem_cons_self _ _)
        · rcases ih _ (some x) c h with h' | h'
          · exact Or.inl (List.mem_cons_of_mem _ h')
          · exact Or.inr h'

end regexp

namespace processor

open regexp

theorem keepLeadingSpace_subset (m : Str) : ∀ c ∈ keepLeadingSpace m, c = ' ' := by
  intro c hc
  unfold keepLeadingSpace at hc
  split at hc
  · simpa using hc
  · simp at hc

theorem stripAnnotations_subset (line : Str) :
    ∀ c ∈ stripAnnotations line, c ∈ line ∨ c = ' ' := by
  intro c hc
  unfold stripAnnotations ReplaceAllStringFunc ReplaceAllString at hc
  simp only at hc
  rcases replaceAllGo_subset _ _ _ _ _ c hc with h | ⟨m, h⟩
  · rcases replaceAllGo_subset _ _ _ _ _ c h with h | ⟨m, h⟩
    · rcases replaceAllGo_subset _ _ _ _ _ c h with h | ⟨m, h⟩
      · exact Or.inl h
      · simp at h
    · simp at h
  · exact Or.inr (keepLeadingSpace_subset m c h)

theorem wrap_subset (s : Str) :
    ∀ c ∈ wrapChordsIfChordLine s, c ∈ s ∨ c = ' ' ∨ c = '[' ∨ c = ']' := by
  intro c hc
  by_cases h : strings.Fields s ≠ [] ∧ onlyChords (strings.Fields s) = true
  · rw [wrap_of_onlyChords s h.1 h.2] at hc
    rcases strings.Join_subset _ _ c hc with h' | ⟨t, ht, hct⟩
    · simp only [List.mem_singleton] at h'
      exact Or.inr (Or.inl h')
    · obtain ⟨u, hu, rfl⟩ := List.mem_map.mp ht
      unfold wrapToken at hct
      split at hct
      · exact Or.inl (strings.Fields_subset s u hu c hct)
      · split at hct
        · exact Or.inl (strings.Fields_subset s u hu c hct)
        · split at hct
          · simp only [List.mem_cons, List.mem_append, List.mem_singleton, List.not_mem_nil,
              or_false] at hct
            rcases hct with (h' | h') | h'
            · exact Or.inr (Or.inr (Or.inl h'))
            · exact Or.inl (strings.Fields_subset s u hu c h')
            · exact Or.inr (Or.inr (Or.inr h'))
          · exact Or.inl (strings.Fields_subset s u hu c hct)
  · rw [wrap_of_not_onlyChords s h] at hc
    exact Or.inl hc

/-- A cleaned line holds no line break if the line holds none. -/
theorem cleanLine_no_newline (line : Str) (h : '\n' ∉ line) : '\n' ∉ cleanLine line := by
  intro hc
  unfold cleanLine ReplaceAllString at hc
  simp only at hc
  rcases wrap_subset _ _ hc with h1 | h1 | h1 | h1
  · have h2 := strings.TrimSpace_subset _ _ h1
    rcases replaceAllGo_subset _ _ _ _ _ _ h2 with h3 | ⟨m, h3⟩
    · rcases stripAnnotations_subset line _ h3 with h4 | h4
      · exact h h4
      · exact absurd h4 (by decide)
    · simp only [List.mem_singleton] at h3
      exact absurd h3 (by decide)
  · exact absurd h1 (by decide)
  · exact absurd h1 (by decide)
  · exact absurd h1 (by decide)

/-- A cleaned line that is not empty ends with a character that is no white space. -/
theorem wrap_trimmed_last (y : Str) (h : wrapChordsIfChordLine (strings.TrimSpace y) ≠ []) :
    ∃ c, (wrapChordsIfChordLine (strings.TrimSpace y)).getLast? = some c ∧
      unicode.IsSpace c = false := by
  by_cases hb : strings.Fields (strings.TrimSpace y) ≠ [] ∧
      onlyChords (strings.Fields (strings.TrimSpace y)) = true
  · rw [wrap_of_onlyChords _ hb.1 hb.2]
    have hne : (strings.Fields (strings.TrimSpace y)).map wrapToken ≠ [] := by
      simpa using hb.1
    have hmem := List.getLast_mem hne
    obtain ⟨u, hu, hue⟩ := List.mem_map.mp hmem
    have htok := wrapToken_token u (strings.Fields_token _ u hu)
    rw [hue] at htok
    rw [strings.Join_getLast _ _ hne htok.1, List.getLast?_eq_getLast _ htok.1]
    exact ⟨_, rfl, htok.2 _ (List.getLast_mem htok.1)⟩
  · rw [wrap_of_not_onlyChords _ hb] at h ⊢
    rw [List.getLast?_eq_getLast _ h]
    exact ⟨_, rfl, strings.TrimSpace_last_not_space y h⟩

theorem cleanLine_last (line : Str) (h : cleanLine line ≠ []) :
    ∃ c, (cleanLine line).getLast? = some c ∧ unicode.IsSpace c = false :=
  wrap_trimmed_last _ h

end processor

end ChordParser

namespace ChordParser

namespace processor

open regexp

theorem collect_inv (st : CleanState) (s : Str)
    (hs : '\n' ∉ s ∧ (s ≠ [] → ∃ c, s.getLast? = some c ∧ unicode.IsSpace c = false))
    (hinv : NoBlankPair st.out ∧ ∀ x ∈ st.out,
      '\n' ∉ x ∧ (x ≠ [] → ∃ c, x.getLast? = some c ∧ unicode.IsSpace c = false)) :
    NoBlankPair (collect st s).out ∧ ∀ x ∈ (collect st s).out,
      '\n' ∉ x ∧ (x ≠ [] → ∃ c, x.getLast? = some c ∧ unicode.IsSpace c = false) := by
  obtain ⟨hch, hall⟩ := hinv
  unfold collect
  by_cases h0 : s = []
  · rw [if_pos h0]
    split
    · rename_i hcond
      simp only [Bool.and_eq_true, Bool.or_eq_true, Bool.not_eq_true', beq_iff_eq,
        bne_iff_ne, ne_eq] at hcond
      constructor
      · unfold NoBlankPair at hch ⊢
        rw [List.chain'_append]
        refine ⟨hch, List.chain'_singleton _, ?_⟩
        intro x hx y hy
        simp only [List.head?_cons, Option.mem_def, Option.some.injEq] at hy
        rintro ⟨hx0, _⟩
        rcases hcond.2 with h | h
        · have : st.out = [] := List.length_eq_zero.mp h
          rw [this] at hx
          simp at hx
        · apply h
          rw [← hx0]
          exact hx
      · intro x hx
        rcases List.mem_append.mp hx with h | h
        · exact hall x h
        · simp only [List.mem_singleton] at h
          subst h
          exact ⟨by simp, fun h => absurd rfl h⟩
    · exact ⟨hch, hall⟩
  · rw [if_neg h0]
    constructor
    · unfold NoBlankPair at hch ⊢
      rw [List.chain'_append]
      refine ⟨hch, List.chain'_singleton _, ?_⟩
      intro x _ y hy
      simp only [List.head?_cons, Option.mem_def, Option.some.injEq] at hy
      rintro ⟨_, hy0⟩
      exact h0 (by rw [hy]; exact hy0)
    · intro x hx
      rcases List.mem_append.mp hx with h | h
      · exact hall x h
      · simp only [List.mem_singleton] at h
        subst h
        exact hs

theorem collect_fold_inv (lines : List Str) (hl : ∀ l ∈ lines, '\n' ∉ l) (st : CleanState)
    (hinv : NoBlankPair st.out ∧ ∀ x ∈ st.out,
      '\n' ∉ x ∧ (x ≠ [] → ∃ c, x.getLast? = some c ∧ unicode.IsSpace c = false)) :
    NoBlankPair (lines.foldl (fun st line => collect st (cleanLine line)) st).out ∧
      ∀ x ∈ (lines.foldl (fun st line => collect st (cleanLine line)) st).out,
        '\n' ∉ x ∧ (x ≠ [] → ∃ c, x.getLast? = some c ∧ unicode.IsSpace c = false) := by
  induction lines generalizing st with
  | nil => exact hinv
  | cons l rest ih =>
    rw [List.foldl_cons]
    apply ih (fun x hx => hl x (List.mem_cons_of_mem _ hx))
    apply collect_inv _ _ _ hinv
    exact ⟨cleanLine_no_newline l (hl l (List.mem_cons_self _ _)), cleanLine_last l⟩

/-- The lines that `CleanText` joins: no two adjacent ones are empty, none holds
a line break, none ends with white space, and the last one is not empty. -/
theorem cleanLines_inv (input : Str) :
    NoBlankPair (cleanLines input) ∧
      (∀ x ∈ cleanLines input,
        '\n' ∉ x ∧ (x ≠ [] → ∃ c, x.getLast? = some c ∧ unicode.IsSpace c = false)) ∧
      ∀ h : cleanLines input ≠ [], (cleanLines input).getLast h ≠ [] := by
  have hinv := collect_fold_inv (strings.Split input '\n') (strings.Split_not_mem input '\n')
    ⟨[], false⟩ ⟨List.chain'_nil, by simp⟩
  have hpre : cleanLines input <+:
      ((strings.Split input '\n').foldl (fun st line => collect st (cleanLine line))
        ⟨[], false⟩).out := List.rdropWhile_prefix _ _
  refine ⟨?_, ?_, ?_⟩
  · unfold NoBlankPair
    exact List.Chain'.prefix hinv.1 hpre
  · intro x hx
    exact hinv.2 x (hpre.subset hx)
  · intro h
    have := List.rdropWhile_last_not (fun l : Str => l.isEmpty) _ h
    intro h0
    apply this
    have h0' : (cleanLines input).getLast h = [] := h0
    unfold cleanLines dropTrailingBlank at h0'
    rw [h0']
    rfl

/-- C13: `CleanText(in)` ends with exactly one line break: it is `body` followed
by `"\n"`, where `body` is empty or ends with a character that is no white
space (in particular no line break). -/
theorem CleanText_one_trailing_newline (input : Str) :
    ∃ body, CleanText input = body ++ ['\n'] ∧
      (body = [] ∨ ∃ c, body.getLast? = some c ∧ unicode.IsSpace c = false) := by
  refine ⟨strings.Join (cleanLines input) ['\n'], rfl, ?_⟩
  obtain ⟨_, hall, hlast⟩ := cleanLines_inv input
  by_cases hne : cleanLines input = []
  · left
    rw [hne]
    rfl
  · right
    rw [strings.Join_getLast _ _ hne (hlast hne)]
    exact (hall _ (List.getLast_mem hne)).2 (hlast hne)

theorem no_triple_newline (lines : List Str) (hall : ∀ x ∈ lines, '\n' ∉ x)
    (hch : NoBlankPair lines) :
    ¬ ['\n', '\n', '\n'] <:+: strings.Join lines ['\n'] ++ ['\n'] := by
  rintro ⟨a, b, hab⟩
  by_cases hne : lines = []
  · rw [hne] at hab
    have := congrArg List.length hab
    simp [strings.Join] at this
    omega
  · have hsplit : strings.Split (strings.Join lines ['\n'] ++ ['\n']) '\n' = lines ++ [[]] := by
      rw [strings.Split_append_sep, strings.Split_Join lines '\n' hne hall]
      rfl
    have hab' : strings.Join lines ['\n'] ++ ['\n'] = a ++ '\n' :: '\n' :: '\n' :: b := by
      rw [← hab]
      simp
    rw [hab', strings.Split_triple] at hsplit
    obtain ⟨b0, bs, hb⟩ := List.exists_cons_of_ne_nil (parser.Split_ne_nil b '\n')
    rw [hb] at hsplit
    have hbl : b0 :: bs = (b0 :: bs).dropLast ++ [(b0 :: bs).getLast (List.cons_ne_nil _ _)] :=
      (List.dropLast_append_getLast _).symm
    rw [hbl] at hsplit
    have hsplit' : (strings.Split a '\n' ++ [] :: [] :: (b0 :: bs).dropLast) ++
        [(b0 :: bs).getLast (List.cons_ne_nil _ _)] = lines ++ [[]] := by
      rw [← hsplit]
      simp
    have hlines := List.append_inj_left' hsplit' rfl
    unfold NoBlankPair at hch
    rw [← hlines, List.chain'_append] at hch
    have := hch.2.1
    rw [List.chain'_cons] at this
    exact this.1 ⟨rfl, rfl⟩

/-- C15: the output of `CleanText` holds no three line breaks in a row: the
lines it joins (each ended by one line break) hold no line break themselves and
no two adjacent ones are empty. -/
theorem CleanText_no_blank_run (input : Str) :
    ¬ ['\n', '\n', '\n'] <:+: CleanText input ∧
      (CleanText input = strings.Join (cleanLines input) ['\n'] ++ ['\n'] ∧
        (∀ l ∈ cleanLines input, '\n' ∉ l) ∧ NoBlankPair (cleanLines input)) := by
  obtain ⟨hch, hall, _⟩ := cleanLines_inv input
  exact ⟨no_triple_newline _ (fun x hx => (hall x hx).1) hch, rfl,
    fun x hx => (hall x hx).1, hch⟩

end processor

end ChordParser

namespace ChordParser

namespace regexp

theorem Pos.adv_nil (p : Pos) : p.adv [] = p := by
  cases p
  rfl

theorem Pos.adv_single (prev : Option Char) (c : Char) (cs : Str) :
    (Pos.mk prev (c :: cs)).adv [c] = ⟨some c, cs⟩ := rfl

theorem Pos.adv_adv (p : Pos) (m1 m2 : Str) :
    (p.adv m1).adv m2 = p.adv (m1 ++ m2) := by
  cases m2 using List.reverseRecOn with
  | nil =>
    rw [Pos.adv_nil, List.append_nil]
  | append_singleton l a =>
    unfold Pos.adv lastOr
    simp only [List.getLast?_append, List.getLast?_singleton, Option.or_some, List.drop_drop,
      List.length_append, List.length_singleton, ← List.append_assoc, Nat.add_assoc]

theorem Pos.adv_rest (prev : Option Char) (m t : Str) :
    ((Pos.mk prev (m ++ t)).adv m).rest = t := by
  simp [Pos.adv]

theorem mem_run_eps (p q : Pos) : q ∈ run .eps p ↔ q = p := by
  simp [run]

theorem mem_run_cls (f : Char → Bool) (p q : Pos) :
    q ∈ run (.cls f) p ↔ ∃ c cs, p.rest = c :: cs ∧ f c = true ∧ q = ⟨some c, cs⟩ := by
  obtain ⟨prev, rest⟩ := p
  cases rest with
  | nil => simp [run]
  | cons c cs =>
    by_cases hf : f c = true
    · simp only [run, hf, if_true, List.mem_singleton]
      constructor
      · intro h
        exact ⟨c, cs, rfl, hf, h⟩
      · rintro ⟨c1, cs1, h1, -, h2⟩
        cases h1
        exact h2
    · have hf2 : f c = false := by simpa using hf
      simp only [run, hf2, Bool.false_eq_true, if_false, List.not_mem_nil, false_iff]
      rintro ⟨c1, cs1, h1, h2, -⟩
      cases h1
      exact hf h2

theorem mem_run_seq (a b : Regex) (p q : Pos) :
    q ∈ run (.seq a b) p ↔ ∃ m, m ∈ run a p ∧ q ∈ run b m := by
  simp [run, List.mem_flatMap]

theorem mem_run_alt (a b : Regex) (p q : Pos) :
    q ∈ run (.alt a b) p ↔ q ∈ run a p ∨ q ∈ run b p := by
  simp [run]

theorem mem_run_bot (p q : Pos) : q ∈ run .bot p ↔ q = p ∧ p.prev = none := by
  cases hp : p.prev <;> simp [run, hp, eq_comm]

theorem mem_run_eot (p q : Pos) : q ∈ run .eot p ↔ q = p ∧ p.rest = [] := by
  cases hp : p.rest <;> simp [run, hp, eq_comm]

theorem starLoop_cls (f : Char → Bool) (fuel : Nat) (rest : Str) (h : rest.length ≤ fuel)
    (prev : Option Char) :
    starLoop (run (.cls f)) fuel ⟨prev, rest⟩ = starCls f prev rest := by
  induction fuel generalizing rest prev with
  | zero =>
    have : rest = [] := List.length_eq_zero.mp (by omega)
    subst this
    rfl
  | succ n ih =>
    cases rest with
    | nil => simp [starLoop, run, starCls]
    | cons c cs =>
      simp only [List.length_cons] at h
      by_cases hf : f c = true
      · have hr : run (.cls f) ⟨prev, c :: cs⟩ = [⟨some c, cs⟩] := by simp [run, hf]
        rw [starLoop, hr]
        simp only [List.filter_cons, List.length_cons, Nat.lt_succ_self, decide_True, if_true,
          List.filter_nil, List.flatMap_cons, List.flatMap_nil, List.append_nil, starCls, hf]
        rw [ih cs (by omega) (some c)]
      · have hr : run (.cls f) ⟨prev, c :: cs⟩ = [] := by simp [run, hf]
        rw [starLoop, hr]
        simp [starCls, hf]

theorem run_star_cls (f : Char → Bool) (p : Pos) :
    run (.star (.cls f)) p = starCls f p.prev p.rest := by
  obtain ⟨prev, rest⟩ := p
  exact starLoop_cls f rest.length rest (le_refl _) prev

theorem mem_starCls (f : Char → Bool) (prev : Option Char) (rest : Str) (q : Pos) :
    q ∈ starCls f prev rest ↔
      ∃ m t, rest = m ++ t ∧ (∀ c ∈ m, f c = true) ∧ q = (Pos.mk prev rest).adv m := by
  induction rest generalizing prev with
  | nil =>
    simp only [starCls, List.mem_singleton]
    constructor
    · intro h
      exact ⟨[], [], rfl, by simp, by rw [Pos.adv_nil]; exact h⟩
    · rintro ⟨m, t, h1, -, h3⟩
      have : m = [] := by
        cases m with
        | nil => rfl
        | cons a l => simp at h1
      subst this
      rw [Pos.adv_nil] at h3
      exact h3
  | cons c cs ih =>
    by_cases hf : f c = true
    · simp only [starCls, hf, if_true, List.mem_append, List.mem_singleton, ih]
      constructor
      · rintro (⟨m, t, h1, h2, h3⟩ | h)
        · refine ⟨c :: m, t, by simp [h1], ?_, ?_⟩
          · intro x hx
            rcases List.mem_cons.mp hx with rfl | hx
            · exact hf
            · exact h2 x hx
          · rw [h3, ← Pos.adv_single prev c cs, Pos.adv_adv]
            rfl
        · exact ⟨[], c :: cs, rfl, by simp, by rw [Pos.adv_nil]; exact h⟩
      · rintro ⟨m, t, h1, h2, h3⟩
        cases m with
        | nil =>
          right
          rw [Pos.adv_nil] at h3
          exact h3
        | cons a l =>
          left
          simp only [List.cons_append, List.cons.injEq] at h1
          obtain ⟨rfl, h1⟩ := h1
          refine ⟨l, t, h1, fun x hx => h2 x (List.mem_cons_of_mem _ hx), ?_⟩
          rw [h3, ← Pos.adv_single prev c cs, Pos.adv_adv]
          rfl
    · have hf2 : f c = false := by simpa using hf
      simp only [starCls, hf2, Bool.false_eq_true, if_false, List.mem_singleton]
      constructor
      · intro h
        exact ⟨[], c :: cs, rfl, by simp, by rw [Pos.adv_nil]; exact h⟩
      · rintro ⟨m, t, h1, h2, h3⟩
        cases m with
        | nil =>
          rw [Pos.adv_nil] at h3
          exact h3
        | cons a l =>
          simp only [List.cons_append, List.cons.injEq] at h1
          obtain ⟨rfl, h1⟩ := h1
          exact absurd (h2 c (List.mem_cons_self _ _)) hf

theorem mem_run_star_cls (f : Char → Bool) (p q : Pos) :
    q ∈ run (.star (.cls f)) p ↔
      ∃ m t, p.rest = m ++ t ∧ (∀ c ∈ m, f c = true) ∧ q = p.adv m := by
  rw [run_star_cls, mem_starCls]

end regexp

end ChordParser

namespace ChordParser

namespace regexp

theorem starLoop_suffix (step : Pos → List Pos)
    (hstep : ∀ p q, q ∈ step p → ∃ m, p.rest = m ++ q.rest) :
    ∀ fuel p q, q ∈ starLoop step fuel p → ∃ m, p.rest = m ++ q.rest := by
  intro fuel
  induction fuel with
  | zero =>
    intro p q h
    simp only [starLoop, List.mem_singleton] at h
    exact ⟨[], by simp [h]⟩
  | succ n ih =>
    intro p q h
    simp only [starLoop, List.mem_append, List.mem_flatMap, List.mem_filter,
      List.mem_singleton] at h
    rcases h with ⟨m, ⟨hm, -⟩, hq⟩ | h
    · obtain ⟨m1, h1⟩ := hstep p m hm
      obtain ⟨m2, h2⟩ := ih m q hq
      exact ⟨m1 ++ m2, by rw [h1, h2, List.append_assoc]⟩
    · exact ⟨[], by simp [h]⟩

/-- A match consumes a prefix of the text at its start position. -/
theorem run_suffix (r : Regex) : ∀ p q, q ∈ run r p → ∃ m, p.rest = m ++ q.rest := by
  induction r with
  | eps =>
    intro p q h
    rw [mem_run_eps] at h
    exact ⟨[], by simp [h]⟩
  | cls f =>
    intro p q h
    rw [mem_run_cls] at h
    obtain ⟨c, cs, h1, -, h3⟩ := h
    exact ⟨[c], by simp [h1, h3]⟩
  | seq a b iha ihb =>
    intro p q h
    rw [mem_run_seq] at h
    obtain ⟨m, hm, hq⟩ := h
    obtain ⟨m1, h1⟩ := iha p m hm
    obtain ⟨m2, h2⟩ := ihb m q hq
    exact ⟨m1 ++ m2, by rw [h1, h2, List.append_assoc]⟩
  | alt a b iha ihb =>
    intro p q h
    rw [mem_run_alt] at h
    rcases h with h | h
    · exact iha p q h
    · exact ihb p q h
  | star a iha =>
    intro p q h
    exact starLoop_suffix (run a) iha _ p q h
  | bot =>
    intro p q h
    rw [mem_run_bot] at h
    exact ⟨[], by simp [h.1]⟩
  | eot =>
    intro p q h
    rw [mem_run_eot] at h
    exact ⟨[], by simp [h.1]⟩
  | wordBoundary =>
    intro p q h
    have : q = p := by
      simp only [run] at h
      split at h
      · simpa using h
      · simp at h
    exact ⟨[], by simp [this]⟩

theorem replaceAllGo_skip_all (re : Regex) (repl : Str → Str) :
    ∀ (s : Str) (k : Nat) (prev : Option Char), s.length ≤ k → replaceAllGo re repl k prev s = [] := by
  intro s
  induction s with
  | nil =>
    intro k prev _
    cases k <;> rfl
  | cons c cs ih =>
    intro k prev h
    cases k with
    | zero => simp at h
    | succ n =>
      simp only [replaceAllGo]
      exact ih n (some c) (by simpa using h)

theorem replaceAllGo_skip (re : Regex) (repl : Str → Str) :
    ∀ (s : Str) (k : Nat) (prev : Option Char), k ≤ s.length → 0 < k →
      replaceAllGo re repl k prev s = replaceAllGo re repl 0 (s.get? (k - 1)) (s.drop k) := by
  intro s
  induction s with
  | nil =>
    intro k prev h h0
    simp at h
    omega
  | cons c cs ih =>
    intro k prev h h0
    cases k with
    | zero => omega
    | succ n =>
      simp only [replaceAllGo, List.drop_succ_cons, Nat.add_sub_cancel]
      cases n with
      | zero => simp
      | succ j =>
        rw [ih (j + 1) (some c) (by simpa using h) (by omega)]
        simp

/-- Where the expression matches at no position, nothing is replaced. -/
theorem replaceAllGo_no_match (re : Regex) (repl : Str → Str) :
    ∀ (s : Str) (prev : Option Char),
      (∀ pre suf prev1, s = pre ++ suf → suf ≠ [] → run re ⟨prev1, suf⟩ = []) →
      replaceAllGo re repl 0 prev s = s := by
  intro s
  induction s with
  | nil =>
    intro prev _
    rfl
  | cons c cs ih =>
    intro prev h
    have h0 := h [] (c :: cs) prev rfl (by simp)
    simp only [replaceAllGo, h0, List.head?_nil]
    rw [ih (some c)]
    intro pre suf prev1 e hne
    exact h (c :: pre) suf prev1 (by simp [e]) hne

/-- Deleting the matches of an expression that can only match up to the end of
the text leaves a prefix of the text. -/
theorem replaceAllGo_anchored_initial (re : Regex)
    (hre : ∀ p q, q ∈ run re p → q.rest = []) :
    ∀ (s : Str) (prev : Option Char), replaceAllGo re (fun _ => []) 0 prev s <+: s := by
  intro s
  induction s with
  | nil =>
    intro prev
    exact List.prefix_refl _
  | cons c cs ih =>
    intro prev
    simp only [replaceAllGo]
    cases hh : (run re ⟨prev, c :: cs⟩).head? with
    | none =>
      simp only
      exact (List.prefix_cons_inj c).mpr (ih (some c))
    | some q =>
      have hq : q ∈ run re ⟨prev, c :: cs⟩ := List.mem_of_mem_head? hh
      have hr := hre _ _ hq
      simp only [hr, List.length_nil, List.length_cons, Nat.zero_lt_succ, if_true,
        List.nil_append, Nat.sub_zero, Nat.add_sub_cancel]
      rw [replaceAllGo_skip_all re _ cs cs.length (some c) (le_refl _)]
      exact List.nil_prefix

/-- An expression that only matches up to the end of the text, first matching at
the start of `b`: the text before `b` is kept and `b` is replaced. -/
theorem replaceAllGo_cut (re : Regex) (repl : Str → Str) (b : Str) (hb : b ≠ [])
    (hmatch : ∀ prev1, ∃ q, (run re ⟨prev1, b⟩).head? = some q ∧ q.rest = []) :
    ∀ (a : Str) (prev : Option Char),
      (∀ pre suf prev1, a = pre ++ suf → suf ≠ [] → run re ⟨prev1, suf ++ b⟩ = []) →
      replaceAllGo re repl 0 prev (a ++ b) = a ++ repl b := by
  intro a
  induction a with
  | nil =>
    intro prev _
    obtain ⟨c, cs, rfl⟩ := List.exists_cons_of_ne_nil hb
    obtain ⟨q, hq, hr⟩ := hmatch prev
    simp only [List.nil_append, replaceAllGo, hq, hr, List.length_nil, List.length_cons,
      Nat.zero_lt_succ, if_true, Nat.sub_zero, Nat.add_sub_cancel, List.take_succ_cons]
    rw [replaceAllGo_skip_all re _ cs cs.length (some c) (le_refl _)]
    simp
  | cons c cs ih =>
    intro prev h
    have h0 := h [] (c :: cs) prev rfl (by simp)
    simp only [List.cons_append] at h0 ⊢
    simp only [replaceAllGo, h0, List.head?_nil]
    rw [ih (some c)]
    intro pre suf prev1 e hne
    exact h (c :: pre) suf prev1 (by simp [e]) hne

end regexp

end ChordParser

namespace ChordParser

namespace regexp

theorem isSpace_unicode (c : Char) (h : isSpace c = true) : unicode.IsSpace c = true := by
  unfold isSpace at h
  unfold unicode.IsSpace
  simp only [Bool.or_eq_true, beq_iff_eq] at h
  simp only [Bool.or_eq_true, beq_iff_eq, Bool.and_eq_true, decide_eq_true_eq]
  omega

theorem closeTail_shape (p q : Pos)
    (h : q ∈ run (.seq (chr ')') (.seq (.star (.cls isSpace)) .eot)) p) :
    q.rest = [] ∧ ∃ m w, p.rest = m ++ ')' :: w ∧ ∀ c ∈ w, isSpace c = true := by
  rw [mem_run_seq] at h
  obtain ⟨p1, h1, h⟩ := h
  rw [mem_run_seq] at h
  obtain ⟨p2, h2, h⟩ := h
  rw [mem_run_eot] at h
  obtain ⟨rfl, h3⟩ := h
  unfold chr at h1
  rw [mem_run_cls] at h1
  obtain ⟨c, cs, e1, hc, rfl⟩ := h1
  rw [mem_run_star_cls] at h2
  obtain ⟨m, t, e2, hm, rfl⟩ := h2
  have hc2 : c = ')' := by simpa using hc
  subst hc2
  simp only [Pos.adv] at h3
  simp only at e2
  have ht : t = [] := by
    rw [e2] at h3
    simpa using h3
  subst ht
  refine ⟨by simp [Pos.adv, e2], [], m, ?_, hm⟩
  rw [e1, e2]
  simp

theorem seq_closeTail_shape (a r : Regex)
    (hr : ∀ p q, q ∈ run r p →
      q.rest = [] ∧ ∃ m w, p.rest = m ++ ')' :: w ∧ ∀ c ∈ w, isSpace c = true) :
    ∀ p q, q ∈ run (.seq a r) p →
      q.rest = [] ∧ ∃ m w, p.rest = m ++ ')' :: w ∧ ∀ c ∈ w, isSpace c = true := by
  intro p q h
  rw [mem_run_seq] at h
  obtain ⟨p1, h1, h⟩ := h
  obtain ⟨m0, e0⟩ := run_suffix a p p1 h1
  obtain ⟨hq, m, w, e, hw⟩ := hr p1 q h
  exact ⟨hq, m0 ++ m, w, by rw [e0, e, List.append_assoc], hw⟩

end regexp

namespace processor
open regexp

theorem reToRefEnd_shape : ∀ p q, q ∈ run reToRefEnd p →
    q.rest = [] ∧ ∃ m w, p.rest = m ++ ')' :: w ∧ ∀ c ∈ w, isSpace c = true :=
  seq_closeTail_shape _ _ (seq_closeTail_shape _ _ (seq_closeTail_shape _ _
    (seq_closeTail_shape _ _ (seq_closeTail_shape _ _ (seq_closeTail_shape _ _
      closeTail_shape)))))

theorem reParenRepeatEnd_shape : ∀ p q, q ∈ run reParenRepeatEnd p →
    q.rest = [] ∧ ∃ m w, p.rest = m ++ ')' :: w ∧ ∀ c ∈ w, isSpace c = true :=
  seq_closeTail_shape _ _ (seq_closeTail_shape _ _ (seq_closeTail_shape _ _
    (seq_closeTail_shape _ _ (seq_closeTail_shape _ _ closeTail_shape))))

theorem rdropWhile_closed (P : Char → Bool) (hP : P ')' = false) (x w : Str)
    (hw : ∀ c ∈ w, P c = true) : List.rdropWhile P (x ++ ')' :: w) = x ++ [')'] := by
  induction w using List.reverseRecOn with
  | nil =>
    exact List.rdropWhile_concat_neg P x ')' (by simp [hP])
  | append_singleton l a ih =>
    have e : x ++ ')' :: (l ++ [a]) = (x ++ ')' :: l) ++ [a] := by simp
    rw [e, List.rdropWhile_concat_pos P _ a (hw a (by simp))]
    exact ih (fun c hc => hw c (by simp [hc]))

theorem no_match_of_not_closed (re : Regex)
    (hre : ∀ p q, q ∈ run re p →
      q.rest = [] ∧ ∃ m w, p.rest = m ++ ')' :: w ∧ ∀ c ∈ w, isSpace c = true)
    (P : Char → Bool) (hP : P ')' = false) (hsub : ∀ c, isSpace c = true → P c = true)
    (s : Str) (h : (List.rdropWhile P s).getLast? ≠ some ')') (repl : Str → Str)
    (prev : Option Char) :
    replaceAllGo re repl 0 prev s = s := by
  apply replaceAllGo_no_match
  intro pre suf prev1 e _
  rw [List.eq_nil_iff_forall_not_mem]
  intro q hq
  obtain ⟨-, m, w, e2, hw⟩ := hre _ _ hq
  simp only at e2
  apply h
  rw [e, e2, ← List.append_assoc,
    rdropWhile_closed P hP (pre ++ m) w (fun c hc => hsub c (hw c hc))]
  simp

/-- C19. The redirect-stripping step of `CleanText` (the matches of `reToRefEnd`
replaced by the empty string) only removes text at the end of the line: its
result is a prefix of the line, and it is the line itself whenever the last
non-whitespace character of the line is not `)`, whether whitespace is read as
Unicode white space or as the `\s` of the expression. -/
theorem reToRefEnd_only_at_end (s : Str) :
    ReplaceAllString reToRefEnd s [] <+: s ∧
    ((List.rdropWhile unicode.IsSpace s).getLast? ≠ some ')' →
      ReplaceAllString reToRefEnd s [] = s) ∧
    ((List.rdropWhile regexp.isSpace s).getLast? ≠ some ')' →
      ReplaceAllString reToRefEnd s [] = s) := by
  refine ⟨?_, ?_, ?_⟩
  · exact replaceAllGo_anchored_initial reToRefEnd (fun p q h => (reToRefEnd_shape p q h).1) s none
  · intro h
    exact no_match_of_not_closed reToRefEnd reToRefEnd_shape unicode.IsSpace (by decide)
      isSpace_unicode s h _ none
  · intro h
    exact no_match_of_not_closed reToRefEnd reToRefEnd_shape regexp.isSpace (by decide)
      (fun _ hc => hc) s h _ none

/-- Witness for C19: a redirect followed by further words stays in place. -/
theorem reToRefEnd_only_at_end_witness :
    ReplaceAllString reToRefEnd "Go (To Chorus) now".toList [] = "Go (To Chorus) now".toList :=
  (reToRefEnd_only_at_end "Go (To Chorus) now".toList).2.1 (by decide)

end processor

end ChordParser

namespace ChordParser

namespace regexp

theorem starCls_head (f : Char → Bool) (prev : Option Char) (rest : Str) :
    ∃ q, (starCls f prev rest).head? = some q ∧ q.rest = rest.dropWhile f := by
  induction rest generalizing prev with
  | nil => exact ⟨_, rfl, rfl⟩
  | cons c cs ih =>
    by_cases hf : f c = true
    · obtain ⟨q, hq, hr⟩ := ih (some c)
      refine ⟨q, ?_, ?_⟩
      · simp only [starCls, hf, if_true]
        rw [List.head?_append, hq]
        rfl
      · rw [hr, List.dropWhile_cons_of_pos hf]
    · have hf2 : f c = false := by simpa using hf
      refine ⟨⟨prev, c :: cs⟩, ?_, ?_⟩
      · simp [starCls, hf2]
      · simp [List.dropWhile, hf2]

theorem drop_takeWhile_length (f : Char → Bool) (t : Str) :
    t.drop (t.length - (t.dropWhile f).length) = t.dropWhile f := by
  have e := List.takeWhile_append_dropWhile f t
  have hl := congrArg List.length e
  rw [List.length_append] at hl
  have h2 : t.length - (t.dropWhile f).length = (t.takeWhile f).length := by omega
  rw [h2]
  calc t.drop (t.takeWhile f).length
      = (t.takeWhile f ++ t.dropWhile f).drop (t.takeWhile f).length := by rw [e]
    _ = t.dropWhile f := List.drop_left' rfl

end regexp

namespace processor
open regexp

theorem run_reMultiSpaces_match (prev : Option Char) (t : Str) :
    run reMultiSpaces ⟨prev, ' ' :: ' ' :: t⟩ = starCls (fun x => x == ' ') (some ' ') t := by
  have e : run reMultiSpaces ⟨prev, ' ' :: ' ' :: t⟩ =
      run (.star (chr ' ')) ⟨some ' ', t⟩ := by
    simp [reMultiSpaces, cat, chr, run]
  rw [e]
  exact run_star_cls _ _

theorem run_reMultiSpaces_shape (p q : Pos) (h : q ∈ run reMultiSpaces p) :
    ∃ t, p.rest = ' ' :: ' ' :: t := by
  unfold reMultiSpaces cat cat cat at h
  rw [mem_run_seq] at h
  obtain ⟨p1, h1, h⟩ := h
  rw [mem_run_seq] at h
  obtain ⟨p2, h2, -⟩ := h
  unfold chr at h1 h2
  rw [mem_run_cls] at h1 h2
  obtain ⟨c1, cs1, e1, hc1, rfl⟩ := h1
  obtain ⟨c2, cs2, e2, hc2, rfl⟩ := h2
  simp only [beq_iff_eq] at hc1 hc2
  simp only at e2
  subst hc1 hc2 e2
  exact ⟨cs2, e1⟩

/-- The result of collapsing runs of blanks has no two adjacent blanks, and it
starts with a blank only if the text does. -/
theorem collapse_go (s : Str) : ∀ (k : Nat) (prev : Option Char),
    NoDoubleSpace (replaceAllGo reMultiSpaces (fun _ => [' ']) k prev s) ∧
    ((replaceAllGo reMultiSpaces (fun _ => [' ']) k prev s).head? = some ' ' →
      (s.drop k).head? = some ' ') := by
  induction s with
  | nil =>
    intro k prev
    cases k <;> exact ⟨List.chain'_nil, by simp [replaceAllGo]⟩
  | cons c cs ih =>
    intro k prev
    cases k with
    | succ n =>
      simp only [replaceAllGo, List.drop_succ_cons]
      exact ih n (some c)
    | zero =>
      by_cases hm : ∃ t, c :: cs = ' ' :: ' ' :: t
      · obtain ⟨t, ht⟩ := hm
        obtain ⟨rfl, rfl⟩ := List.cons.inj ht
        obtain ⟨q, hq, hr⟩ := starCls_head (fun x => x == ' ') (some ' ') t
        have hlen : (t.dropWhile (fun x => x == ' ')).length ≤ t.length :=
          (List.dropWhile_suffix _).length_le
        simp only [replaceAllGo, run_reMultiSpaces_match, hq, hr, List.length_cons]
        rw [if_pos (by omega)]
        have hk := ih (t.length + 1 + 1 - (t.dropWhile (fun x => x == ' ')).length - 1) (some ' ')
        have hd : (' ' :: t).drop
            (t.length + 1 + 1 - (t.dropWhile (fun x => x == ' ')).length - 1) =
            t.dropWhile (fun x => x == ' ') := by
          have : t.length + 1 + 1 - (t.dropWhile (fun x => x == ' ')).length - 1 =
              (t.length - (t.dropWhile (fun x => x == ' ')).length) + 1 := by omega
          rw [this, List.drop_succ_cons]
          exact drop_takeWhile_length _ t
        rw [hd] at hk
        have hnot : (t.dropWhile (fun x => x == ' ')).head? ≠ some ' ' := by
          intro h
          have := List.head?_dropWhile_not (fun x => x == ' ') t
          rw [h] at this
          simp at this
        constructor
        · unfold NoDoubleSpace
          rw [List.singleton_append, List.chain'_cons']
          refine ⟨?_, hk.1⟩
          intro y hy
          rintro ⟨-, rfl⟩
          exact hnot (hk.2 hy)
        · intro _
          rfl
      · have hrun : run reMultiSpaces ⟨prev, c :: cs⟩ = [] := by
          rw [List.eq_nil_iff_forall_not_mem]
          intro q hq
          exact hm (run_reMultiSpaces_shape _ _ hq)
        simp only [replaceAllGo, hrun, List.head?_nil, List.drop_zero, List.head?_cons]
        have hk := ih 0 (some c)
        constructor
        · unfold NoDoubleSpace
          rw [List.chain'_cons']
          refine ⟨?_, hk.1⟩
          intro y hy
          rintro ⟨rfl, rfl⟩
          have := hk.2 hy
          rw [List.drop_zero] at this
          cases cs with
          | nil => simp at this
          | cons d ds =>
            simp only [List.head?_cons, Option.some.injEq] at this
            exact hm ⟨ds, by rw [this]⟩
        · intro h
          exact h

theorem collapse_noDouble (y : Str) : NoDoubleSpace (ReplaceAllString reMultiSpaces y [' ']) :=
  (collapse_go y 0 none).1

/-- Collapsing runs of blanks leaves a text without two adjacent blanks as it is. -/
theorem collapse_of_noDouble (x : Str) (h : NoDoubleSpace x) :
    ReplaceAllString reMultiSpaces x [' '] = x := by
  apply replaceAllGo_no_match
  intro pre suf prev1 e _
  rw [List.eq_nil_iff_forall_not_mem]
  intro q hq
  obtain ⟨t, ht⟩ := run_reMultiSpaces_shape _ _ hq
  simp only at ht
  subst ht
  subst e
  unfold NoDoubleSpace at h
  have h2 := (List.chain'_append.mp h).2.1
  rw [List.chain'_cons'] at h2
  exact h2.1 ' ' (by simp) ⟨rfl, rfl⟩

end processor

end ChordParser

namespace ChordParser

namespace strings

theorem TrimSpace_infix (s : Str) : TrimSpace s <:+: s :=
  ( List.rdropWhile_prefix _ _).isInfix.trans (List.dropWhile_suffix _).isInfix

theorem TrimSpace_head_not_space (s : Str) (h : TrimSpace s ≠ []) :
    unicode.IsSpace ((TrimSpace s).head h) = false := by
  have hpre : TrimSpace s <+: List.dropWhile unicode.IsSpace s := List.rdropWhile_prefix _ _
  obtain ⟨c, cs, hc⟩ := List.exists_cons_of_ne_nil h
  obtain ⟨t, ht⟩ := hpre
  have hd := List.head?_dropWhile_not unicode.IsSpace s
  rw [← ht, hc] at hd
  simp only [List.cons_append, List.head?_cons] at hd
  simp only [hc, List.head_cons]
  simpa using hd

theorem TrimSpace_idem (s : Str) : TrimSpace (TrimSpace s) = TrimSpace s := by
  by_cases h : TrimSpace s = []
  · rw [h]
    rfl
  · exact TrimSpace_eq_self _ h (TrimSpace_head_not_space s h) (TrimSpace_last_not_space s h)

end strings

namespace processor
open regexp

theorem noDouble_of_no_blank (a : Str) (h : ' ' ∉ a) : NoDoubleSpace a := by
  unfold NoDoubleSpace
  induction a with
  | nil => exact List.chain'_nil
  | cons c cs ih =>
    rw [List.chain'_cons']
    refine ⟨?_, ih (fun h' => h (List.mem_cons_of_mem _ h'))⟩
    intro y _
    rintro ⟨rfl, -⟩
    exact h (List.mem_cons_self _ _)

/-- Tokens joined by single blanks: the text starts with a character that is no
white space and has no two adjacent blanks. -/
theorem Join_tokens (ts : List Str) (hne : ts ≠ [])
    (htok : ∀ t ∈ ts, t ≠ [] ∧ ∀ c ∈ t, unicode.IsSpace c = false) :
    (∃ c rest, strings.Join ts [' '] = c :: rest ∧ unicode.IsSpace c = false) ∧
      NoDoubleSpace (strings.Join ts [' ']) := by
  induction ts with
  | nil => exact absurd rfl hne
  | cons a rest ih =>
    obtain ⟨ha, has⟩ := htok a (List.mem_cons_self _ _)
    obtain ⟨c, cs, rfl⟩ := List.exists_cons_of_ne_nil ha
    have hblank : ' ' ∉ c :: cs := by
      intro h
      have := has ' ' h
      exact absurd this (by decide)
    cases rest with
    | nil =>
      exact ⟨⟨c, cs, rfl, has c (List.mem_cons_self _ _)⟩, noDouble_of_no_blank _ hblank⟩
    | cons b r =>
      obtain ⟨⟨d, ds, hd, hds⟩, hnd⟩ := ih (List.cons_ne_nil _ _)
        (fun t ht => htok t (List.mem_cons_of_mem _ ht))
      refine ⟨⟨c, cs ++ [' '] ++ strings.Join (b :: r) [' '], by simp [strings.Join],
        has c (List.mem_cons_self _ _)⟩, ?_⟩
      rw [strings.Join, List.append_assoc]
      unfold NoDoubleSpace at hnd ⊢
      rw [List.chain'_append]
      refine ⟨noDouble_of_no_blank _ hblank, ?_, ?_⟩
      · rw [List.singleton_append, List.chain'_cons']
        refine ⟨?_, hnd⟩
        intro y hy
        rintro ⟨-, rfl⟩
        rw [hd] at hy
        simp only [List.head?_cons, Option.mem_def, Option.some.injEq] at hy
        rw [hy] at hds
        exact absurd hds (by decide)
      · intro x hx y _
        rintro ⟨rfl, -⟩
        exact hblank (List.mem_of_mem_getLast? hx)

/-- A cleaned line is a fixed point of the three steps that follow the removal
of annotations. -/
theorem cleanLine_settled (l : Str) :
    ReplaceAllString reMultiSpaces (cleanLine l) [' '] = cleanLine l ∧
      strings.TrimSpace (cleanLine l) = cleanLine l ∧
      wrapChordsIfChordLine (cleanLine l) = cleanLine l := by
  have hnd := collapse_noDouble (stripAnnotations l)
  have hcl : cleanLine l = wrapChordsIfChordLine
      (strings.TrimSpace (ReplaceAllString reMultiSpaces (stripAnnotations l) [' '])) := rfl
  generalize ReplaceAllString reMultiSpaces (stripAnnotations l) [' '] = y at hnd hcl
  rw [hcl]
  refine ⟨?_, ?_, wrap_idempotent _⟩
  · apply collapse_of_noDouble
    by_cases hb : strings.Fields (strings.TrimSpace y) ≠ [] ∧
        onlyChords (strings.Fields (strings.TrimSpace y)) = true
    · rw [wrap_of_onlyChords _ hb.1 hb.2]
      refine (Join_tokens _ (by simpa using hb.1) ?_).2
      intro t ht
      obtain ⟨u, hu, rfl⟩ := List.mem_map.mp ht
      exact wrapToken_token u (strings.Fields_token _ u hu)
    · rw [wrap_of_not_onlyChords _ hb]
      exact List.Chain'.infix hnd ( strings.TrimSpace_infix y)
  · by_cases hb : strings.Fields (strings.TrimSpace y) ≠ [] ∧
        onlyChords (strings.Fields (strings.TrimSpace y)) = true
    · by_cases hne : wrapChordsIfChordLine (strings.TrimSpace y) = []
      · rw [hne]
        rfl
      · obtain ⟨c, hc, hcs⟩ := wrap_trimmed_last y hne
        rw [List.getLast?_eq_getLast _ hne, Option.some.injEq] at hc
        apply strings.TrimSpace_eq_self _ hne _ (by rw [hc]; exact hcs)
        have hj := (Join_tokens ((strings.Fields (strings.TrimSpace y)).map wrapToken)
          (by simpa using hb.1) (by
            intro t ht
            obtain ⟨u, hu, rfl⟩ := List.mem_map.mp ht
            exact wrapToken_token u (strings.Fields_token _ u hu))).1
        obtain ⟨d, ds, hd, hds⟩ := hj
        have hw := wrap_of_onlyChords _ hb.1 hb.2
        rw [hd] at hw
        simp only [hw, List.head_cons]
        exact hds
    · rw [wrap_of_not_onlyChords _ hb]
      exact strings.TrimSpace_idem y

theorem cleanLine_fixed (x : Str) (hx : x = [] ∨ ∃ l, x = cleanLine l)
    (hs : stripAnnotations x = x) : cleanLine x = x := by
  rcases hx with rfl | ⟨l, rfl⟩
  · rfl
  · obtain ⟨h1, h2, h3⟩ := cleanLine_settled l
    show wrapChordsIfChordLine (strings.TrimSpace (ReplaceAllString reMultiSpaces
      (stripAnnotations (cleanLine l)) [' '])) = cleanLine l
    rw [hs, h1, h2, h3]

theorem collect_mem (st : CleanState) (s x : Str) (h : x ∈ (collect st s).out) :
    x ∈ st.out ∨ x = s := by
  unfold collect at h
  split at h
  · rename_i h0
    split at h
    · rcases List.mem_append.mp h with h | h
      · exact Or.inl h
      · right
        rw [h0]
        simpa using h
    · exact Or.inl h
  · rcases List.mem_append.mp h with h | h
    · exact Or.inl h
    · right
      simpa using h

theorem collect_fold_mem (lines : List Str) (st : CleanState) (x : Str)
    (h : x ∈ (lines.foldl (fun st line => collect st (cleanLine line)) st).out) :
    x ∈ st.out ∨ ∃ l, x = cleanLine l := by
  induction lines generalizing st with
  | nil => exact Or.inl h
  | cons l rest ih =>
    rw [List.foldl_cons] at h
    rcases ih _ h with h | h
    · rcases collect_mem _ _ _ h with h | h
      · exact Or.inl h
      · exact Or.inr ⟨l, h⟩
    · exact Or.inr h

theorem cleanLines_mem (input x : Str) (h : x ∈ cleanLines input) : ∃ l, x = cleanLine l := by
  have hpre : cleanLines input <+:
      ((strings.Split input '\n').foldl (fun st line => collect st (cleanLine line))
        ⟨[], false⟩).out := List.rdropWhile_prefix _ _
  rcases collect_fold_mem _ _ x (hpre.subset h) with h | h
  · simp at h
  · exact h

/-- Lines that cleaning leaves as they are, with no two adjacent empty ones, are
collected unchanged. -/
theorem collect_fold_id (lines : List Str) (hfix : ∀ x ∈ lines, cleanLine x = x) :
    ∀ st : CleanState, (st.prevBlank = true → st.out.getLast? = some []) →
      NoBlankPair (st.out ++ lines) →
      (lines.foldl (fun st line => collect st (cleanLine line)) st).out = st.out ++ lines := by
  induction lines with
  | nil =>
    intro st _ _
    simp
  | cons x rest ih =>
    intro st hinv hch
    rw [List.foldl_cons, hfix x (List.mem_cons_self _ _)]
    have hfix2 : ∀ y ∈ rest, cleanLine y = y := fun y hy => hfix y (List.mem_cons_of_mem _ hy)
    by_cases h0 : x = []
    · subst h0
      have hlast : st.out.getLast? ≠ some [] := by
        intro hl
        unfold NoBlankPair at hch
        rw [List.chain'_append] at hch
        exact hch.2.2 [] hl [] (by simp) ⟨rfl, rfl⟩
      have hpb : st.prevBlank = false := by
        cases hb : st.prevBlank with
        | false => rfl
        | true => exact absurd (hinv hb) hlast
      have hc : collect st [] = ⟨st.out ++ [[]], true⟩ := by
        unfold collect
        rw [if_pos rfl, if_pos]
        simp [hpb, hlast]
      rw [hc, ih hfix2 ⟨st.out ++ [[]], true⟩ (by intro _; simp) (by simpa using hch)]
      simp
    · have hc : collect st x = ⟨st.out ++ [x], false⟩ := by
        unfold collect
        rw [if_neg h0]
      rw [hc, ih hfix2 ⟨st.out ++ [x], false⟩ (by intro h; cases h) (by simpa using hch)]
      simp

theorem cleanLines_CleanText (s : Str) (h : ∀ x ∈ cleanLines s, stripAnnotations x = x) :
    cleanLines (CleanText s) = cleanLines s := by
  obtain ⟨hch, hall, hlast⟩ := cleanLines_inv s
  by_cases hne : cleanLines s = []
  · unfold CleanText
    rw [hne]
    rfl
  · have hsplit : strings.Split (CleanText s) '\n' = cleanLines s ++ [[]] := by
      unfold CleanText
      have := strings.Split_append_sep (strings.Join (cleanLines s) ['\n']) [] '\n'
      rw [this, strings.Split_Join _ _ hne (fun l hl => (hall l hl).1)]
      rfl
    have hfix : ∀ x ∈ cleanLines s ++ [[]], cleanLine x = x := by
      intro x hx
      rcases List.mem_append.mp hx with hx | hx
      · exact cleanLine_fixed x (Or.inr (cleanLines_mem s x hx)) (h x hx)
      · simp only [List.mem_singleton] at hx
        subst hx
        rfl
    have hch2 : NoBlankPair (cleanLines s ++ [[]]) := by
      unfold NoBlankPair at hch ⊢
      rw [List.chain'_append]
      refine ⟨hch, List.chain'_singleton _, ?_⟩
      intro x hx y _
      rintro ⟨rfl, -⟩
      rw [List.getLast?_eq_getLast _ hne, Option.mem_def, Option.some.injEq] at hx
      exact hlast hne hx
    have hfold := collect_fold_id (cleanLines s ++ [[]]) hfix ⟨[], false⟩ (by intro h; cases h)
      (by simpa using hch2)
    conv_lhs => unfold cleanLines
    rw [hsplit, hfold]
    simp only [List.nil_append]
    unfold dropTrailingBlank
    rw [List.rdropWhile_concat_pos _ _ _ (by rfl)]
    rw [List.rdropWhile_eq_self_iff]
    intro hl
    have := hlast hl
    simpa using this

/-- C14, counterexample: cleaning `a (x2) (x3)` gives `a (x2)`, and cleaning
that again gives `a`. -/
theorem CleanText_not_idempotent : ¬ ∀ s : Str, CleanText (CleanText s) = CleanText s := by
  intro h
  exact absurd (h "a (x2) (x3)".toList) (by decide)

/-- C14, amended: `CleanText (CleanText s) = CleanText s` for every input whose
cleaned lines hold no annotation any more, which is to say that the three
annotation-removing replacements leave each line of the first result as it is. -/
theorem CleanText_idempotent_of_stripped (s : Str)
    (h : ∀ x ∈ cleanLines s, stripAnnotations x = x) :
    CleanText (CleanText s) = CleanText s := by
  have e := cleanLines_CleanText s h
  show strings.Join (cleanLines (CleanText s)) ['\n'] ++ ['\n'] = CleanText s
  rw [e]
  rfl

/-- Witness for C14: a text with chords, a repeat mark, a redirect and blank lines. -/
theorem CleanText_idempotent_of_stripped_witness :
    (∀ x ∈ cleanLines "C  G/B Am (x2)\n\n\n\nla  la x2 (to Chorus)\n".toList,
      stripAnnotations x = x) ∧
    CleanText (CleanText "C  G/B Am (x2)\n\n\n\nla  la x2 (to Chorus)\n".toList) =
      CleanText "C  G/B Am (x2)\n\n\n\nla  la x2 (to Chorus)\n".toList :=
  ⟨by decide, CleanText_idempotent_of_stripped _ (by decide)⟩

end processor

end ChordParser

namespace ChordParser

namespace regexp

theorem Pos.adv_rest_of (p : Pos) (m t : Str) (h : p.rest = m ++ t) : (p.adv m).rest = t := by
  simp [Pos.adv, h]

theorem Spec_cls (f : Char → Bool) : Spec (.cls f) (fun _ M _ => ∃ c, M = [c] ∧ f c = true) := by
  intro p q
  rw [mem_run_cls]
  obtain ⟨prev, rest⟩ := p
  constructor
  · rintro ⟨c, cs, h1, h2, rfl⟩
    simp only at h1
    subst h1
    exact ⟨[c], cs, rfl, rfl, c, rfl, h2⟩
  · rintro ⟨M, t, h1, rfl, c, rfl, h2⟩
    simp only at h1
    subst h1
    exact ⟨c, t, rfl, h2, rfl⟩

theorem Spec_star_cls (f : Char → Bool) :
    Spec (.star (.cls f)) (fun _ M _ => ∀ c ∈ M, f c = true) := by
  intro p q
  rw [mem_run_star_cls]
  constructor
  · rintro ⟨m, t, h1, h2, h3⟩
    exact ⟨m, t, h1, h3, h2⟩
  · rintro ⟨m, t, h1, h3, h2⟩
    exact ⟨m, t, h1, h2, h3⟩

theorem Spec_seq (a b : Regex) (La Lb : Option Char → Str → Str → Prop)
    (ha : Spec a La) (hb : Spec b Lb) :
    Spec (.seq a b) (fun prev M t =>
      ∃ M1 M2, M = M1 ++ M2 ∧ La prev M1 (M2 ++ t) ∧ Lb (lastOr prev M1) M2 t) := by
  intro p q
  rw [mem_run_seq]
  constructor
  · rintro ⟨p1, h1, h2⟩
    obtain ⟨M1, t1, e1, rfl, hLa⟩ := (ha p p1).mp h1
    obtain ⟨M2, t, e2, rfl, hLb⟩ := (hb _ q).mp h2
    rw [Pos.adv_rest_of p M1 t1 e1] at e2
    subst e2
    exact ⟨M1 ++ M2, t, by rw [e1, List.append_assoc], Pos.adv_adv p M1 M2, M1, M2, rfl, hLa, hLb⟩
  · rintro ⟨M, t, e, rfl, M1, M2, rfl, hLa, hLb⟩
    rw [List.append_assoc] at e
    refine ⟨p.adv M1, (ha p _).mpr ⟨M1, M2 ++ t, e, rfl, hLa⟩, ?_⟩
    exact (hb _ _).mpr ⟨M2, t, Pos.adv_rest_of p M1 _ e, (Pos.adv_adv p M1 M2).symm, hLb⟩

theorem Spec_alt (a b : Regex) (La Lb : Option Char → Str → Str → Prop)
    (ha : Spec a La) (hb : Spec b Lb) :
    Spec (.alt a b) (fun prev M t => La prev M t ∨ Lb prev M t) := by
  intro p q
  rw [mem_run_alt, ha p q, hb p q]
  constructor
  · rintro (⟨M, t, e, hq, h⟩ | ⟨M, t, e, hq, h⟩)
    · exact ⟨M, t, e, hq, Or.inl h⟩
    · exact ⟨M, t, e, hq, Or.inr h⟩
  · rintro ⟨M, t, e, hq, h | h⟩
    · exact Or.inl ⟨M, t, e, hq, h⟩
    · exact Or.inr ⟨M, t, e, hq, h⟩

theorem Spec_bot : Spec .bot (fun prev M _ => M = [] ∧ prev = none) := by
  intro p q
  rw [mem_run_bot]
  constructor
  · rintro ⟨rfl, h⟩
    exact ⟨[], q.rest, rfl, (Pos.adv_nil q).symm, rfl, h⟩
  · rintro ⟨M, t, _, rfl, rfl, h⟩
    exact ⟨Pos.adv_nil p, h⟩

theorem Spec_eot : Spec .eot (fun _ M t => M = [] ∧ t = []) := by
  intro p q
  rw [mem_run_eot]
  constructor
  · rintro ⟨rfl, h⟩
    exact ⟨[], [], by simp [h], (Pos.adv_nil q).symm, rfl, rfl⟩
  · rintro ⟨M, t, e, rfl, rfl, rfl⟩
    exact ⟨Pos.adv_nil p, by simpa using e⟩

theorem Spec_congr (r : Regex) (L1 L2 : Option Char → Str → Str → Prop) (h : Spec r L1)
    (h12 : ∀ prev M t, L1 prev M t ↔ L2 prev M t) : Spec r L2 := by
  intro p q
  rw [h p q]
  constructor
  · rintro ⟨M, t, e, hq, hL⟩
    exact ⟨M, t, e, hq, (h12 _ _ _).mp hL⟩
  · rintro ⟨M, t, e, hq, hL⟩
    exact ⟨M, t, e, hq, (h12 _ _ _).mpr hL⟩

theorem Spec_plus_cls (f : Char → Bool) :
    Spec (plus (.cls f)) (fun _ M _ => M ≠ [] ∧ ∀ c ∈ M, f c = true) := by
  apply Spec_congr _ _ _ (Spec_seq _ _ _ _ (Spec_cls f) (Spec_star_cls f))
  intro prev M t
  constructor
  · rintro ⟨M1, M2, rfl, ⟨c, rfl, hc⟩, h2⟩
    refine ⟨by simp, ?_⟩
    intro x hx
    rcases List.mem_append.mp hx with h | h
    · simp only [List.mem_singleton] at h
      rw [h]
      exact hc
    · exact h2 x h
  · rintro ⟨hne, hall⟩
    obtain ⟨c, cs, rfl⟩ := List.exists_cons_of_ne_nil hne
    exact ⟨[c], cs, rfl, ⟨c, rfl, hall c (List.mem_cons_self _ _)⟩,
      fun x hx => hall x (List.mem_cons_of_mem _ hx)⟩

/-- What an expression passes over does not depend on the character before it
when its relation does not. -/
theorem Spec_exists (r : Regex) (L : Option Char → Str → Str → Prop) (h : Spec r L)
    (prev : Option Char) (M t : Str) (hL : L prev M t) :
    ∃ q, q ∈ run r ⟨prev, M ++ t⟩ ∧ q.rest = t :=
  ⟨_, (h ⟨prev, M ++ t⟩ _).mpr ⟨M, t, rfl, rfl, hL⟩, Pos.adv_rest_of _ M t rfl⟩

theorem Spec_rest (r : Regex) (L : Option Char → Str → Str → Prop) (h : Spec r L)
    (p q : Pos) (hq : q ∈ run r p) : ∃ M, p.rest = M ++ q.rest ∧ L p.prev M q.rest := by
  obtain ⟨M, t, e, rfl, hL⟩ := (h p q).mp hq
  rw [Pos.adv_rest_of p M t e]
  exact ⟨M, e, hL⟩

end regexp

end ChordParser

namespace ChordParser

namespace processor
open regexp

theorem Spec_timesSign : Spec timesSign (fun _ M _ => ∃ x, M = [x] ∧ (x = 'x' ∨ x = '×')) := by
  apply Spec_congr _ _ _ (Spec_cls _)
  intro prev M t
  simp

theorem Spec_repeatCount : Spec repeatCount (fun _ M _ => IsRepeatCount M) := by
  have h1 := Spec_seq _ _ _ _ (Spec_plus_cls isDigit)
    (Spec_seq _ _ _ _ (Spec_star_cls regexp.isSpace) Spec_timesSign)
  have h2 := Spec_seq _ _ _ _ Spec_timesSign
    (Spec_seq _ _ _ _ (Spec_star_cls regexp.isSpace) (Spec_plus_cls isDigit))
  apply Spec_congr _ _ _ (Spec_alt _ _ _ _ h1 h2)
  intro prev M t
  constructor
  · rintro (⟨D, M2, rfl, ⟨hD, hDd⟩, W, X, rfl, hW, x, rfl, hx⟩ |
      ⟨X, M2, rfl, ⟨x, rfl, hx⟩, W, D, rfl, hW, hD, hDd⟩)
    · exact ⟨D, W, x, hD, hDd, hW, hx, Or.inl (by simp)⟩
    · exact ⟨D, W, x, hD, hDd, hW, hx, Or.inr (by simp)⟩
  · rintro ⟨D, W, x, hD, hDd, hW, hx, rfl | rfl⟩
    · exact Or.inl ⟨D, W ++ [x], by simp, ⟨hD, hDd⟩, W, [x], rfl, hW, x, rfl, hx⟩
    · exact Or.inr ⟨[x], W ++ D, by simp, ⟨x, rfl, hx⟩, W, D, rfl, hW, hD, hDd⟩

theorem Spec_reRepeatToken : Spec reRepeatToken RepeatTokenAt := by
  have h := Spec_seq _ _ _ _ (Spec_alt _ _ _ _ Spec_bot (Spec_cls regexp.isSpace))
    (Spec_seq _ _ _ _ Spec_repeatCount (Spec_alt _ _ _ _ (Spec_cls regexp.isSpace) Spec_eot))
  apply Spec_congr _ _ _ h
  intro prev M t
  constructor
  · rintro ⟨lead, M2, rfl, hlead, tok, trail, rfl, htok, htrail⟩
    exact ⟨lead, tok, trail, by simp, hlead, htok, htrail⟩
  · rintro ⟨lead, tok, trail, rfl, hlead, htok, htrail⟩
    exact ⟨lead, tok ++ trail, by simp, hlead, tok, trail, rfl, htok, htrail⟩

end processor

end ChordParser

namespace ChordParser

namespace regexp

/-- A maximal run of characters of one class is determined by the text. -/
theorem run_unique (f : Char → Bool) : ∀ (m m2 t t2 : Str), m ++ t = m2 ++ t2 →
    (∀ c ∈ m, f c = true) → (∀ c ∈ m2, f c = true) →
    (∀ c, t.head? = some c → f c = false) → (∀ c, t2.head? = some c → f c = false) →
    m = m2 ∧ t = t2 := by
  intro m
  induction m with
  | nil =>
    intro m2 t t2 e _ hm2 ht _
    cases m2 with
    | nil => exact ⟨rfl, e⟩
    | cons c cs =>
      simp only [List.nil_append, List.cons_append] at e
      have h1 := ht c (by rw [e]; rfl)
      have h2 := hm2 c (List.mem_cons_self _ _)
      rw [h1] at h2
      cases h2
  | cons a l ih =>
    intro m2 t t2 e hm hm2 _ ht2
    cases m2 with
    | nil =>
      simp only [List.nil_append, List.cons_append] at e
      have h1 := ht2 a (by rw [← e]; rfl)
      have h2 := hm a (List.mem_cons_self _ _)
      rw [h1] at h2
      cases h2
    | cons c cs =>
      simp only [List.cons_append, List.cons.injEq] at e
      obtain ⟨rfl, e⟩ := e
      obtain ⟨h1, h2⟩ := ih cs t t2 e (fun x hx => hm x (List.mem_cons_of_mem _ hx))
        (fun x hx => hm2 x (List.mem_cons_of_mem _ hx)) (by assumption) ht2
      exact ⟨by rw [h1], h2⟩

theorem isDigit_not_space (c : Char) (h : isDigit c = true) : isSpace c = false := by
  unfold isDigit at h
  unfold isSpace
  simp only [Bool.and_eq_true, decide_eq_true_eq] at h
  simp only [Bool.or_eq_false_iff, beq_eq_false_iff_ne, ne_eq]
  omega

theorem isSpace_not_digit (c : Char) (h : isSpace c = true) : isDigit c = false := by
  cases hd : isDigit c with
  | false => rfl
  | true =>
    rw [isDigit_not_space c hd] at h
    cases h

/-- A character not in a white space run, met in a text that ends with the run,
lies before the run. -/
theorem split_before_ws (A B X w : Str) (z : Char) (hz : isSpace z = false)
    (hw : ∀ c ∈ w, isSpace c = true) (e : A ++ z :: B = X ++ w) :
    ∃ X2, X = A ++ z :: X2 ∧ B = X2 ++ w := by
  rcases List.append_eq_append_iff.mp e with ⟨a, h1, h2⟩ | ⟨c, h1, h2⟩
  · cases a with
    | nil =>
      simp only [List.nil_append] at h2
      have := hw z (by rw [← h2]; exact List.mem_cons_self _ _)
      rw [hz] at this
      cases this
    | cons y ys =>
      simp only [List.cons_append, List.cons.injEq] at h2
      obtain ⟨rfl, h2⟩ := h2
      exact ⟨ys, h1, h2⟩
  · have := hw z (by rw [h2]; simp)
    rw [hz] at this
    cases this

end regexp

namespace processor
open regexp

theorem times_not_space (x : Char) (h : x = 'x' ∨ x = '×') :
    regexp.isSpace x = false ∧ isDigit x = false := by
  rcases h with rfl | rfl <;> exact ⟨by decide, by decide⟩

/-- A repeat count starts and ends with a character that is no white space. -/
theorem IsRepeatCount_ends (tok : Str) (h : IsRepeatCount tok) :
    (∃ c rest, tok = c :: rest ∧ regexp.isSpace c = false) ∧
      ∃ init z, tok = init ++ [z] ∧ regexp.isSpace z = false := by
  obtain ⟨D, W, x, hD, hDd, hW, hx, rfl | rfl⟩ := h
  · obtain ⟨d, ds, rfl⟩ := List.exists_cons_of_ne_nil hD
    exact ⟨⟨d, ds ++ W ++ [x], by simp, isDigit_not_space d (hDd d (List.mem_cons_self _ _))⟩,
      ⟨(d :: ds) ++ W, x, rfl, (times_not_space x hx).1⟩⟩
  · refine ⟨⟨x, W ++ D, rfl, (times_not_space x hx).1⟩, ?_⟩
    have hne : D ≠ [] := hD
    refine ⟨x :: W ++ D.dropLast, D.getLast hne, ?_,
      isDigit_not_space _ (hDd _ (List.getLast_mem hne))⟩
    conv_lhs => rw [← List.dropLast_append_getLast hne]
    simp

theorem stop_after_run (f g : Char → Bool) (W r : Str) (x : Char)
    (hW : ∀ c ∈ W, g c = true) (hg : ∀ c, g c = true → f c = false) (hx : f x = false) :
    ∀ c, (W ++ x :: r).head? = some c → f c = false := by
  intro c hc
  cases W with
  | nil =>
    simp only [List.nil_append, List.head?_cons, Option.some.injEq] at hc
    rw [← hc]
    exact hx
  | cons a l =>
    simp only [List.cons_append, List.head?_cons, Option.some.injEq] at hc
    rw [← hc]
    exact hg a (hW a (List.mem_cons_self _ _))

/-- A repeat count followed by white space or the end of the text is determined
by the text. -/
theorem IsRepeatCount_unique (tok tok2 r r2 : Str) (h : IsRepeatCount tok)
    (h2 : IsRepeatCount tok2) (e : tok ++ r = tok2 ++ r2)
    (hr : ∀ c, r.head? = some c → regexp.isSpace c = true)
    (hr2 : ∀ c, r2.head? = some c → regexp.isSpace c = true) : tok = tok2 ∧ r = r2 := by
  obtain ⟨D, W, x, hD, hDd, hW, hx, rfl | rfl⟩ := h <;>
    obtain ⟨D2, W2, x2, hD2, hDd2, hW2, hx2, rfl | rfl⟩ := h2
  · simp only [List.append_assoc, List.singleton_append] at e
    obtain ⟨rfl, e1⟩ := run_unique isDigit D D2 (W ++ x :: r) (W2 ++ x2 :: r2) e hDd hDd2
      (stop_after_run _ _ W r x hW isSpace_not_digit (times_not_space x hx).2)
      (stop_after_run _ _ W2 r2 x2 hW2 isSpace_not_digit (times_not_space x2 hx2).2)
    obtain ⟨rfl, e2⟩ := run_unique regexp.isSpace W W2 (x :: r) (x2 :: r2) e1 hW hW2
      (by intro c hc; cases hc; exact (times_not_space x hx).1)
      (by intro c hc; cases hc; exact (times_not_space x2 hx2).1)
    simp only [List.cons.injEq] at e2
    obtain ⟨rfl, rfl⟩ := e2
    exact ⟨rfl, rfl⟩
  · exfalso
    obtain ⟨d, ds, rfl⟩ := List.exists_cons_of_ne_nil hD
    simp only [List.cons_append, List.cons.injEq] at e
    have h1 := hDd d (List.mem_cons_self _ _)
    rw [e.1, (times_not_space x2 hx2).2] at h1
    cases h1
  · exfalso
    obtain ⟨d, ds, rfl⟩ := List.exists_cons_of_ne_nil hD2
    simp only [List.cons_append, List.cons.injEq] at e
    have h1 := hDd2 d (List.mem_cons_self _ _)
    rw [← e.1, (times_not_space x hx).2] at h1
    cases h1
  · simp only [List.cons_append, List.append_assoc, List.cons.injEq] at e
    obtain ⟨rfl, e⟩ := e
    have stopD : ∀ (D r : Str), D ≠ [] → (∀ c ∈ D, isDigit c = true) →
        ∀ c, (D ++ r).head? = some c → regexp.isSpace c = false := by
      intro D r hD hDd c hc
      obtain ⟨d, ds, rfl⟩ := List.exists_cons_of_ne_nil hD
      simp only [List.cons_append, List.head?_cons, Option.some.injEq] at hc
      rw [← hc]
      exact isDigit_not_space d (hDd d (List.mem_cons_self _ _))
    obtain ⟨rfl, e2⟩ := run_unique regexp.isSpace W W2 (D ++ r) (D2 ++ r2) e hW hW2
      (stopD D r hD hDd) (stopD D2 r2 hD2 hDd2)
    obtain ⟨rfl, rfl⟩ := run_unique isDigit D D2 r r2 e2 hDd hDd2
      (fun c hc => isSpace_not_digit c (hr c hc)) (fun c hc => isSpace_not_digit c (hr2 c hc))
    exact ⟨rfl, rfl⟩

/-- At one position `reRepeatToken` has one match at most. -/
theorem RepeatTokenAt_unique (prev : Option Char) (M M2 t t2 : Str)
    (h : RepeatTokenAt prev M t) (h2 : RepeatTokenAt prev M2 t2) (e : M ++ t = M2 ++ t2) :
    t = t2 := by
  obtain ⟨lead, tok, trail, rfl, hlead, htok, htrail⟩ := h
  obtain ⟨lead2, tok2, trail2, rfl, hlead2, htok2, htrail2⟩ := h2
  have key : ∀ (trail t : Str),
      ((∃ c, trail = [c] ∧ regexp.isSpace c = true) ∨ (trail = [] ∧ t = [])) →
      (∀ c, (trail ++ t).head? = some c → regexp.isSpace c = true) ∧ t = (trail ++ t).tail := by
    intro trail t h
    rcases h with ⟨c, rfl, hc⟩ | ⟨rfl, rfl⟩
    · refine ⟨?_, rfl⟩
      intro d hd
      simp only [List.singleton_append, List.head?_cons, Option.some.injEq] at hd
      rw [← hd]
      exact hc
    · exact ⟨by simp, rfl⟩
  obtain ⟨hr, ht⟩ := key trail t htrail
  obtain ⟨hr2, ht2⟩ := key trail2 t2 htrail2
  simp only [List.append_assoc] at e
  obtain ⟨⟨c, rest, hc, hcs⟩, -⟩ := IsRepeatCount_ends tok htok
  obtain ⟨⟨c2, rest2, hc2, hcs2⟩, -⟩ := IsRepeatCount_ends tok2 htok2
  have e2 : tok ++ (trail ++ t) = tok2 ++ (trail2 ++ t2) := by
    rcases hlead with ⟨rfl, -⟩ | ⟨a, rfl, ha⟩ <;> rcases hlead2 with ⟨rfl, -⟩ | ⟨a2, rfl, ha2⟩
    · exact e
    · exfalso
      rw [hc] at e
      simp only [List.nil_append, List.cons_append, List.cons.injEq] at e
      rw [e.1, ha2] at hcs
      cases hcs
    · exfalso
      rw [hc2] at e
      simp only [List.nil_append, List.cons_append, List.cons.injEq] at e
      rw [← e.1, ha] at hcs2
      cases hcs2
    · simp only [List.cons_append, List.nil_append, List.cons.injEq] at e
      exact e.2
  obtain ⟨-, e3⟩ := IsRepeatCount_unique tok tok2 _ _ htok htok2 e2 hr hr2
  rw [ht, ht2, e3]

/-- A match in a text followed by white space is a match in the text itself,
ending at the same place or one character earlier at the end of the text. -/
theorem RepeatTokenAt_of_append (prev : Option Char) (X w M t : Str)
    (hw : ∀ c ∈ w, regexp.isSpace c = true) (h : RepeatTokenAt prev M t)
    (e : X ++ w = M ++ t) :
    ∃ M0 t0, X = M0 ++ t0 ∧ RepeatTokenAt prev M0 t0 ∧
      (t = t0 ++ w ∨ (t0 = [] ∧ ∃ d, w = d :: t)) := by
  obtain ⟨lead, tok, trail, rfl, hlead, htok, htrail⟩ := h
  obtain ⟨-, init, z, rfl, hz⟩ := IsRepeatCount_ends tok htok
  have e1 : (lead ++ init) ++ z :: (trail ++ t) = X ++ w := by
    rw [e]
    simp
  obtain ⟨X2, hX, hB⟩ := split_before_ws _ _ X w z hz hw e1
  rcases htrail with ⟨c, rfl, hc⟩ | ⟨rfl, rfl⟩
  · cases X2 with
    | nil =>
      simp only [List.singleton_append, List.nil_append] at hB
      refine ⟨lead ++ (init ++ [z]), [], by rw [hX]; simp, ?_, Or.inr ⟨rfl, c, hB.symm⟩⟩
      exact ⟨lead, init ++ [z], [], by simp, hlead, htok, Or.inr ⟨rfl, rfl⟩⟩
    | cons y ys =>
      simp only [List.singleton_append, List.cons_append, List.cons.injEq] at hB
      obtain ⟨rfl, hB⟩ := hB
      refine ⟨lead ++ (init ++ [z]) ++ [c], ys, by rw [hX]; simp, ?_, Or.inl hB⟩
      exact ⟨lead, init ++ [z], [c], rfl, hlead, htok, Or.inl ⟨c, rfl, hc⟩⟩
  · simp only [List.append_nil, List.nil_eq, List.append_eq_nil] at hB
    obtain ⟨rfl, rfl⟩ := hB
    refine ⟨lead ++ (init ++ [z]), [], by rw [hX]; simp, ?_, Or.inl rfl⟩
    exact ⟨lead, init ++ [z], [], by simp, hlead, htok, Or.inr ⟨rfl, rfl⟩⟩

/-- A match in a text is a match in the text followed by white space, ending at
the same place or, at the end of the text, one character later. -/
theorem RepeatTokenAt_append (prev : Option Char) (X w M0 t0 : Str)
    (hw : ∀ c ∈ w, regexp.isSpace c = true) (h : RepeatTokenAt prev M0 t0)
    (e : X = M0 ++ t0) :
    ∃ M t, X ++ w = M ++ t ∧ RepeatTokenAt prev M t ∧
      (t = t0 ++ w ∨ (t0 = [] ∧ ∃ d, w = d :: t)) := by
  obtain ⟨lead, tok, trail, rfl, hlead, htok, htrail⟩ := h
  rcases htrail with ⟨c, rfl, hc⟩ | ⟨rfl, rfl⟩
  · exact ⟨lead ++ tok ++ [c], t0 ++ w, by rw [e]; simp, ⟨lead, tok, [c], rfl, hlead, htok,
      Or.inl ⟨c, rfl, hc⟩⟩, Or.inl rfl⟩
  · cases w with
    | nil =>
      exact ⟨lead ++ tok ++ [], [], by rw [e]; simp, ⟨lead, tok, [], rfl, hlead, htok,
        Or.inr ⟨rfl, rfl⟩⟩, Or.inl rfl⟩
    | cons d ds =>
      exact ⟨lead ++ tok ++ [d], ds, by rw [e]; simp, ⟨lead, tok, [d], rfl, hlead, htok,
        Or.inl ⟨d, rfl, hw d (List.mem_cons_self _ _)⟩⟩, Or.inr ⟨rfl, d, rfl⟩⟩

end processor

end ChordParser

namespace ChordParser

namespace strings

theorem dropWhile_append_of_ne_nil (p : Char → Bool) (t v : Str) (h : t.dropWhile p ≠ []) :
    (t ++ v).dropWhile p = t.dropWhile p ++ v := by
  induction t with
  | nil => exact absurd rfl h
  | cons c cs ih =>
    by_cases hc : p c = true
    · rw [List.cons_append, List.dropWhile_cons_of_pos hc, List.dropWhile_cons_of_pos hc]
      rw [List.dropWhile_cons_of_pos hc] at h
      exact ih h
    · rw [List.cons_append, List.dropWhile_cons_of_neg hc, List.dropWhile_cons_of_neg hc]
      rfl

theorem rdropWhile_append_all (p : Char → Bool) (d v : Str) (hv : ∀ c ∈ v, p c = true) :
    List.rdropWhile p (d ++ v) = List.rdropWhile p d := by
  induction v using List.reverseRecOn with
  | nil => rw [List.append_nil]
  | append_singleton l a ih =>
    rw [← List.append_assoc, List.rdropWhile_concat_pos p _ a (hv a (by simp))]
    exact ih (fun c hc => hv c (by simp [hc]))

/-- White space after a text does not change what `TrimSpace` gives. -/
theorem TrimSpace_append_ws (y v : Str) (hv : ∀ c ∈ v, unicode.IsSpace c = true) :
    TrimSpace (y ++ v) = TrimSpace y := by
  unfold TrimSpace
  by_cases h : y.dropWhile unicode.IsSpace = []
  · have hy : ∀ c ∈ y, unicode.IsSpace c = true := List.dropWhile_eq_nil_iff.mp h
    have h2 : (y ++ v).dropWhile unicode.IsSpace = [] := by
      rw [List.dropWhile_eq_nil_iff]
      intro c hc
      rcases List.mem_append.mp hc with h' | h'
      · exact hy c h'
      · exact hv c h'
    rw [h, h2]
  · rw [dropWhile_append_of_ne_nil _ y v h, rdropWhile_append_all _ _ v hv]

end strings

namespace regexp

theorem replaceAllGo_cons_none (re : Regex) (repl : Str → Str) (prev : Option Char) (c : Char)
    (cs : Str) (h : run re ⟨prev, c :: cs⟩ = []) :
    replaceAllGo re repl 0 prev (c :: cs) = c :: replaceAllGo re repl 0 (some c) cs := by
  rw [replaceAllGo]
  simp only [h, List.head?_nil]

theorem replaceAllGo_nil (re : Regex) (repl : Str → Str) (k : Nat) (prev : Option Char) :
    replaceAllGo re repl k prev [] = [] := by
  cases k <;> rfl

end regexp

namespace processor
open regexp

theorem reRepeatToken_progress (p q : Pos) (h : q ∈ run reRepeatToken p) :
    q.rest.length < p.rest.length := by
  obtain ⟨M, e, hM⟩ := Spec_rest _ _ Spec_reRepeatToken p q h
  obtain ⟨lead, tok, trail, rfl, -, htok, -⟩ := hM
  obtain ⟨⟨c, rest, rfl, -⟩, -⟩ := IsRepeatCount_ends tok htok
  rw [e]
  simp only [List.length_append, List.length_cons]
  omega

theorem reRepeatToken_append_none (prev : Option Char) (X w : Str)
    (hw : ∀ c ∈ w, regexp.isSpace c = true) (h : run reRepeatToken ⟨prev, X⟩ = []) :
    run reRepeatToken ⟨prev, X ++ w⟩ = [] := by
  rw [List.eq_nil_iff_forall_not_mem]
  intro q hq
  obtain ⟨M, e, hM⟩ := Spec_rest _ _ Spec_reRepeatToken _ q hq
  obtain ⟨M0, t0, e0, h0, -⟩ := RepeatTokenAt_of_append prev X w M q.rest hw hM e
  obtain ⟨q0, hq0, -⟩ := Spec_exists _ _ Spec_reRepeatToken prev M0 t0 h0
  rw [← e0, h] at hq0
  simp at hq0

theorem reRepeatToken_append_some (prev : Option Char) (X w : Str) (q0 : Pos)
    (hw : ∀ c ∈ w, regexp.isSpace c = true)
    (h : (run reRepeatToken ⟨prev, X⟩).head? = some q0) :
    ∃ q, (run reRepeatToken ⟨prev, X ++ w⟩).head? = some q ∧
      (q.rest = q0.rest ++ w ∨ (q0.rest = [] ∧ ∃ d, w = d :: q.rest)) := by
  have hq0 := List.mem_of_mem_head? h
  obtain ⟨M0, e0, hM0⟩ := Spec_rest _ _ Spec_reRepeatToken _ q0 hq0
  obtain ⟨M, t, e, hM, hrel⟩ := RepeatTokenAt_append prev X w M0 q0.rest hw hM0 e0
  obtain ⟨q1, hq1, -⟩ := Spec_exists _ _ Spec_reRepeatToken prev M t hM
  rw [← e] at hq1
  cases hh : (run reRepeatToken ⟨prev, X ++ w⟩).head? with
  | none =>
    rw [List.head?_eq_none_iff] at hh
    rw [hh] at hq1
    simp at hq1
  | some q =>
    refine ⟨q, rfl, ?_⟩
    obtain ⟨M2, e2, hM2⟩ := Spec_rest _ _ Spec_reRepeatToken _ q (List.mem_of_mem_head? hh)
    have : q.rest = t := RepeatTokenAt_unique prev M2 M q.rest t hM2 hM (by rw [← e2, ← e])
    rw [this]
    exact hrel

theorem keepLeadingSpace_take (c : Char) (l : Str) (n : Nat) (hn : 0 < n) :
    keepLeadingSpace ((c :: l).take n) = keepLeadingSpace [c] := by
  cases n with
  | zero => omega
  | succ k =>
    unfold keepLeadingSpace strings.HasPrefix
    simp [List.isPrefixOf]

theorem repeatToken_ws (v : Str) (hv : ∀ c ∈ v, regexp.isSpace c = true) (k : Nat)
    (prev : Option Char) :
    ∀ c ∈ replaceAllGo reRepeatToken keepLeadingSpace k prev v, regexp.isSpace c = true := by
  intro c hc
  rcases replaceAllGo_subset _ _ v k prev c hc with h | ⟨m, h⟩
  · exact hv c h
  · rw [keepLeadingSpace_subset m c h]
    decide

/-- Removing repeat tokens from a text followed by white space gives what it
gives on the text, followed by white space. -/
theorem repeatToken_append (w : Str) (hw : ∀ c ∈ w, regexp.isSpace c = true) :
    ∀ (X : Str) (k : Nat) (prev : Option Char), ∃ w2, (∀ c ∈ w2, regexp.isSpace c = true) ∧
      replaceAllGo reRepeatToken keepLeadingSpace k prev (X ++ w) =
        replaceAllGo reRepeatToken keepLeadingSpace k prev X ++ w2 := by
  intro X
  induction X with
  | nil =>
    intro k prev
    exact ⟨_, repeatToken_ws w hw k prev, by rw [replaceAllGo_nil]; rfl⟩
  | cons c cs ih =>
    intro k prev
    cases k with
    | succ n =>
      simp only [List.cons_append, replaceAllGo]
      exact ih n (some c)
    | zero =>
      cases h0 : (run reRepeatToken ⟨prev, c :: cs⟩).head? with
      | none =>
        have hnil := List.head?_eq_none_iff.mp h0
        have hnil2 := reRepeatToken_append_none prev (c :: cs) w hw hnil
        simp only [List.cons_append] at hnil2 ⊢
        simp only [replaceAllGo, hnil, hnil2, List.head?_nil]
        obtain ⟨w2, hw2, e⟩ := ih 0 (some c)
        exact ⟨w2, hw2, by rw [e]; rfl⟩
      | some q0 =>
        obtain ⟨q, hq, hrel⟩ := reRepeatToken_append_some prev (c :: cs) w q0 hw h0
        have hp0 := reRepeatToken_progress _ _ (List.mem_of_mem_head? h0)
        have hp := reRepeatToken_progress _ _ (List.mem_of_mem_head? hq)
        simp only [List.cons_append] at hq hp ⊢
        simp only at hp0 hp
        simp only [replaceAllGo, h0, hq]
        rw [if_pos hp0, if_pos hp,
          keepLeadingSpace_take c _ _ (by omega), keepLeadingSpace_take c _ _ (by omega)]
        rcases hrel with hrel | ⟨hr0, d, hd⟩
        · have hlen : (c :: (cs ++ w)).length - q.rest.length - 1 =
              (c :: cs).length - q0.rest.length - 1 := by
            rw [hrel]
            simp only [List.length_cons, List.length_append] at hp0 ⊢
            omega
          rw [hlen]
          obtain ⟨w2, hw2, e⟩ := ih ((c :: cs).length - q0.rest.length - 1) (some c)
          exact ⟨w2, hw2, by rw [e, List.append_assoc]⟩
        · have hlen0 : (c :: cs).length - q0.rest.length - 1 = cs.length := by
            rw [hr0]
            simp
          have hlen : (c :: (cs ++ w)).length - q.rest.length - 1 = cs.length + 1 := by
            rw [hd]
            simp only [List.length_cons, List.length_append]
            omega
          have hdrop : (cs ++ w).drop (cs.length + 1) = w.drop 1 := by
            rw [List.drop_append_eq_append_drop]
            simp
          rw [hlen, hlen0, replaceAllGo_skip_all _ _ cs cs.length (some c) (le_refl _),
            replaceAllGo_skip _ _ (cs ++ w) (cs.length + 1) (some c)
              (by rw [hd]; simp) (by omega), hdrop, List.append_nil]
          exact ⟨_, repeatToken_ws (w.drop 1) (fun x hx => hw x (List.mem_of_mem_drop hx)) 0 _,
            rfl⟩

theorem collapse_ws (v : Str) (hv : ∀ c ∈ v, unicode.IsSpace c = true) (k : Nat)
    (prev : Option Char) :
    ∀ c ∈ replaceAllGo reMultiSpaces (fun _ => [' ']) k prev v, unicode.IsSpace c = true := by
  intro c hc
  rcases replaceAllGo_subset _ _ v k prev c hc with h | ⟨m, h⟩
  · exact hv c h
  · simp only [List.mem_singleton] at h
    rw [h]
    decide

theorem collapse_cons (c : Char) (rest : Str) (prev : Option Char) :
    ∃ k, replaceAllGo reMultiSpaces (fun _ => [' ']) 0 prev (c :: rest) =
      c :: replaceAllGo reMultiSpaces (fun _ => [' ']) k (some c) rest := by
  simp only [replaceAllGo]
  cases hh : (run reMultiSpaces ⟨prev, c :: rest⟩).head? with
  | none => exact ⟨0, rfl⟩
  | some q =>
    obtain ⟨t, ht⟩ := run_reMultiSpaces_shape _ _ (List.mem_of_mem_head? hh)
    simp only [List.cons.injEq] at ht
    obtain ⟨rfl, -⟩ := ht
    by_cases hlt : q.rest.length < (' ' :: rest).length
    · simp only [hlt, if_true]
      exact ⟨_, rfl⟩
    · simp only [hlt, if_false]
      exact ⟨0, rfl⟩

/-- Collapsing runs of blanks in a text followed by white space gives what it
gives on the text, followed by white space. -/
theorem collapse_append (v : Str) (hv : ∀ c ∈ v, unicode.IsSpace c = true) :
    ∀ (Y : Str) (k : Nat) (prev : Option Char), ∃ v2, (∀ c ∈ v2, unicode.IsSpace c = true) ∧
      replaceAllGo reMultiSpaces (fun _ => [' ']) k prev (Y ++ v) =
        replaceAllGo reMultiSpaces (fun _ => [' ']) k prev Y ++ v2 := by
  intro Y
  induction Y with
  | nil =>
    intro k prev
    exact ⟨_, collapse_ws v hv k prev, by rw [replaceAllGo_nil]; rfl⟩
  | cons c cs ih =>
    intro k prev
    cases k with
    | succ n =>
      simp only [List.cons_append, replaceAllGo]
      exact ih n (some c)
    | zero =>
      by_cases hm : ∃ t, c :: cs = ' ' :: ' ' :: t
      · obtain ⟨t, ht⟩ := hm
        obtain ⟨rfl, rfl⟩ := List.cons.inj ht
        obtain ⟨q0, hq0, hr0⟩ := starCls_head (fun x => x == ' ') (some ' ') t
        obtain ⟨q, hq, hr⟩ := starCls_head (fun x => x == ' ') (some ' ') (t ++ v)
        have hl0 : (t.dropWhile (fun x => x == ' ')).length ≤ t.length :=
          (List.dropWhile_suffix _).length_le
        have hl : ((t ++ v).dropWhile (fun x => x == ' ')).length ≤ (t ++ v).length :=
          (List.dropWhile_suffix _).length_le
        simp only [List.cons_append]
        simp only [replaceAllGo, run_reMultiSpaces_match, hq0, hq, hr0, hr, List.length_cons]
        rw [if_pos (by omega), if_pos (by omega)]
        by_cases hd : t.dropWhile (fun x => x == ' ') = []
        · have ht : ∀ x ∈ t, x = ' ' := by
            intro x hx
            have := List.dropWhile_eq_nil_iff.mp hd x hx
            simpa using this
          rw [hd]
          simp only [List.length_nil, Nat.sub_zero, Nat.add_sub_cancel]
          rw [replaceAllGo_skip_all _ _ (' ' :: t) (t.length + 1) (some ' ') (by simp)]
          generalize (t ++ v).length + 1 + 1 -
            ((t ++ v).dropWhile (fun x => x == ' ')).length - 1 = k1
          have hws : ∀ x ∈ ' ' :: (t ++ v), unicode.IsSpace x = true := by
            intro x hx
            rcases List.mem_cons.mp hx with h | h
            · rw [h]
              decide
            · rcases List.mem_append.mp h with h | h
              · rw [ht x h]
                decide
              · exact hv x h
          exact ⟨replaceAllGo reMultiSpaces (fun _ => [' ']) k1 (some ' ') (' ' :: (t ++ v)),
            collapse_ws _ hws _ _, by simp⟩
        · rw [strings.dropWhile_append_of_ne_nil _ t v hd]
          have hlen : (t ++ v).length + 1 + 1 -
              (t.dropWhile (fun x => x == ' ') ++ v).length - 1 =
              t.length + 1 + 1 - (t.dropWhile (fun x => x == ' ')).length - 1 := by
            simp only [List.length_append]
            omega
          rw [hlen]
          obtain ⟨v2, hv2, e⟩ :=
            ih (t.length + 1 + 1 - (t.dropWhile (fun x => x == ' ')).length - 1) (some ' ')
          simp only [List.cons_append] at e
          exact ⟨v2, hv2, by rw [e]; simp⟩
      · have hrun : run reMultiSpaces ⟨prev, c :: cs⟩ = [] := by
          rw [List.eq_nil_iff_forall_not_mem]
          intro q hq
          exact hm (run_reMultiSpaces_shape _ _ hq)
        cases cs with
        | nil =>
          obtain ⟨k, hk⟩ := collapse_cons c v prev
          simp only [List.cons_append, List.nil_append]
          rw [hk]
          simp only [replaceAllGo, hrun, List.head?_nil]
          exact ⟨_, collapse_ws v hv k (some c), by simp⟩
        | cons d ds =>
          have hrun2 : run reMultiSpaces ⟨prev, c :: d :: (ds ++ v)⟩ = [] := by
            rw [List.eq_nil_iff_forall_not_mem]
            intro q hq
            obtain ⟨t, ht⟩ := run_reMultiSpaces_shape _ _ hq
            simp only [List.cons.injEq] at ht
            exact hm ⟨ds, by rw [ht.1, ht.2.1]⟩
          simp only [List.cons_append]
          rw [replaceAllGo_cons_none _ _ _ _ _ hrun, replaceAllGo_cons_none _ _ _ _ _ hrun2]
          obtain ⟨v2, hv2, e⟩ := ih 0 (some c)
          simp only [List.cons_append] at e
          exact ⟨v2, hv2, by rw [e]; rfl⟩

end processor

end ChordParser

namespace ChordParser

namespace regexp

/-- A text with one occurrence of `c` is split at it in one way only. -/
theorem unique_split (c : Char) (x y A B : Str) (e : x ++ c :: y = A ++ c :: B)
    (hA : c ∉ A) (hB : c ∉ B) : x = A ∧ y = B := by
  rcases List.append_eq_append_iff.mp e with ⟨a, h1, h2⟩ | ⟨a, h1, h2⟩
  · cases a with
    | nil =>
      simp only [List.nil_append, List.cons.injEq, true_and] at h2
      exact ⟨by simpa using h1.symm, h2⟩
    | cons d ds =>
      simp only [List.cons_append, List.cons.injEq] at h2
      exact absurd (by rw [h1, h2.1]; simp) hA
  · cases a with
    | nil =>
      simp only [List.nil_append, List.cons.injEq, true_and] at h2
      exact ⟨by simpa using h1, h2.symm⟩
    | cons d ds =>
      simp only [List.cons_append, List.cons.injEq] at h2
      exact absurd (by rw [h2.2]; simp) hB

theorem seq_left (a b : Regex) (La : Option Char → Str → Str → Prop) (ha : Spec a La)
    (p q : Pos) (h : q ∈ run (.seq a b) p) :
    ∃ M1 t1, p.rest = M1 ++ t1 ∧ La p.prev M1 t1 ∧ q ∈ run b (p.adv M1) ∧
      (p.adv M1).rest = t1 := by
  rw [mem_run_seq] at h
  obtain ⟨p1, h1, h2⟩ := h
  obtain ⟨M1, t1, e1, rfl, hLa⟩ := (ha p p1).mp h1
  exact ⟨M1, t1, e1, hLa, h2, Pos.adv_rest_of p M1 t1 e1⟩

theorem rdropWhile_decomp (f : Char → Bool) (L : Str) :
    ∃ w, L = List.rdropWhile f L ++ w ∧ ∀ c ∈ w, f c = true := by
  induction L using List.reverseRecOn with
  | nil => exact ⟨[], rfl, by simp⟩
  | append_singleton l a ih =>
    by_cases ha : f a = true
    · obtain ⟨w, e, hw⟩ := ih
      refine ⟨w ++ [a], ?_, ?_⟩
      · rw [List.rdropWhile_concat_pos f l a ha, ← List.append_assoc, ← e]
      · intro c hc
        rcases List.mem_append.mp hc with h | h
        · exact hw c h
        · simp only [List.mem_singleton] at h
          rw [h]
          exact ha
    · exact ⟨[], by rw [List.rdropWhile_concat_neg f l a ha, List.append_nil], by simp⟩

end regexp

namespace processor
open regexp

theorem IsRepeatCount_chars (tok : Str) (h : IsRepeatCount tok) :
    ∀ c ∈ tok, isDigit c = true ∨ regexp.isSpace c = true ∨ c = 'x' ∨ c = '×' := by
  obtain ⟨D, W, x, -, hDd, hW, hx, rfl | rfl⟩ := h
  · intro c hc
    simp only [List.mem_append, List.mem_singleton] at hc
    rcases hc with (hc | hc) | hc
    · exact Or.inl (hDd c hc)
    · exact Or.inr (Or.inl (hW c hc))
    · exact Or.inr (Or.inr (by rw [hc]; exact hx))
  · intro c hc
    simp only [List.cons_append, List.mem_cons, List.mem_append] at hc
    rcases hc with hc | hc | hc
    · exact Or.inr (Or.inr (by rw [hc]; exact hx))
    · exact Or.inr (Or.inl (hW c hc))
    · exact Or.inl (hDd c hc)

/-- No character of a repeat count is a parenthesis or one of `t`, `T`, `n`, `N`. -/
theorem repeat_char (c : Char)
    (h : isDigit c = true ∨ regexp.isSpace c = true ∨ c = 'x' ∨ c = '×') :
    c ≠ '(' ∧ c ≠ ')' ∧ c ≠ 't' ∧ c ≠ 'T' ∧ c ≠ 'n' ∧ c ≠ 'N' := by
  refine ⟨?_, ?_, ?_, ?_, ?_, ?_⟩ <;>
  · rintro rfl
    revert h
    decide

theorem reToRefEnd_head (p q : Pos) (h : q ∈ run reToRefEnd p) :
    ∃ M1 M3 c r, p.rest = M1 ++ '(' :: (M3 ++ c :: r) ∧ (∀ x ∈ M1, regexp.isSpace x = true) ∧
      (∀ x ∈ M3, regexp.isSpace x = true) ∧ (c = 't' ∨ c = 'T' ∨ c = 'n' ∨ c = 'N') := by
  change q ∈ run (.seq _ (.seq (chr '(') (.seq _ (.seq (.alt (.seq _ _) (.seq _ _)) _)))) p at h
  obtain ⟨M1, t1, e1, h1, hq1, r1⟩ := seq_left _ _ _ (Spec_star_cls regexp.isSpace) p q h
  obtain ⟨M2, t2, e2, ⟨c2, rfl, hc2⟩, hq2, r2⟩ := seq_left _ _ _ (Spec_cls _) _ q hq1
  obtain ⟨M3, t3, e3, h3, hq3, r3⟩ := seq_left _ _ _ (Spec_star_cls regexp.isSpace) _ q hq2
  rw [mem_run_seq] at hq3
  obtain ⟨p4, hp4, -⟩ := hq3
  have hc2' : c2 = '(' := by simpa using hc2
  subst hc2'
  rw [r1] at e2
  rw [r2] at e3
  have key : ∀ c cs, t3 = c :: cs → (c = 't' ∨ c = 'T' ∨ c = 'n' ∨ c = 'N') →
      ∃ M1 M3 c r, p.rest = M1 ++ '(' :: (M3 ++ c :: r) ∧
        (∀ x ∈ M1, regexp.isSpace x = true) ∧
        (∀ x ∈ M3, regexp.isSpace x = true) ∧ (c = 't' ∨ c = 'T' ∨ c = 'n' ∨ c = 'N') := by
    intro c cs e hc
    refine ⟨M1, M3, c, cs, ?_, h1, h3, hc⟩
    rw [e1, e2, e3, e]
    rfl
  rw [mem_run_alt] at hp4
  rcases hp4 with h4 | h4
  · rw [mem_run_seq] at h4
    obtain ⟨p5, hp5, -⟩ := h4
    unfold foldCase at hp5
    rw [mem_run_cls] at hp5
    obtain ⟨c, cs, e5, hc, -⟩ := hp5
    rw [r3] at e5
    apply key c cs e5
    simp only [Bool.or_eq_true, beq_iff_eq] at hc
    rcases hc with hc | hc
    · exact Or.inl hc
    · exact Or.inr (Or.inl hc)
  · rw [mem_run_seq] at h4
    obtain ⟨p5, hp5, -⟩ := h4
    unfold foldCase at hp5
    rw [mem_run_cls] at hp5
    obtain ⟨c, cs, e5, hc, -⟩ := hp5
    rw [r3] at e5
    apply key c cs e5
    simp only [Bool.or_eq_true, beq_iff_eq] at hc
    rcases hc with hc | hc
    · exact Or.inr (Or.inr (Or.inl hc))
    · exact Or.inr (Or.inr (Or.inr hc))

theorem reParenRepeatEnd_head (p q : Pos) (h : q ∈ run reParenRepeatEnd p) :
    ∃ M1 r, p.rest = M1 ++ '(' :: r ∧ ∀ x ∈ M1, regexp.isSpace x = true := by
  change q ∈ run (.seq _ (.seq (chr '(') _)) p at h
  obtain ⟨M1, t1, e1, h1, hq1, r1⟩ := seq_left _ _ _ (Spec_star_cls regexp.isSpace) p q h
  obtain ⟨M2, t2, e2, ⟨c2, rfl, hc2⟩, -, -⟩ := seq_left _ _ _ (Spec_cls _) _ q hq1
  have hc2' : c2 = '(' := by simpa using hc2
  subst hc2'
  rw [r1] at e2
  exact ⟨M1, t2, by rw [e1, e2]; rfl, h1⟩

/-- The expression `reParenRepeatEnd` matches a parenthesised repeat count with
white space around its parts, up to the end of the text. -/
theorem reParenRepeatEnd_matches (prev : Option Char) (u a tok b : Str)
    (hu : ∀ c ∈ u, regexp.isSpace c = true) (ha : ∀ c ∈ a, regexp.isSpace c = true)
    (hb : ∀ c ∈ b, regexp.isSpace c = true) (htok : IsRepeatCount tok) :
    ∃ q, q ∈ run reParenRepeatEnd ⟨prev, u ++ '(' :: (a ++ (tok ++ (b ++ [')'])))⟩ := by
  have hspec := Spec_seq _ _ _ _ (Spec_star_cls regexp.isSpace)
    (Spec_seq _ _ _ _ (Spec_cls (fun x => x == '('))
      (Spec_seq _ _ _ _ (Spec_star_cls regexp.isSpace)
        (Spec_seq _ _ _ _ Spec_repeatCount
          (Spec_seq _ _ _ _ (Spec_star_cls regexp.isSpace)
            (Spec_seq _ _ _ _ (Spec_cls (fun x => x == ')'))
              (Spec_seq _ _ _ _ (Spec_star_cls regexp.isSpace) Spec_eot))))))
  obtain ⟨q, hq, -⟩ := Spec_exists _ _ hspec prev
    (u ++ (['('] ++ (a ++ (tok ++ (b ++ ([')'] ++ ([] ++ []))))))) []
    ⟨u, _, rfl, hu, ['('], _, rfl, ⟨'(', rfl, rfl⟩, a, _, rfl, ha, tok, _, rfl, htok,
      b, _, rfl, hb, [')'], _, rfl, ⟨')', rfl, rfl⟩, [], [], rfl, by simp, rfl, rfl⟩
  refine ⟨q, ?_⟩
  simpa using hq

theorem no_match_without_close (re : Regex)
    (hre : ∀ p q, q ∈ run re p →
      q.rest = [] ∧ ∃ m w, p.rest = m ++ ')' :: w ∧ ∀ c ∈ w, regexp.isSpace c = true)
    (L : Str) (hclose : ')' ∉ L) (repl : Str → Str) (prev : Option Char) :
    replaceAllGo re repl 0 prev L = L := by
  apply replaceAllGo_no_match
  intro pre suf prev1 e _
  rw [List.eq_nil_iff_forall_not_mem]
  intro q hq
  obtain ⟨-, m, w, e2, -⟩ := hre _ _ hq
  simp only at e2
  apply hclose
  rw [e, e2]
  simp

/-- A line without parentheses holds no trailing redirect and no trailing
repeat count: only its repeat tokens are removed. -/
theorem stripAnnotations_plain (L : Str) (hclose : ')' ∉ L) :
    stripAnnotations L = ReplaceAllStringFunc reRepeatToken L keepLeadingSpace := by
  unfold stripAnnotations ReplaceAllString
  simp only
  rw [no_match_without_close reToRefEnd reToRefEnd_shape L hclose,
    no_match_without_close reParenRepeatEnd reParenRepeatEnd_shape L hclose]

/-- A line without parentheses followed by a parenthesised repeat count: the
repeat count goes, with the white space before it. -/
theorem stripAnnotations_repeat_suffix (L u a tok b : Str) (hopen : '(' ∉ L)
    (hu : ∀ c ∈ u, regexp.isSpace c = true) (ha : ∀ c ∈ a, regexp.isSpace c = true)
    (hb : ∀ c ∈ b, regexp.isSpace c = true) (htok : IsRepeatCount tok) :
    stripAnnotations (L ++ (u ++ '(' :: (a ++ (tok ++ (b ++ [')']))))) =
      ReplaceAllStringFunc reRepeatToken (List.rdropWhile regexp.isSpace L) keepLeadingSpace := by
  have hws_paren : ∀ x, regexp.isSpace x = true → x ≠ '(' := by
    intro x hx
    exact (repeat_char x (Or.inr (Or.inl hx))).1
  have hR2 : '(' ∉ a ++ (tok ++ (b ++ [')'])) := by
    intro h
    simp only [List.mem_append, List.mem_singleton] at h
    rcases h with h | h | h | h
    · exact hws_paren _ (ha _ h) rfl
    · exact (repeat_char _ (IsRepeatCount_chars tok htok _ h)).1 rfl
    · exact hws_paren _ (hb _ h) rfl
    · cases h
  -- the redirect expression matches nowhere
  have hA : ReplaceAllString reToRefEnd (L ++ (u ++ '(' :: (a ++ (tok ++ (b ++ [')']))))) [] =
      L ++ (u ++ '(' :: (a ++ (tok ++ (b ++ [')'])))) := by
    apply replaceAllGo_no_match
    intro pre suf prev1 e _
    rw [List.eq_nil_iff_forall_not_mem]
    intro q hq
    obtain ⟨M1, M3, c, r, e2, -, h3, hc⟩ := reToRefEnd_head _ _ hq
    simp only at e2
    have e3 : (pre ++ M1) ++ '(' :: (M3 ++ c :: r) =
        (L ++ u) ++ '(' :: (a ++ (tok ++ (b ++ [')']))) := by
      rw [List.append_assoc, ← e2, ← e, List.append_assoc]
    obtain ⟨-, e4⟩ := unique_split '(' _ _ _ _ e3 (by
      intro h
      rcases List.mem_append.mp h with h | h
      · exact hopen h
      · exact hws_paren _ (hu _ h) rfl) hR2
    obtain ⟨⟨d, rest, hd, hds⟩, -⟩ := IsRepeatCount_ends tok htok
    have hcs : regexp.isSpace c = false := by
      rcases hc with rfl | rfl | rfl | rfl <;> decide
    obtain ⟨-, e5⟩ := run_unique regexp.isSpace M3 a (c :: r) (tok ++ (b ++ [')'])) e4 h3 ha
      (by intro x hx; cases hx; exact hcs)
      (by
        intro x hx
        rw [hd] at hx
        cases hx
        exact hds)
    rw [hd] at e5
    simp only [List.cons_append, List.cons.injEq] at e5
    have hdc := repeat_char d (IsRepeatCount_chars tok htok d (by rw [hd]; simp))
    rw [← e5.1] at hdc
    rcases hc with rfl | rfl | rfl | rfl
    · exact hdc.2.2.1 rfl
    · exact hdc.2.2.2.1 rfl
    · exact hdc.2.2.2.2.1 rfl
    · exact hdc.2.2.2.2.2 rfl
  -- the repeat count expression matches first where the white space before it starts
  obtain ⟨w0, hL, hw0⟩ := rdropWhile_decomp regexp.isSpace L
  have hB : ReplaceAllString reParenRepeatEnd
      (L ++ (u ++ '(' :: (a ++ (tok ++ (b ++ [')']))))) [] =
      List.rdropWhile regexp.isSpace L := by
    have e0 : L ++ (u ++ '(' :: (a ++ (tok ++ (b ++ [')'])))) =
        List.rdropWhile regexp.isSpace L ++
          ((w0 ++ u) ++ '(' :: (a ++ (tok ++ (b ++ [')'])))) := by
      conv_lhs => rw [hL]
      simp
    rw [e0]
    have hwu : ∀ c ∈ w0 ++ u, regexp.isSpace c = true := by
      intro c hc
      rcases List.mem_append.mp hc with h | h
      · exact hw0 c h
      · exact hu c h
    have := replaceAllGo_cut reParenRepeatEnd (fun _ => [])
      ((w0 ++ u) ++ '(' :: (a ++ (tok ++ (b ++ [')'])))) (by simp)
      (by
        intro prev1
        obtain ⟨q, hq⟩ := reParenRepeatEnd_matches prev1 (w0 ++ u) a tok b hwu ha hb htok
        cases hh : (run reParenRepeatEnd
            ⟨prev1, (w0 ++ u) ++ '(' :: (a ++ (tok ++ (b ++ [')'])))⟩).head? with
        | none =>
          rw [List.head?_eq_none_iff] at hh
          rw [hh] at hq
          simp at hq
        | some q1 =>
          exact ⟨q1, rfl, (reParenRepeatEnd_shape _ _ (List.mem_of_mem_head? hh)).1⟩)
      (List.rdropWhile regexp.isSpace L) none
      (by
        intro pre suf prev1 e hne
        rw [List.eq_nil_iff_forall_not_mem]
        intro q hq
        obtain ⟨M1, r, e2, h1⟩ := reParenRepeatEnd_head _ _ hq
        simp only at e2
        have e3 : M1 ++ '(' :: r =
            (suf ++ (w0 ++ u)) ++ '(' :: (a ++ (tok ++ (b ++ [')']))) := by
          rw [← e2]
          simp
        have hsufL : ∀ x ∈ suf, x ∈ L := by
          intro x hx
          exact ( List.rdropWhile_prefix regexp.isSpace L).subset (by rw [e]; simp [hx])
        obtain ⟨e4, -⟩ := unique_split '(' _ _ _ _ e3 (by
          intro h
          rcases List.mem_append.mp h with h | h
          · exact hopen (hsufL _ h)
          · exact hws_paren _ (hwu _ h) rfl) hR2
        have hne2 : List.rdropWhile regexp.isSpace L ≠ [] := by
          rw [e]
          simp [hne]
        have hlast := List.rdropWhile_last_not regexp.isSpace L hne2
        have hlast2 : (List.rdropWhile regexp.isSpace L).getLast hne2 = suf.getLast hne := by
          simp only [e]
          exact List.getLast_append_of_ne_nil hne
        apply hlast
        rw [hlast2]
        apply h1
        rw [e4]
        exact List.mem_append_left _ (List.getLast_mem hne))
    simpa [ReplaceAllString] using this
  unfold stripAnnotations
  simp only
  rw [hA, hB]

/-- A parenthesised repeat count after a line without parentheses does not
change the cleaned line. -/
theorem cleanLine_repeat_suffix (L u a tok b : Str) (hopen : '(' ∉ L) (hclose : ')' ∉ L)
    (hu : ∀ c ∈ u, regexp.isSpace c = true) (ha : ∀ c ∈ a, regexp.isSpace c = true)
    (hb : ∀ c ∈ b, regexp.isSpace c = true) (htok : IsRepeatCount tok) :
    cleanLine (L ++ (u ++ '(' :: (a ++ (tok ++ (b ++ [')']))))) = cleanLine L := by
  unfold cleanLine
  simp only
  rw [stripAnnotations_repeat_suffix L u a tok b hopen hu ha hb htok,
    stripAnnotations_plain L hclose]
  obtain ⟨w0, hL, hw0⟩ := rdropWhile_decomp regexp.isSpace L
  obtain ⟨w2, hw2, e2⟩ := repeatToken_append w0 hw0 (List.rdropWhile regexp.isSpace L) 0 none
  rw [← hL] at e2
  obtain ⟨v2, hv2, e3⟩ := collapse_append w2 (fun c hc => isSpace_unicode c (hw2 c hc))
    (ReplaceAllStringFunc reRepeatToken (List.rdropWhile regexp.isSpace L) keepLeadingSpace)
    0 none
  have e4 : ReplaceAllString reMultiSpaces
      (ReplaceAllStringFunc reRepeatToken L keepLeadingSpace) [' '] =
      ReplaceAllString reMultiSpaces
        (ReplaceAllStringFunc reRepeatToken (List.rdropWhile regexp.isSpace L)
          keepLeadingSpace) [' '] ++ v2 := by
    unfold ReplaceAllString
    unfold ReplaceAllStringFunc at e3 ⊢
    rw [e2]
    exact e3
  rw [e4, strings.TrimSpace_append_ws _ v2 hv2]

theorem CleanText_congr (X Y : Str) (hX : '\n' ∉ X) (hY : '\n' ∉ Y)
    (h : cleanLine X = cleanLine Y) : CleanText X = CleanText Y := by
  unfold CleanText cleanLines
  rw [strings.Split_of_not_mem X '\n' hX, strings.Split_of_not_mem Y '\n' hY]
  simp only [List.foldl]
  rw [h]

end processor

end ChordParser

namespace ChordParser

namespace processor
open regexp

theorem digit_isDigit (N : Str) (hdig : ∀ c ∈ N, 48 ≤ c.toNat ∧ c.toNat ≤ 57) :
    ∀ c ∈ N, isDigit c = true := by
  intro c hc
  unfold isDigit
  simp only [Bool.and_eq_true, decide_eq_true_eq]
  exact hdig c hc

theorem digit_not_newline (N : Str) (hdig : ∀ c ∈ N, 48 ≤ c.toNat ∧ c.toNat ≤ 57) :
    '\n' ∉ N := by
  intro h
  have := hdig '\n' h
  revert this
  decide

theorem CleanText_repeat_suffix (L u a tok b : Str) (hline : '\n' ∉ L) (hopen : '(' ∉ L)
    (hclose : ')' ∉ L) (hu : ∀ c ∈ u, regexp.isSpace c = true)
    (ha : ∀ c ∈ a, regexp.isSpace c = true) (hb : ∀ c ∈ b, regexp.isSpace c = true)
    (htok : IsRepeatCount tok) (hn : '\n' ∉ u ++ '(' :: (a ++ (tok ++ (b ++ [')'])))) :
    CleanText (L ++ (u ++ '(' :: (a ++ (tok ++ (b ++ [')']))))) = CleanText L := by
  apply CleanText_congr _ _ _ hline (cleanLine_repeat_suffix L u a tok b hopen hclose hu ha hb htok)
  intro h
  rcases List.mem_append.mp h with h | h
  · exact hline h
  · exact hn h

/-- C18: for a line `L` without line break and without parentheses and a
non-empty run of decimal digits `N`, appending ` (xN)`, ` ( Nx )`, ` (×N)` or
` (N ×)` to `L` does not change what `CleanText` returns. -/
theorem CleanText_repeat_parenthetical (L N : Str) (hline : '\n' ∉ L) (hopen : '(' ∉ L)
    (hclose : ')' ∉ L) (hN : N ≠ []) (hdig : ∀ c ∈ N, 48 ≤ c.toNat ∧ c.toNat ≤ 57) :
    CleanText (L ++ " (x".toList ++ N ++ ")".toList) = CleanText L ∧
    CleanText (L ++ " ( ".toList ++ N ++ "x )".toList) = CleanText L ∧
    CleanText (L ++ " (×".toList ++ N ++ ")".toList) = CleanText L ∧
    CleanText (L ++ " (".toList ++ N ++ " ×)".toList) = CleanText L := by
  have hd := digit_isDigit N hdig
  have hnl := digit_not_newline N hdig
  have hsp : ∀ c ∈ [' '], regexp.isSpace c = true := by
    intro c hc
    simp only [List.mem_singleton] at hc
    rw [hc]
    decide
  have hnil : ∀ c ∈ ([] : Str), regexp.isSpace c = true := by simp
  refine ⟨?_, ?_, ?_, ?_⟩
  · have h := CleanText_repeat_suffix L [' '] [] ('x' :: [] ++ N) [] hline hopen hclose hsp hnil
      hnil ⟨N, [], 'x', hN, hd, hnil, Or.inl rfl, Or.inr rfl⟩ (by simp [hnl])
    rw [← h]
    congr 1
    simp
  · have h := CleanText_repeat_suffix L [' '] [' '] (N ++ [] ++ ['x']) [' '] hline hopen hclose
      hsp hsp hsp ⟨N, [], 'x', hN, hd, hnil, Or.inl rfl, Or.inl rfl⟩ (by simp [hnl])
    rw [← h]
    congr 1
    simp
  · have h := CleanText_repeat_suffix L [' '] [] ('×' :: [] ++ N) [] hline hopen hclose hsp hnil
      hnil ⟨N, [], '×', hN, hd, hnil, Or.inr rfl, Or.inr rfl⟩ (by simp [hnl])
    rw [← h]
    congr 1
    simp
  · have h := CleanText_repeat_suffix L [' '] [] (N ++ [' '] ++ ['×']) [] hline hopen hclose hsp
      hnil hnil ⟨N, [' '], '×', hN, hd, hsp, Or.inr rfl, Or.inl rfl⟩ (by simp [hnl])
    rw [← h]
    congr 1
    simp

/-- Witness for C18: a line with a repeat token and trailing blanks, `N = 12`. -/
theorem CleanText_repeat_parenthetical_witness :
    CleanText ("Amen  2x ".toList ++ " (x".toList ++ "12".toList ++ ")".toList) =
      CleanText "Amen  2x ".toList ∧
    CleanText ("Amen  2x ".toList ++ " ( ".toList ++ "12".toList ++ "x )".toList) =
      CleanText "Amen  2x ".toList ∧
    CleanText ("Amen  2x ".toList ++ " (×".toList ++ "12".toList ++ ")".toList) =
      CleanText "Amen  2x ".toList ∧
    CleanText ("Amen  2x ".toList ++ " (".toList ++ "12".toList ++ " ×)".toList) =
      CleanText "Amen  2x ".toList :=
  CleanText_repeat_parenthetical "Amen  2x ".toList "12".toList (by decide) (by decide)
    (by decide) (by decide) (by decide)

end processor

end ChordParser

namespace ChordParser

namespace strings

theorem replaceGo_single (a b : Char) (s : Str) :
    replaceGo [a] [b] 0 s = s.map (fun c => if c = a then b else c) := by
  induction s with
  | nil => rfl
  | cons c cs ih =>
    unfold replaceGo
    by_cases hc : c = a
    · subst hc
      simp [List.isPrefixOf, ih]
    · have hc2 : a ≠ c := fun h => hc h.symm
      simp [List.isPrefixOf, hc, hc2, ih]

end strings

namespace normalize

theorem crlf_step (rest : Str) :
    strings.replaceGo ['\r', '\n'] ['\n'] 0 ('\r' :: '\n' :: rest) =
      '\n' :: strings.replaceGo ['\r', '\n'] ['\n'] 0 rest := by
  rw [strings.replaceGo]
  simp [List.isPrefixOf, strings.replaceGo]

theorem crlf_other (c : Char) (cs : Str) (h : ¬ (c = '\r' ∧ cs.head? = some '\n')) :
    strings.replaceGo ['\r', '\n'] ['\n'] 0 (c :: cs) =
      c :: strings.replaceGo ['\r', '\n'] ['\n'] 0 cs := by
  rw [strings.replaceGo]
  have : List.isPrefixOf ['\r', '\n'] (c :: cs) = false := by
    cases cs with
    | nil => simp [List.isPrefixOf]
    | cons d ds =>
      simp only [List.head?_cons, Option.some.injEq] at h
      simp only [List.isPrefixOf, Bool.and_true, Bool.and_eq_false_imp, beq_iff_eq,
        beq_eq_false_iff_ne, ne_eq]
      intro h1 h2
      exact h ⟨h1.symm, h2.symm⟩
  rw [this]
  rfl

theorem Newlines_eq_map (s : Str) :
    Newlines s = (strings.replaceGo ['\r', '\n'] ['\n'] 0 s).map
      (fun c => if c = '\r' then '\n' else c) := by
  unfold Newlines strings.ReplaceAll
  exact strings.replaceGo_single '\r' '\n' _

theorem Newlines_eq_spec (s : Str) : Newlines s = newlinesSpec s := by
  rw [Newlines_eq_map]
  induction s using newlinesSpec.induct with
  | case1 => rfl
  | case2 =>
    rw [crlf_other _ [] (by simp)]
    simp [newlinesSpec, strings.replaceGo]
  | case3 c hc =>
    rw [crlf_other c [] (by simp)]
    simp [newlinesSpec, strings.replaceGo, hc]
  | case4 rest ih =>
    rw [crlf_step, newlinesSpec]
    simp [ih]
  | case5 d rest hd ih =>
    rw [crlf_other _ _ (by simp [hd]), newlinesSpec]
    simp [hd, ih]
  | case6 c d rest hc ih =>
    rw [crlf_other _ _ (by simp [hc]), newlinesSpec]
    simp [hc, ih]

theorem Newlines_no_CR (s : Str) : '\r' ∉ Newlines s := by
  rw [Newlines_eq_map]
  intro h
  obtain ⟨c, -, hc⟩ := List.mem_map.mp h
  by_cases hcr : c = '\r'
  · rw [if_pos hcr] at hc
    exact absurd hc (by decide)
  · rw [if_neg hcr] at hc
    exact hcr hc

theorem count_one (c : Char) (prev : Option Char) :
    (if c = '\n' then 1 else 0) =
      (if c = '\n' ∧ prev ≠ some '\r' then 1 else 0) +
        (if c = '\n' ∧ prev = some '\r' then 1 else 0) := by
  by_cases hn : c = '\n' <;> by_cases hp : prev = some '\r' <;> simp [hn, hp]

theorem count_spec (s : Str) : ∀ prev : Option Char,
    (newlinesSpec s).count '\n' =
      countCRLF s + countLoneCR s + countLoneLFAfter prev s +
        (if s.head? = some '\n' ∧ prev = some '\r' then 1 else 0) := by
  induction s using newlinesSpec.induct with
  | case1 =>
    intro prev
    simp [newlinesSpec, countCRLF, countLoneCR, countLoneLFAfter]
  | case2 =>
    intro prev
    simp [newlinesSpec, countCRLF, countLoneCR, countLoneLFAfter]
  | case3 c hc =>
    intro prev
    have h1 := count_one c prev
    have hcount : List.count '\n' [c] = if c = '\n' then 1 else 0 := by
      by_cases hn : c = '\n'
      · simp [hn]
      · have hn2 : (c == '\n') = false := by simpa using hn
        simp [List.count_cons, hn, hn2]
    simp only [newlinesSpec, if_neg hc, hcount, countCRLF, countLoneCR, countLoneLFAfter,
      List.head?_cons, Option.some.injEq, hc, false_and, if_false, Nat.zero_add, Nat.add_zero]
    exact h1
  | case4 rest ih =>
    intro prev
    rw [newlinesSpec]
    simp only [if_true, List.count_cons_self, ih (some '\n')]
    simp [countCRLF, countLoneCR, countLoneLFAfter]
    omega
  | case5 d rest hd ih =>
    intro prev
    rw [newlinesSpec]
    simp only [if_true, if_neg hd, List.count_cons_self, ih (some '\r')]
    simp [countCRLF, countLoneCR, countLoneLFAfter, hd]
    omega
  | case6 c d rest hc ih =>
    intro prev
    have h1 := count_one c prev
    have hcount : ∀ l : Str, List.count '\n' (c :: l) =
        (if c = '\n' then 1 else 0) + List.count '\n' l := by
      intro l
      by_cases hn : c = '\n'
      · simp [hn]
        omega
      · have hn2 : (c == '\n') = false := by simpa using hn
        simp [List.count_cons, hn, hn2]
    rw [newlinesSpec]
    simp only [if_neg hc, hcount, ih (some c)]
    have hcr : ¬ (d = '\n' ∧ c = '\r') := fun h => hc h.2
    simp only [countCRLF, countLoneCR, countLoneLFAfter, List.head?_cons, Option.some.injEq, hc,
      false_and, and_false, if_false, Nat.zero_add, hcr]
    omega

/-- C21: `Newlines(s)` holds no CR and is `s` with each CRLF pair and each CR not
followed by LF replaced by one LF, all else unchanged and in order; its number
of LF is the number of CRLF pairs plus lone CRs plus lone LFs of `s`; and the
parser's `normalizeNewlines` returns the same as `Newlines`. -/
theorem Newlines_spec (s : Str) :
    '\r' ∉ Newlines s ∧ Newlines s = newlinesSpec s ∧
      (Newlines s).count '\n' = countCRLF s + countLoneCR s + countLoneLF s ∧
      parser.normalizeNewlines s = Newlines s := by
  refine ⟨Newlines_no_CR s, Newlines_eq_spec s, ?_, rfl⟩
  rw [Newlines_eq_spec, count_spec s none]
  simp [countLoneLF]

end normalize

end ChordParser

namespace ChordParser

namespace parser

theorem flush_nonempty (st : ParseState) (h : ∀ s ∈ st.sections, s.Content ≠ []) :
    ∀ s ∈ flush st, s.Content ≠ [] := by
  unfold flush
  split
  · rename_i hlen
    intro s hs
    rcases List.mem_append.mp hs with hs | hs
    · exact h s hs
    · simp only [List.mem_singleton] at hs
      rw [hs]
      intro h0
      simp only at h0
      rw [h0] at hlen
      simp at hlen
  · exact h

theorem parseLine_nonempty (st : ParseState) (line : Str) (r : Str × Int × Bool)
    (h : ∀ s ∈ st.sections, s.Content ≠ []) :
    ∀ s ∈ (parseLine st line r).sections, s.Content ≠ [] := by
  unfold parseLine
  split
  · exact flush_nonempty st h
  · exact h

theorem parseLoop_nonempty (enums : Nat → Table) (lines : List Str) :
    ∀ (i : Nat) (st st2 : ParseState), (∀ s ∈ st.sections, s.Content ≠ []) →
      parseLoop enums i lines st = some st2 → ∀ s ∈ st2.sections, s.Content ≠ [] := by
  induction lines with
  | nil =>
    intro i st st2 h e
    simp only [parseLoop, Option.some.injEq] at e
    rw [← e]
    exact h
  | cons line rest ih =>
    intro i st st2 h e
    rw [parseLoop] at e
    split at e
    · cases e
    · exact ih (i + 1) _ st2 (parseLine_nonempty st line _ h) e

theorem makeUniqueHeaders_nonempty (l : List Section) (h : ∀ s ∈ l, s.Content ≠ []) :
    ∀ s ∈ makeUniqueHeaders l, s.Content ≠ [] := by
  have hc := renumber_contents (countBases l (fun _ => 0)) l (fun _ => 0)
  intro s hs
  have hm : s.Content ∈ (makeUniqueHeaders l).map Section.Content := List.mem_map_of_mem _ hs
  unfold makeUniqueHeaders at hm
  rw [hc] at hm
  obtain ⟨s0, hs0, e⟩ := List.mem_map.mp hm
  rw [← e]
  exact h s0 hs0

/-- C26: `Parse` returns, and every section it returns has at least one content
line, because a section is emitted only from a non-empty buffer: a header met
with an empty buffer (right after another header) and the end of the text met
with an empty buffer (right after a header) add no section. -/
theorem Parse_sections_nonempty (enums : Nat → Table) (text : Str) :
    (∃ secs, Parse enums text = some secs ∧ ∀ s ∈ secs, s.Content ≠ []) ∧
      (∀ (st : ParseState) (line b : Str) (n : Int), st.content = [] →
        (parseLine st line (b, n, true)).sections = st.sections) ∧
      (∀ st : ParseState, st.content = [] → flush st = st.sections) := by
  refine ⟨?_, ?_, ?_⟩
  · obtain ⟨st2, hst2⟩ := parseLoop_isSome enums
      (strings.Split (normalize.Newlines text) '\n') 0 ⟨[], GENERAL, [], false⟩
    have hinv := parseLoop_nonempty enums _ 0 _ st2 (by simp) hst2
    unfold Parse
    simp only
    rw [hst2]
    refine ⟨_, rfl, ?_⟩
    split
    · exact makeUniqueHeaders_nonempty _ (flush_nonempty st2 hinv)
    · exact flush_nonempty st2 hinv
  · intro st line b n h
    simp [parseLine, flush, h]
  · intro st h
    simp [flush, h]

end parser

end ChordParser

namespace ChordParser

namespace parser

set_option maxRecDepth 100000 in
/-- C23 fails on the table: the key `chorus` (label `CHORUS`) is a substring of
the keys `prechorus` and `pre-chorus` (label `PRE-CHORUS`) and of `postchorus`
and `post-chorus` (label `POST-CHORUS`); these are the only such pairs. -/
theorem keywordCanonical_collisions :
    mapGet keywordCanonical "chorus".toList = some "CHORUS".toList ∧
    mapGet keywordCanonical "prechorus".toList = some "PRE-CHORUS".toList ∧
    strings.Contains "prechorus".toList "chorus".toList = true ∧
    ¬ (∀ kv1 ∈ keywordCanonical, ∀ kv2 ∈ keywordCanonical,
        kv1.2 ≠ kv2.2 → strings.Contains kv2.1 kv1.1 = false) ∧
    (∀ kv1 ∈ keywordCanonical, ∀ kv2 ∈ keywordCanonical,
        kv1.2 ≠ kv2.2 → strings.Contains kv2.1 kv1.1 = true →
        kv1.1 = "chorus".toList ∧
          kv2.1 ∈ ["prechorus".toList, "pre-chorus".toList, "postchorus".toList,
            "post-chorus".toList]) := by
  decide

set_option maxRecDepth 100000 in
/-- C24 fails on the code: for the line `(Pre-Chorus)` the substring scan finds
`chorus` first when the table is enumerated as listed in the source and
`prechorus` first when it is enumerated in the reverse order, so `detectHeader`
answers `CHORUS` or `PRE-CHORUS`, and `Parse` labels the section accordingly. -/
theorem detectHeader_depends_on_scan_order :
    keywordCanonical.reverse.Perm keywordCanonical ∧
    detectHeader keywordCanonical "(Pre-Chorus)".toList = some ("CHORUS".toList, 0, true) ∧
    detectHeader keywordCanonical.reverse "(Pre-Chorus)".toList =
      some ("PRE-CHORUS".toList, 0, true) ∧
    Parse (fun _ => keywordCanonical) "(Pre-Chorus)\nla".toList =
      some [⟨"CHORUS".toList, ["la".toList]⟩] ∧
    Parse (fun _ => keywordCanonical.reverse) "(Pre-Chorus)\nla".toList =
      some [⟨"PRE-CHORUS".toList, ["la".toList]⟩] := by
  refine ⟨List.reverse_perm _, ?_, ?_, ?_, ?_⟩ <;> decide

end parser

end ChordParser

namespace ChordParser

namespace strings

theorem replaceGo_delete (a : Char) (s : Str) :
    replaceGo [a] [] 0 s = s.filter (fun c => !(c == a)) := by
  induction s with
  | nil => rfl
  | cons c cs ih =>
    unfold replaceGo
    by_cases hc : c = a
    · subst hc
      simp [List.isPrefixOf, ih]
    · have hc2 : a ≠ c := fun h => hc h.symm
      simp [List.isPrefixOf, hc, hc2, ih]

theorem dropWhile_append_cases (p : Char → Bool) (x y : Str) :
    (x ++ y).dropWhile p = if x.dropWhile p = [] then y.dropWhile p else x.dropWhile p ++ y := by
  by_cases h : x.dropWhile p = []
  · rw [if_pos h]
    have hx : ∀ c ∈ x, p c = true := List.dropWhile_eq_nil_iff.mp h
    clear h
    induction x with
    | nil => rfl
    | cons c cs ih =>
      rw [List.cons_append, List.dropWhile_cons_of_pos (hx c (List.mem_cons_self _ _))]
      exact ih (fun d hd => hx d (List.mem_cons_of_mem _ hd))
  · rw [if_neg h]
    exact dropWhile_append_of_ne_nil p x y h

theorem rdropWhile_append_cases (p : Char → Bool) (x y : Str) :
    List.rdropWhile p (x ++ y) =
      if List.rdropWhile p y = [] then List.rdropWhile p x else x ++ List.rdropWhile p y := by
  induction y using List.reverseRecOn with
  | nil => simp
  | append_singleton l a ih =>
    by_cases ha : p a = true
    · rw [← List.append_assoc, List.rdropWhile_concat_pos p _ a ha,
        List.rdropWhile_concat_pos p l a ha]
      exact ih
    · rw [← List.append_assoc, List.rdropWhile_concat_neg p _ a ha,
        List.rdropWhile_concat_neg p l a ha, if_neg (by simp)]
      simp

end strings

namespace normalize

/-- What `KeyWith` does after trimming: the three separators are deleted. -/
theorem KeyWith_eq (lower : Char → Char) (s : Str) :
    KeyWith lower s =
      ((strings.TrimSpace s).filter
        (fun c => !(c == '-') && !(c == '_') && !(c == ' '))).map lower := by
  unfold KeyWith strings.ReplaceAll
  simp only [strings.replaceGo_delete, List.filter_filter]
  congr 1
  apply List.filter_congr
  intro c _
  cases (c == '-') <;> cases (c == '_') <;> cases (c == ' ') <;> rfl

theorem Key_eq_KeyWith (s : Str) : Key s = KeyWith unicode.ToLower s := rfl

theorem trim_blank_between (a b : Str) :
    (strings.TrimSpace (a ++ ' ' :: b)).filter
        (fun c => !(c == '-') && !(c == '_') && !(c == ' ')) =
      (strings.TrimSpace (a ++ b)).filter
        (fun c => !(c == '-') && !(c == '_') && !(c == ' ')) := by
  have hsp : unicode.IsSpace ' ' = true := by decide
  unfold strings.TrimSpace
  rw [strings.dropWhile_append_cases, strings.dropWhile_append_cases _ a b,
    List.dropWhile_cons_of_pos hsp]
  by_cases hA : a.dropWhile unicode.IsSpace = []
  · rw [if_pos hA, if_pos hA]
  · rw [if_neg hA, if_neg hA, strings.rdropWhile_append_cases,
      strings.rdropWhile_append_cases _ _ b]
    have hcons : List.rdropWhile unicode.IsSpace (' ' :: b) =
        if List.rdropWhile unicode.IsSpace b = [] then []
        else ' ' :: List.rdropWhile unicode.IsSpace b := by
      have := strings.rdropWhile_append_cases unicode.IsSpace [' '] b
      rw [List.singleton_append] at this
      rw [this]
      have h1 : List.rdropWhile unicode.IsSpace [' '] = [] :=
        List.rdropWhile_concat_pos unicode.IsSpace [] ' ' hsp
      rw [h1]
      rfl
    rw [hcons]
    by_cases hB : List.rdropWhile unicode.IsSpace b = []
    · rw [if_pos hB, if_pos rfl, if_pos hB]
    · rw [if_neg hB, if_neg (by simp), if_neg hB]
      simp [List.filter_append, List.filter_cons]

theorem trim_sep_between (a b : Str) (c : Char) (hc : c = '-' ∨ c = '_')
    (ha : a.getLast?.map unicode.IsSpace ≠ some true)
    (hb : b.head?.map unicode.IsSpace ≠ some true) :
    (strings.TrimSpace (a ++ c :: b)).filter
        (fun c => !(c == '-') && !(c == '_') && !(c == ' ')) =
      (strings.TrimSpace (a ++ b)).filter
        (fun c => !(c == '-') && !(c == '_') && !(c == ' ')) := by
  have hcs : unicode.IsSpace c = false := by
    rcases hc with rfl | rfl <;> decide
  have hcf : (!(c == '-') && !(c == '_') && !(c == ' ')) = false := by
    rcases hc with rfl | rfl <;> decide
  have hdb : b.dropWhile unicode.IsSpace = b := by
    cases b with
    | nil => rfl
    | cons d ds =>
      have hd : unicode.IsSpace d = false := by
        cases h : unicode.IsSpace d with
        | false => rfl
        | true => exact absurd (by simp [h]) hb
      simp [List.dropWhile_cons, hd]
  have hcons : List.rdropWhile unicode.IsSpace (c :: b) =
      c :: List.rdropWhile unicode.IsSpace b := by
    have := strings.rdropWhile_append_cases unicode.IsSpace [c] b
    rw [List.singleton_append] at this
    rw [this]
    have h1 : List.rdropWhile unicode.IsSpace [c] = [c] :=
      List.rdropWhile_concat_neg unicode.IsSpace [] c (by simp [hcs])
    rw [h1]
    by_cases hB : List.rdropWhile unicode.IsSpace b = []
    · rw [if_pos hB, hB]
    · rw [if_neg hB]
      rfl
  unfold strings.TrimSpace
  rw [strings.dropWhile_append_cases, strings.dropWhile_append_cases _ a b,
    List.dropWhile_cons_of_neg (by simp [hcs]), hdb]
  by_cases hA : a.dropWhile unicode.IsSpace = []
  · rw [if_pos hA, if_pos hA, hcons, List.filter_cons, hcf]
    rfl
  · rw [if_neg hA, if_neg hA, strings.rdropWhile_append_cases,
      strings.rdropWhile_append_cases _ _ b, hcons, if_neg (by simp)]
    have hlast : (a.dropWhile unicode.IsSpace).getLast? = a.getLast? := by
      have e := List.takeWhile_append_dropWhile unicode.IsSpace a
      conv_rhs => rw [← e]
      rw [List.getLast?_append_of_ne_nil _ hA]
    by_cases hB : List.rdropWhile unicode.IsSpace b = []
    · rw [if_pos hB, hB]
      have hself : List.rdropWhile unicode.IsSpace (a.dropWhile unicode.IsSpace) =
          a.dropWhile unicode.IsSpace := by
        rw [List.rdropWhile_eq_self_iff]
        intro hl h
        apply ha
        rw [← hlast, List.getLast?_eq_getLast _ hl]
        simp [h]
      rw [hself]
      simp [List.filter_append, List.filter_cons, hcf]
    · rw [if_neg hB]
      simp [List.filter_append, List.filter_cons, hcf]

/-- C22 as stated fails: a hyphen next to a tab at the end of the text keeps the
tab from being trimmed, so `Key("x\t-")` has two characters and `Key("x\t")`
one, whatever the case mapping does. -/
theorem Key_not_separator_insensitive :
    (¬ ∀ (a b : Str) (c : Char), (c = '-' ∨ c = '_' ∨ c = ' ') →
        Key (a ++ c :: b) = Key (a ++ b)) ∧
      ∀ lower : Char → Char,
        KeyWith lower ("x\t".toList ++ '-' :: []) ≠ KeyWith lower ("x\t".toList ++ []) := by
  constructor
  · intro h
    exact absurd (h "x\t".toList [] '-' (Or.inl rfl)) (by decide)
  · intro lower h
    rw [KeyWith_eq, KeyWith_eq] at h
    have e1 : (strings.TrimSpace ("x\t".toList ++ '-' :: [])).filter
        (fun c => !(c == '-') && !(c == '_') && !(c == ' ')) = ['x', '\t'] := by decide
    have e2 : (strings.TrimSpace ("x\t".toList ++ [])).filter
        (fun c => !(c == '-') && !(c == '_') && !(c == ' ')) = ['x'] := by decide
    rw [e1, e2] at h
    simp at h

/-- C22, amended: for all strings `a`, `b` of valid UTF-8 text (a `Str`) and
every separator `c` among `-`, `_` and the space, `Key(a + c + b) = Key(a + b)`
when `c` is the space, or when `a` does not end and `b` does not begin with a
white space character.  It holds whatever `unicode.ToLower` does to a
character (`KeyWith lower` for every `lower`), and so for `Key` as embedded. -/
theorem Key_separator_insensitive (a b : Str) (c : Char) (hc : c = '-' ∨ c = '_' ∨ c = ' ')
    (h : c = ' ' ∨ (a.getLast?.map unicode.IsSpace ≠ some true ∧
      b.head?.map unicode.IsSpace ≠ some true)) :
    (∀ lower : Char → Char, KeyWith lower (a ++ c :: b) = KeyWith lower (a ++ b)) ∧
      Key (a ++ c :: b) = Key (a ++ b) := by
  have key : ∀ lower : Char → Char, KeyWith lower (a ++ c :: b) = KeyWith lower (a ++ b) := by
    intro lower
    rw [KeyWith_eq, KeyWith_eq]
    congr 1
    by_cases hsp : c = ' '
    · subst hsp
      exact trim_blank_between a b
    · have hc2 : c = '-' ∨ c = '_' := by
        rcases hc with h1 | h1 | h1
        · exact Or.inl h1
        · exact Or.inr h1
        · exact absurd h1 hsp
      rcases h with h | ⟨ha, hb⟩
      · exact absurd h hsp
      · exact trim_sep_between a b c hc2 ha hb
  refine ⟨key, ?_⟩
  rw [Key_eq_KeyWith, Key_eq_KeyWith]
  exact key unicode.ToLower

/-- Witness for C22: `pre-chorus` and `prechorus` have the same key. -/
theorem Key_separator_insensitive_witness :
    (∀ lower : Char → Char,
        KeyWith lower ("pre".toList ++ '-' :: "chorus".toList) =
          KeyWith lower ("pre".toList ++ "chorus".toList)) ∧
      Key ("pre".toList ++ '-' :: "chorus".toList) = Key ("pre".toList ++ "chorus".toList) :=
  Key_separator_insensitive "pre".toList "chorus".toList '-' (Or.inl rfl)
    (Or.inr ⟨by decide, by decide⟩)

end normalize

end ChordParser

namespace ChordParser

namespace regexp

theorem lastOr_cons (prev : Option Char) (c : Char) (pre : Str) :
    lastOr prev (c :: pre) = lastOr (some c) pre := by
  cases pre with
  | nil => rfl
  | cons d ds =>
    unfold lastOr
    rw [List.getLast?_cons_cons]
    cases h : (d :: ds).getLast? with
    | none => simp at h
    | some x => rfl

/-- Where the expression matches at no position of the text, each position taken
with the character before it, nothing is replaced. -/
theorem replaceAllGo_no_match_at (re : Regex) (repl : Str → Str) :
    ∀ (s : Str) (prev : Option Char),
      (∀ pre suf, s = pre ++ suf → suf ≠ [] → run re ⟨lastOr prev pre, suf⟩ = []) →
      replaceAllGo re repl 0 prev s = s := by
  intro s
  induction s with
  | nil =>
    intro prev _
    rfl
  | cons c cs ih =>
    intro prev h
    have h0 := h [] (c :: cs) rfl (by simp)
    rw [replaceAllGo_cons_none re repl prev c cs h0, ih (some c)]
    intro pre suf e hne
    rw [← lastOr_cons prev c pre]
    exact h (c :: pre) suf (by simp [e]) hne

end regexp

namespace strings

theorem fieldsGo_after_space (A0 X : Str) (w : Char) (hw : unicode.IsSpace w = true) :
    ∀ cur, fieldsGo cur (A0 ++ w :: X) = fieldsGo cur (A0 ++ [w]) ++ fieldsGo [] X := by
  induction A0 with
  | nil =>
    intro cur
    simp only [List.nil_append, fieldsGo, hw, if_true]
    by_cases hc : cur = []
    · simp [hc]
    · simp [hc]
  | cons c cs ih =>
    intro cur
    simp only [List.cons_append]
    rw [fieldsGo, fieldsGo]
    by_cases hc : unicode.IsSpace c = true
    · simp only [hc, if_true]
      by_cases hcur : cur = []
      · simp only [hcur, if_true]
        exact ih []
      · simp only [hcur, if_false, List.cons_append]
        rw [ih []]
    · simp only [hc]
      exact ih _

theorem Fields_ws (W : Str) (hW : ∀ c ∈ W, unicode.IsSpace c = true) : Fields W = [] := by
  unfold Fields
  induction W with
  | nil => rfl
  | cons c cs ih =>
    rw [fieldsGo]
    simp only [hW c (List.mem_cons_self _ _), if_true]
    exact ih (fun d hd => hW d (List.mem_cons_of_mem _ hd))

/-- A run of characters that are no white space, with white space or an end of
the text on either side, is a field of the text. -/
theorem Fields_split (A tok B : Str)
    (hA : A = [] ∨ ∃ A0 w, A = A0 ++ [w] ∧ unicode.IsSpace w = true)
    (hne : tok ≠ []) (htok : ∀ c ∈ tok, unicode.IsSpace c = false)
    (hB : B = [] ∨ ∃ w B0, B = w :: B0 ∧ unicode.IsSpace w = true) :
    Fields (A ++ (tok ++ B)) = Fields A ++ tok :: Fields B := by
  have h2 : fieldsGo [] (tok ++ B) = tok :: Fields B := by
    rw [fieldsGo_append tok B [] htok, List.nil_append]
    rcases hB with rfl | ⟨w, B0, rfl, hw⟩
    · simp [fieldsGo, Fields, hne]
    · unfold Fields
      rw [fieldsGo, fieldsGo]
      simp [hw, hne]
  rcases hA with rfl | ⟨A0, w, rfl, hw⟩
  · exact h2
  · unfold Fields
    rw [List.append_assoc, List.singleton_append, fieldsGo_after_space A0 _ w hw [], h2]
    rfl

end strings

end ChordParser

namespace ChordParser

namespace processor
open regexp

theorem isDigit_not_unicode_space (c : Char) (h : isDigit c = true) :
    unicode.IsSpace c = false := by
  unfold isDigit at h
  unfold unicode.IsSpace
  simp only [Bool.and_eq_true, decide_eq_true_eq] at h
  simp only [Bool.or_eq_false_iff, Bool.and_eq_false_imp, decide_eq_true_eq,
    decide_eq_false_iff_not, beq_eq_false_iff_ne, ne_eq]
  omega

theorem times_not_unicode_space (x : Char) (h : x = 'x' ∨ x = '×') :
    unicode.IsSpace x = false ∧ isTimes x = true := by
  rcases h with rfl | rfl <;> exact ⟨by decide, by decide⟩

theorem isDigitRun_of (D : Str) (hD : D ≠ []) (hDd : ∀ c ∈ D, isDigit c = true) :
    isDigitRun D = true := by
  unfold isDigitRun
  simp only [Bool.and_eq_true, Bool.not_eq_true', List.isEmpty_eq_false, List.all_eq_true]
  exact ⟨hD, hDd⟩

theorem lone_times (x : Char) (h : x = 'x' ∨ x = '×') : ([x] == ['x'] || [x] == ['×']) = true := by
  rcases h with rfl | rfl <;> decide

theorem isSplitRepeat_digits_times (D : Str) (x : Char) (hD : D ≠ [])
    (hDd : ∀ c ∈ D, isDigit c = true) (hx : x = 'x' ∨ x = '×') :
    isSplitRepeat D [x] = true ∧ isSplitRepeat [x] D = true := by
  unfold isSplitRepeat
  rw [isDigitRun_of D hD hDd, lone_times x hx]
  simp

theorem hasSplitRepeat_chain (l : List Str) (h : hasSplitRepeat l = false) :
    l.Chain' (fun a b => isSplitRepeat a b = false) := by
  induction l with
  | nil => exact List.chain'_nil
  | cons a rest ih =>
    cases rest with
    | nil => exact List.chain'_singleton a
    | cons b r =>
      rw [hasSplitRepeat, Bool.or_eq_false_iff] at h
      rw [List.chain'_cons]
      exact ⟨h.1, ih h.2⟩

/-- A match of `reRepeatToken` in a text: a token of the text is a repeat count,
or two neighbouring tokens spell one. -/
theorem repeat_token_in_fields (s pre suf M t : Str) (e : s = pre ++ suf) (e2 : suf = M ++ t)
    (hM : RepeatTokenAt (lastOr none pre) M t) :
    (∃ tok ∈ strings.Fields s, isRepeatWord tok = true) ∨
      ¬ (strings.Fields s).Chain' (fun a b => isSplitRepeat a b = false) := by
  obtain ⟨lead, tok, trail, rfl, hlead, htok, htrail⟩ := hM
  have hA : pre ++ lead = [] ∨ ∃ A0 w, pre ++ lead = A0 ++ [w] ∧ unicode.IsSpace w = true := by
    rcases hlead with ⟨rfl, hp⟩ | ⟨c, rfl, hc⟩
    · left
      cases pre using List.reverseRecOn with
      | nil => rfl
      | append_singleton l a =>
        unfold lastOr at hp
        simp at hp
    · exact Or.inr ⟨pre, c, rfl, isSpace_unicode c hc⟩
  have hB : trail ++ t = [] ∨ ∃ w B0, trail ++ t = w :: B0 ∧ unicode.IsSpace w = true := by
    rcases htrail with ⟨c, rfl, hc⟩ | ⟨rfl, rfl⟩
    · exact Or.inr ⟨c, t, rfl, isSpace_unicode c hc⟩
    · exact Or.inl rfl
  have hs : ∀ u : Str, tok = u → s = (pre ++ lead) ++ (u ++ (trail ++ t)) := by
    intro u hu
    rw [e, e2, ← hu]
    simp
  obtain ⟨D, W, x, hD, hDd, hW, hx, rfl | rfl⟩ := htok
  · -- digits, white space, times
    have hDs : ∀ c ∈ D, unicode.IsSpace c = false :=
      fun c hc => isDigit_not_unicode_space c (hDd c hc)
    cases W using List.reverseRecOn with
    | nil =>
      left
      refine ⟨D ++ [x], ?_, ?_⟩
      · rw [hs (D ++ [x]) (by simp), strings.Fields_split _ (D ++ [x]) _ hA (by simp) ?_ hB]
        · simp
        · intro c hc
          rcases List.mem_append.mp hc with h | h
          · exact hDs c h
          · simp only [List.mem_singleton] at h
            rw [h]
            exact (times_not_unicode_space x hx).1
      · unfold isRepeatWord
        simp [(times_not_unicode_space x hx).2, isDigitRun_of D hD hDd]
    | append_singleton W0 w =>
      right
      have hw : unicode.IsSpace w = true := isSpace_unicode w (hW w (by simp))
      have hW0 : ∀ c ∈ W0 ++ [w], unicode.IsSpace c = true :=
        fun c hc => isSpace_unicode c (hW c hc)
      have hBx : strings.Fields ((W0 ++ [w]) ++ ([x] ++ (trail ++ t))) =
          [x] :: strings.Fields (trail ++ t) := by
        rw [strings.Fields_split _ [x] _ (Or.inr ⟨W0, w, rfl, hw⟩) (by simp)
          (by simp [(times_not_unicode_space x hx).1]) hB, strings.Fields_ws _ hW0]
        rfl
      have hBhead : (W0 ++ [w]) ++ ([x] ++ (trail ++ t)) = [] ∨
          ∃ v B0, (W0 ++ [w]) ++ ([x] ++ (trail ++ t)) = v :: B0 ∧ unicode.IsSpace v = true := by
        right
        cases W0 with
        | nil => exact ⟨w, _, rfl, hw⟩
        | cons v vs => exact ⟨v, _, rfl, hW0 v (by simp)⟩
      have hF : strings.Fields s =
          strings.Fields (pre ++ lead) ++ D :: [x] :: strings.Fields (trail ++ t) := by
        have es : s = (pre ++ lead) ++ (D ++ ((W0 ++ [w]) ++ ([x] ++ (trail ++ t)))) := by
          rw [e, e2]
          simp
        rw [es, strings.Fields_split _ D _ hA hD hDs hBhead, hBx]
      rw [hF]
      intro hch
      have h1 := (List.chain'_append.mp hch).2.1
      rw [List.chain'_cons] at h1
      have h2 := h1.1
      rw [(isSplitRepeat_digits_times D x hD hDd hx).1] at h2
      cases h2
  · -- times, white space, digits
    have hDs : ∀ c ∈ D, unicode.IsSpace c = false :=
      fun c hc => isDigit_not_unicode_space c (hDd c hc)
    cases W using List.reverseRecOn with
    | nil =>
      left
      refine ⟨x :: D, ?_, ?_⟩
      · rw [hs (x :: D) (by simp), strings.Fields_split _ (x :: D) _ hA (by simp) ?_ hB]
        · simp
        · intro c hc
          rcases List.mem_cons.mp hc with h | h
          · rw [h]
            exact (times_not_unicode_space x hx).1
          · exact hDs c h
      · unfold isRepeatWord
        simp [(times_not_unicode_space x hx).2, isDigitRun_of D hD hDd]
    | append_singleton W0 w =>
      right
      have hw : unicode.IsSpace w = true := isSpace_unicode w (hW w (by simp))
      have hW0 : ∀ c ∈ W0 ++ [w], unicode.IsSpace c = true :=
        fun c hc => isSpace_unicode c (hW c hc)
      have hBx : strings.Fields ((W0 ++ [w]) ++ (D ++ (trail ++ t))) =
          D :: strings.Fields (trail ++ t) := by
        rw [strings.Fields_split _ D _ (Or.inr ⟨W0, w, rfl, hw⟩) hD hDs hB,
          strings.Fields_ws _ hW0]
        rfl
      have hBhead : (W0 ++ [w]) ++ (D ++ (trail ++ t)) = [] ∨
          ∃ v B0, (W0 ++ [w]) ++ (D ++ (trail ++ t)) = v :: B0 ∧ unicode.IsSpace v = true := by
        right
        cases W0 with
        | nil => exact ⟨w, _, rfl, hw⟩
        | cons v vs => exact ⟨v, _, rfl, hW0 v (by simp)⟩
      have hF : strings.Fields s =
          strings.Fields (pre ++ lead) ++ [x] :: D :: strings.Fields (trail ++ t) := by
        have es : s = (pre ++ lead) ++ ([x] ++ ((W0 ++ [w]) ++ (D ++ (trail ++ t)))) := by
          rw [e, e2]
          simp
        rw [es, strings.Fields_split _ [x] _ hA (by simp)
          (by simp [(times_not_unicode_space x hx).1]) hBhead, hBx]
      rw [hF]
      intro hch
      have h1 := (List.chain'_append.mp hch).2.1
      rw [List.chain'_cons] at h1
      have h2 := h1.1
      rw [(isSplitRepeat_digits_times D x hD hDd hx).2] at h2
      cases h2

/-- C25 as stated fails: in `a 2 x b` no token has the form digits-`x` or
`x`-digits, and the repeat-token step removes ` 2 x`. -/
theorem repeat_token_step_changes_line :
    ¬ ∀ s : Str, (∀ tok ∈ strings.Fields s, isRepeatWord tok = false) →
        ReplaceAllStringFunc reRepeatToken s keepLeadingSpace = s := by
  intro h
  exact absurd (h "a 2 x b".toList (by decide)) (by decide)

/-- C25, amended: for every line none of whose whitespace-delimited tokens has
the form digits followed by `x`/`×` or `x`/`×` followed by digits, and in which
no token that is a run of digits stands next to a token that is a lone `x` or
`×`, the `reRepeatToken` replacement leaves the line unchanged. -/
theorem repeat_token_step_unchanged (s : Str)
    (h1 : ∀ tok ∈ strings.Fields s, isRepeatWord tok = false)
    (h2 : hasSplitRepeat (strings.Fields s) = false) :
    ReplaceAllStringFunc reRepeatToken s keepLeadingSpace = s := by
  apply replaceAllGo_no_match_at
  intro pre suf e _
  rw [List.eq_nil_iff_forall_not_mem]
  intro q hq
  obtain ⟨M, e2, hM⟩ := Spec_rest _ _ Spec_reRepeatToken _ q hq
  rcases repeat_token_in_fields s pre suf M q.rest e e2 hM with ⟨tok, htok, hr⟩ | hno
  · rw [h1 tok htok] at hr
    cases hr
  · exact hno (hasSplitRepeat_chain _ h2)

/-- Witness for C25: a line with digits, a lone `x` and a word ending in `x`. -/
theorem repeat_token_step_unchanged_witness :
    ReplaceAllStringFunc reRepeatToken "la 2 la x 3a box".toList keepLeadingSpace =
      "la 2 la x 3a box".toList :=
  repeat_token_step_unchanged "la 2 la x 3a box".toList (by decide) (by decide)

end processor

end ChordParser
